import Mathlib

/-!
# Verification of the Obsidian smart-merge engine of `google-gmail-tool`

A shallow embedding, over `List Char`, of the merge-based file
synchronization core of the repository: the calendar exporter
(`obsidian_calendar_exporter.py`), the task exporter
(`obsidian_task_exporter.py`), the normalization steps of the API clients
(`calendar_client._process_event`, `task_client._process_task`) and the
multi-date export loops of the CLI commands.  Python strings are modelled
as `List Char`; `re` searches over `MULTILINE` strings are modelled
positionally, with the exact greedy-plus-backtracking semantics of the
patterns the source uses (`^## Calendar\s*$`, `^## Tasks\s*$`, `^## `,
checklist-item patterns).  Python `dict` construction with last-write-wins
assignment is modelled by an association list read from the right.
-/

namespace GGT

/-- Python strings, by character. -/
abbrev Str := List Char

/-- Python `str.isspace` / regex `\s` on the characters this code meets. -/
def isPySpace (c : Char) : Bool :=
  c = ' ' || c = '\t' || c = '\n' || c = '\r' || c = '\x0b' || c = '\x0c'

/-- Python `str.lstrip()`. -/
def lstrip (s : Str) : Str := s.dropWhile isPySpace

/-- Python `str.rstrip()`. -/
def rstrip (s : Str) : Str := (s.reverse.dropWhile isPySpace).reverse

/-- Python `str.strip()`. -/
def strip (s : Str) : Str := lstrip (rstrip s)

/-- Python `str.split("\n")`: always at least one piece, `""` gives `[""]`. -/
def splitLines : Str → List Str
  | [] => [[]]
  | c :: t =>
    if c = '\n' then [] :: splitLines t
    else
      match splitLines t with
      | [] => [[c]]
      | l :: ls => (c :: l) :: ls

/-- Python `"\n".join(lines)`. -/
def joinLines (ls : List Str) : Str := List.intercalate ['\n'] ls

/-- The part of `t` before the first occurrence of `sep` (all of `t` when
`sep` does not occur): Python `t.split(sep)[0]` for a non-empty `sep`. -/
def beforeSub (sep : Str) (t : Str) : Str :=
  match t with
  | [] => []
  | c :: r => if sep.isPrefixOf t then [] else c :: beforeSub sep r

/-! ## Positional model of the `re` searches

`re.search(r"^## <Name>\s*$", content, re.MULTILINE)` looks for the
leftmost position `i` at a line start where the heading characters occur,
followed by a greedy run of `\s` backtracked until `$` (end of string, or
just before a `'\n'`) matches.  `re.search(r"^## ", s, re.MULTILINE)`
looks for the leftmost line start carrying `"## "`. -/

/-- `^` of `re.MULTILINE`: position `i` starts a line of `s`. -/
def isLineStart (s : Str) (i : Nat) : Bool :=
  i = 0 || s[i-1]? = some '\n'

/-- `$` of `re.MULTILINE`: position `p` is the end of `s` or sits on a `'\n'`. -/
def atEOL (s : Str) (p : Nat) : Bool :=
  p = s.length || s[p]? = some '\n'

/-- Backtracking of the greedy `\s*` before `$`: the largest `k` at most the
whitespace-run length such that `base + k` satisfies `$`. -/
def backK (s : Str) (base : Nat) : Nat → Option Nat
  | 0 => if atEOL s base then some 0 else none
  | k+1 => if atEOL s (base + (k+1)) then some (k+1) else backK s base k

/-- Match of `^{h}\s*$` at position `i` of `s`: on success, the match end. -/
def headEndAt (h s : Str) (i : Nat) : Option Nat :=
  if isLineStart s i ∧ (s.drop i).take h.length = h then
    let base := i + h.length
    let w := ((s.drop base).takeWhile isPySpace).length
    (backK s base w).map (fun k => base + k)
  else none

/-- First match of `^{h}\s*$` at a position in `[i, i+fuel)`. -/
def findHeadAux (h s : Str) : Nat → Nat → Option (Nat × Nat)
  | _, 0 => none
  | i, fuel+1 =>
    match headEndAt h s i with
    | some e => some (i, e)
    | none => findHeadAux h s (i+1) fuel

/-- `re.search(r"^{h}\s*$", s, re.MULTILINE)`: leftmost match with its end. -/
def findHead (h s : Str) : Option (Nat × Nat) :=
  findHeadAux h s 0 (s.length + 1)

/-- `^## ` matches at position `j` of the string `t` (slice semantics:
position `0` counts as a line start). -/
def hhAt (t : Str) (j : Nat) : Bool :=
  isLineStart t j && (t.drop j).take 3 = ['#', '#', ' ']

/-- First position in `[j, j+fuel)` where `^## ` matches in `t`. -/
def findHHAux (t : Str) : Nat → Nat → Option Nat
  | _, 0 => none
  | j, fuel+1 => if hhAt t j then some j else findHHAux t (j+1) fuel

/-- `re.search(r"^## ", t, re.MULTILINE)` on a slice `t`: leftmost start. -/
def findHH (t : Str) : Option Nat := findHHAux t 0 (t.length + 1)

/-- The lazy `(.*?)(?=^## |\Z)` of the task merge: smallest `j ≥ start` that
is the string's end or a full-string line start carrying `"## "`. -/
def findHHOrEndAux (s : Str) : Nat → Nat → Nat
  | j, 0 => j
  | j, fuel+1 => if j = s.length || hhAt s j then j else findHHOrEndAux s (j+1) fuel

def findHHOrEnd (s : Str) (start : Nat) : Nat :=
  findHHOrEndAux s start (s.length + 1 - start)

/-! ## Shared pieces of both exporters -/

/-- The checklist-item pattern `- \[([ x])\] (.+)` anchored at the start of a
line, with `$` (calendar variant) or `(?:\n|$)` (task variant) closing it:
both deliver, for a line, the mark and the rest of the line, requiring at
least one character after the mark (`.` never crosses a newline, and a
single final newline is absorbed by `$`). -/
def matchChecklist (l : Str) : Option (Bool × Str) :=
  match l with
  | '-' :: ' ' :: '[' :: c :: ']' :: ' ' :: rest =>
    let body := if rest.getLast? = some '\n' then rest.dropLast else rest
    if (c = ' ' ∨ c = 'x') ∧ body ≠ [] ∧ '\n' ∉ body then some (c = 'x', body)
    else none
  | _ => none

/-- A Python `dict[str, bool]` built by repeated assignment, read from the
right so that the last assignment to a key wins. -/
def dfind (m : List (Str × Bool)) (k : Str) : Option Bool :=
  (m.reverse.find? (fun p => p.1 == k)).map Prod.snd

/-- `m.get(k, d)`. -/
def dget (m : List (Str × Bool)) (k : Str) (d : Bool) : Bool :=
  (dfind m k).getD d

/-! ## The calendar exporter (`obsidian_calendar_exporter.py`) -/

/-- The owned heading of the calendar exporter. -/
def hCal : Str := "## Calendar".data

/-- `_format_event_checklist`: the checklist text of one event. -/
structure Event where
  summary : Option Str
  isAllDay : Bool
  start : Str
  end_ : Str
  location : Option Str
deriving DecidableEq

def fmtEventChecklist (e : Event) : Str :=
  let s := e.summary.getD "(No title)".data
  let item :=
    if e.isAllDay then "All day: ".data ++ s
    else
      let startTime := if e.start.length > 16 then (e.start.drop 11).take 5 else e.start
      let endTime := if e.end_.length > 16 then (e.end_.drop 11).take 5 else e.end_
      startTime ++ ['-'] ++ endTime ++ [' '] ++ s
  match e.location with
  | some loc => if loc.isEmpty then item else item ++ " @ ".data ++ loc
  | none => item

/-- `item_text.split(" @ ")[0].strip()`: the signature carried by a
checklist item text. -/
def sigOfItemText (t : Str) : Str := strip (beforeSub " @ ".data t)

/-- `_parse_checked_items` of the calendar exporter: each line is stripped
before the checklist pattern is tried. -/
def parseCheckedItemsCal (calendarSection : Str) : List (Str × Bool) :=
  (splitLines calendarSection).foldl (fun m line =>
    match matchChecklist (strip line) with
    | some (mk, txt) => m ++ [(sigOfItemText (strip txt), mk)]
    | none => m) []

/-- The checklist line `- [{mark}] {item_text}` rendered for one event. -/
def calLine (m : List (Str × Bool)) (e : Event) : Str :=
  let t := fmtEventChecklist e
  let mark : Char := if dget m (sigOfItemText t) false then 'x' else ' '
  "- [".data ++ [mark] ++ "] ".data ++ t

/-- `_build_calendar_section`. -/
def buildCalendarSection (events : List Event) (m : List (Str × Bool)) : Str :=
  if events.isEmpty then joinLines [hCal, "- No events scheduled".data]
  else joinLines (hCal :: events.map (calLine m))

/-- `_extract_calendar_section`. -/
def extractCalendarSection (content : Str) : Str :=
  match findHead hCal content with
  | none => []
  | some (st, en) =>
    match findHH (content.drop en) with
    | some ns => strip ((content.drop st).take (en + ns - st))
    | none => strip (content.drop st)

/-- `_replace_calendar_section`. -/
def replaceCalendarSection (content newSec : Str) : Str :=
  match findHead hCal content with
  | none => rstrip content ++ "\n\n".data ++ newSec ++ ['\n']
  | some (_st, en) =>
    match findHH (content.drop en) with
    | some ns => content.take _st ++ newSec ++ "\n\n".data ++ content.drop (en + ns)
    | none => content.take _st ++ newSec ++ ['\n']

/-- `_build_frontmatter` (identical text in both exporters). -/
def frontmatter (dstr : Str) : Str :=
  joinLines ["---".data, "date: ".data ++ dstr, "type: daily".data,
    "tags:".data, "  - daily".data, "---".data]

/-- `export_events_to_daily`, at the level of file contents: the text
written, as a function of the prior text (`[]` when the file is absent),
the fetched events and the formatted target date. -/
def exportEventsContent (events : List Event) (dstr : Str) (existing : Str) : Str :=
  let checked := parseCheckedItemsCal (extractCalendarSection existing)
  let sec := buildCalendarSection events checked
  if existing.isEmpty then
    frontmatter dstr ++ "\n\n# ".data ++ dstr ++ "\n\n".data ++ sec
  else replaceCalendarSection existing sec

/-! ## Dates

`datetime` values as the task exporter consumes them: a calendar date with
a time of day, ordered lexicographically.  `strftime("%Y-%m-%d")` is the
zero-padded rendering; `timedelta(days=n)` steps through the Gregorian
calendar.  A task's RFC3339 `due` string enters the exporter only through
its first ten characters `YYYY-MM-DD`, modelled by the date they denote. -/

structure Ymd where
  y : Nat
  m : Nat
  d : Nat
deriving DecidableEq, Repr

def isLeap (y : Nat) : Bool := (y % 4 = 0 && y % 100 ≠ 0) || y % 400 = 0

def daysInMonth (y m : Nat) : Nat :=
  if m = 2 then (if isLeap y then 29 else 28)
  else if m = 4 ∨ m = 6 ∨ m = 9 ∨ m = 11 then 30
  else 31

def nextDay (x : Ymd) : Ymd :=
  if x.d < daysInMonth x.y x.m then ⟨x.y, x.m, x.d + 1⟩
  else if x.m < 12 then ⟨x.y, x.m + 1, 1⟩
  else ⟨x.y + 1, 1, 1⟩

def addDays (x : Ymd) : Nat → Ymd
  | 0 => x
  | n+1 => addDays (nextDay x) n

def digitChar10 (n : Nat) : Char := Char.ofNat (48 + n)

def pad2 (n : Nat) : Str := [digitChar10 (n / 10 % 10), digitChar10 (n % 10)]

def pad4 (n : Nat) : Str :=
  [digitChar10 (n / 1000 % 10), digitChar10 (n / 100 % 10),
   digitChar10 (n / 10 % 10), digitChar10 (n % 10)]

/-- `strftime("%Y-%m-%d")`. -/
def fmtYmd (x : Ymd) : Str := pad4 x.y ++ ['-'] ++ pad2 x.m ++ ['-'] ++ pad2 x.d

/-- `datetime.date() <` on two dates. -/
def ymdLt (a b : Ymd) : Bool :=
  a.y < b.y || (a.y = b.y && (a.m < b.m || (a.m = b.m && a.d < b.d)))

/-- A `datetime`: date plus time of day (an abstract tick count). -/
structure Dt where
  date : Ymd
  tod : Nat
deriving DecidableEq, Repr

def dtLt (a b : Dt) : Bool := ymdLt a.date b.date || (a.date = b.date && a.tod < b.tod)

def dtLe (a b : Dt) : Bool := dtLt a b || (a.date = b.date && a.tod = b.tod)

/-! ## The task exporter (`obsidian_task_exporter.py`) -/

/-- The owned heading of the task exporter. -/
def hTasks : Str := "## Tasks".data

/-- A task dictionary as the exporter consumes it: `get` on an absent key
yields the default, so absent fields are `none`. -/
structure Task where
  title : Option Str
  notes : Option Str
  due : Option Ymd
deriving DecidableEq

/-- `_format_task_checklist`. -/
def fmtTaskChecklist (t : Task) : Str :=
  let title := t.title.getD "(No title)".data
  match t.due with
  | some d => title ++ " (due: ".data ++ fmtYmd d ++ [')']
  | none => title

/-- `_extract_task_signature`. -/
def extractTaskSignature (itemText : Str) : Str := strip itemText

/-- `_parse_checked_items` of the task exporter: finds the `## Tasks`
section itself, then matches the checklist pattern at column zero only. -/
def parseCheckedItemsTasks (content : Str) : List (Str × Bool) :=
  match findHead hTasks content with
  | none => []
  | some (_, en) =>
    let slice := content.drop en
    let region :=
      match findHH slice with
      | some ns => slice.take ns
      | none => slice
    (splitLines region).foldl (fun m line =>
      match matchChecklist line with
      | some (mk, txt) => m ++ [(extractTaskSignature txt, mk)]
      | none => m) []

/-- `_categorize_tasks`, one step of its loop. -/
structure Categorized where
  overdue : List Task
  today : List Task
  tomorrow : List Task
  thisWeek : List Task
  noDue : List Task

def catStep (target : Dt) (c : Categorized) (t : Task) : Categorized :=
  match t.due with
  | none => { c with noDue := c.noDue ++ [t] }
  | some due =>
    if dtLt ⟨due, 0⟩ ⟨target.date, 0⟩ then { c with overdue := c.overdue ++ [t] }
    else if fmtYmd due = fmtYmd target.date then { c with today := c.today ++ [t] }
    else if fmtYmd due = fmtYmd (addDays target.date 1) then
      { c with tomorrow := c.tomorrow ++ [t] }
    else if dtLe ⟨due, 0⟩ ⟨addDays target.date 7, target.tod⟩ then
      { c with thisWeek := c.thisWeek ++ [t] }
    else c

/-- `_categorize_tasks`. -/
def categorizeTasks (tasks : List Task) (target : Dt) : Categorized :=
  tasks.foldl (catStep target) ⟨[], [], [], [], []⟩

/-- The checklist line rendered for one task. -/
def taskLine (m : List (Str × Bool)) (t : Task) : Str :=
  let itemText := fmtTaskChecklist t
  let mark : Char := if dget m (extractTaskSignature itemText) false then 'x' else ' '
  "- [".data ++ [mark] ++ "] ".data ++ itemText

/-- The indented note lines rendered below one task's checklist line. -/
def taskNotesLines (t : Task) : List Str :=
  match t.notes with
  | none => []
  | some n =>
    if n.isEmpty then []
    else (splitLines n).filterMap (fun l =>
      if (strip l).isEmpty then none else some ("  ".data ++ l))

/-- The lines one bucket contributes to the `## Tasks` section. -/
def bucketLines (m : List (Str × Bool)) (title : Str) (ts : List Task) : List Str :=
  if ts.isEmpty then []
  else title :: ((ts.map (fun t => taskLine m t :: taskNotesLines t)).flatten ++ [[]])

/-- `_build_tasks_section`. -/
def buildTasksSection (cat : Categorized) (m : List (Str × Bool)) : Str :=
  joinLines ([hTasks, []]
    ++ bucketLines m "### Overdue".data cat.overdue
    ++ bucketLines m "### Today".data cat.today
    ++ bucketLines m "### Tomorrow".data cat.tomorrow
    ++ bucketLines m "### This Week".data cat.thisWeek
    ++ bucketLines m "### No Due Date".data cat.noDue)

/-- `_create_note_template`. -/
def noteTemplate (dstr : Str) (tasksSection : Str) : Str :=
  "---\ndate: ".data ++ dstr ++ "\ntype: daily\ntags:\n  - daily\n---\n\n# ".data
    ++ dstr ++ "\n\n".data ++ tasksSection

/-- `_merge_content`. -/
def mergeContent (existing tasksSection : Str) (dstr : Str) : Str :=
  if existing.isEmpty then noteTemplate dstr tasksSection
  else
    match findHead hTasks existing with
    | none => rstrip existing ++ "\n\n".data ++ tasksSection
    | some (st, en) =>
      let j := findHHOrEnd existing en
      existing.take st ++ tasksSection ++
        (if j < existing.length then ['\n'] ++ lstrip (existing.drop j) else [])

/-- `export_tasks_to_daily`, at the level of file contents. -/
def exportTasksContent (tasks : List Task) (target : Dt) (existing : Str) : Str :=
  let checked := parseCheckedItemsTasks existing
  let cat := categorizeTasks tasks target
  let sec := buildTasksSection cat checked
  mergeContent existing sec (fmtYmd target.date)

/-! ## Normalization in the API clients -/

/-- A raw task as delivered by the Tasks API: a JSON object whose keys may
be absent. -/
structure RawTask where
  id : Option Str
  title : Option Str
  notes : Option Str
  due : Option Str
  status : Option Str
  completed : Option Str
  updated : Option Str

structure ProcTask where
  id : Option Str
  title : Str
  notes : Option Str
  due : Option Str
  status : Option Str
  completed : Option Str
  updated : Option Str

/-- `task_client._process_task`: `task.get("title", "(No title)")` falls
back to the placeholder only when the key is absent. -/
def processTask (t : RawTask) : ProcTask :=
  { id := t.id, title := t.title.getD "(No title)".data, notes := t.notes,
    due := t.due, status := t.status, completed := t.completed, updated := t.updated }

/-- A raw calendar event, with its nested `start`/`end` objects flattened
to their `dateTime` and `date` members. -/
structure RawEvent where
  id : Option Str
  summary : Option Str
  description : Option Str
  location : Option Str
  startDateTime : Option Str
  startDate : Option Str
  endDateTime : Option Str
  endDate : Option Str

structure ProcEvent where
  id : Option Str
  summary : Str
  description : Option Str
  location : Option Str
  start : Option Str
  end_ : Option Str
  isAllDay : Bool

/-- Python `a or b` on two optional strings: `a` when present and
non-empty, else `b`. -/
def pyOr (a b : Option Str) : Option Str :=
  match a with
  | some s => if s.isEmpty then b else some s
  | none => b

/-- `calendar_client._process_event`. -/
def processEvent (e : RawEvent) : ProcEvent :=
  { id := e.id, summary := e.summary.getD "(No title)".data,
    description := e.description, location := e.location,
    start := pyOr e.startDateTime e.startDate,
    end_ := pyOr e.endDateTime e.endDate,
    isAllDay := e.startDate.isSome }

/-! ## The multi-date export loop of the CLI commands

Both `export_obsidian` commands run `for target_date in target_dates:`
inside a single `try`, appending each note path to `exported_notes`; the
`except` arm prints the error and exits.  Modelled with the per-date
export as an oracle: the trace of paths collected before control leaves
the loop, with the error that aborted it, if any. -/

def runExportLoop {δ π : Type} (f : δ → Except Str π) : List δ → (List π × Option Str)
  | [] => ([], none)
  | d :: ds =>
    match f d with
    | .error e => ([], some e)
    | .ok p =>
      let r := runExportLoop f ds
      (p :: r.1, r.2)

/-- The signature the calendar section builder computes for an event. -/
def sigEvent (e : Event) : Str := sigOfItemText (fmtEventChecklist e)

/-- The signature the tasks section builder computes for a task. -/
def sigTask (t : Task) : Str := extractTaskSignature (fmtTaskChecklist t)

/-! ## Support lemmas: lines -/

theorem splitLines_ne_nil (s : Str) : splitLines s ≠ [] := by
  cases s with
  | nil => simp [splitLines]
  | cons c t =>
    simp only [splitLines]
    split
    · simp
    · split <;> simp

theorem splitLines_of_no_nl {l : Str} (h : '\n' ∉ l) : splitLines l = [l] := by
  induction l with
  | nil => rfl
  | cons c t ih =>
    simp only [List.mem_cons, not_or] at h
    have hc : ¬(c = '\n') := fun hx => h.1 hx.symm
    rw [splitLines, if_neg hc, ih h.2]

theorem splitLines_append_nl {a : Str} (b : Str) (h : '\n' ∉ a) :
    splitLines (a ++ '\n' :: b) = a :: splitLines b := by
  induction a with
  | nil => simp [splitLines]
  | cons c t ih =>
    simp only [List.mem_cons, not_or] at h
    have hc : ¬(c = '\n') := fun hx => h.1 hx.symm
    rw [List.cons_append, splitLines, if_neg hc, ih h.2]

theorem splitLines_joinLines {L : List Str} (hne : L ≠ [])
    (h : ∀ l ∈ L, '\n' ∉ l) : splitLines (joinLines L) = L := by
  induction L with
  | nil => exact absurd rfl hne
  | cons l ls ih =>
    cases ls with
    | nil =>
      have : joinLines [l] = l := by simp [joinLines, List.intercalate]
      rw [this, splitLines_of_no_nl (h l (by simp))]
    | cons l' ls' =>
      have hj : joinLines (l :: l' :: ls') = l ++ '\n' :: joinLines (l' :: ls') := by
        simp [joinLines, List.intercalate]
      rw [hj, splitLines_append_nl _ (h l (by simp)), ih (by simp)]
      intro x hx
      exact h x (by simp [hx])

theorem no_nl_of_mem_splitLines {s : Str} {l : Str} (h : l ∈ splitLines s) : '\n' ∉ l := by
  induction s generalizing l with
  | nil =>
    simp only [splitLines, List.mem_singleton] at h
    subst h; simp
  | cons c t ih =>
    by_cases hc : c = '\n'
    · subst hc
      rw [splitLines, if_pos rfl] at h
      rcases List.mem_cons.1 h with h | h
      · subst h; simp
      · exact ih h
    · rw [splitLines, if_neg hc] at h
      rcases hl : splitLines t with _ | ⟨x, xs⟩
      · exact absurd hl (splitLines_ne_nil t)
      · rw [hl] at h
        rcases List.mem_cons.1 h with h | h
        · subst h
          intro hm
          rcases List.mem_cons.1 hm with h' | h'
          · exact hc h'.symm
          · exact ih (hl ▸ List.mem_cons_self x xs) h'
        · exact ih (hl ▸ List.mem_cons_of_mem x h)

/-! ## Support lemmas: stripping -/

theorem lstrip_cons_ws {c : Char} (s : Str) (h : isPySpace c) :
    lstrip (c :: s) = lstrip s := by
  simp [lstrip, List.dropWhile_cons, h]

theorem dropWhile_append_of_all {p : Char → Bool} {w : Str} (s : Str)
    (h : ∀ c ∈ w, p c) : List.dropWhile p (w ++ s) = List.dropWhile p s := by
  induction w with
  | nil => simp
  | cons c w' ih =>
    rw [List.cons_append, List.dropWhile_cons, if_pos (h c (by simp))]
    exact ih (fun x hx => h x (by simp [hx]))

theorem rstrip_append_ws {w : Str} (s : Str) (h : ∀ c ∈ w, isPySpace c) :
    rstrip (s ++ w) = rstrip s := by
  unfold rstrip
  rw [List.reverse_append,
    dropWhile_append_of_all _ (fun c hc => h c (List.mem_reverse.1 hc))]

theorem rstrip_decomp (s : Str) : ∃ w, s = rstrip s ++ w ∧ ∀ c ∈ w, isPySpace c := by
  refine ⟨(s.reverse.takeWhile isPySpace).reverse, ?_, ?_⟩
  · conv_lhs => rw [← s.reverse_reverse, ← List.takeWhile_append_dropWhile (p := isPySpace) (l := s.reverse)]
    rw [List.reverse_append]
    rfl
  · intro c hc
    rw [List.mem_reverse] at hc
    exact List.mem_takeWhile_imp hc

theorem dropWhile_eq_cons_head {p : Char → Bool} {l : Str} {c : Char} {t : Str}
    (h : List.dropWhile p l = c :: t) : p c = false := by
  induction l with
  | nil => simp at h
  | cons a l' ih =>
    rw [List.dropWhile_cons] at h
    by_cases ha : p a
    · rw [if_pos ha] at h; exact ih h
    · rw [if_neg ha] at h
      cases h
      simpa using ha

theorem rstrip_last_not_ws {s : Str} {w : Str} {d : Char} (h : rstrip s = w ++ [d]) :
    isPySpace d = false := by
  unfold rstrip at h
  rcases hd : List.dropWhile isPySpace s.reverse with _ | ⟨c, t⟩
  · rw [hd] at h; simp at h
  · rw [hd] at h
    have hc := dropWhile_eq_cons_head hd
    have : d = c := by
      have := congrArg List.getLast? h
      simpa [List.getLast?_append] using this.symm
    rwa [this]

theorem rstrip_eq_self_of_last {s : Str} (h : s = [] ∨ ∃ c w, s = w ++ [c] ∧ isPySpace c = false) :
    rstrip s = s := by
  rcases h with h | ⟨c, w, rfl, hc⟩
  · simp [h, rstrip]
  · unfold rstrip
    rw [List.reverse_append, List.reverse_singleton, List.singleton_append,
      List.dropWhile_cons, if_neg (by simp [hc])]
    simp

theorem rstrip_all_ws {s : Str} (h : ∀ c ∈ s, isPySpace c) : rstrip s = [] := by
  have := rstrip_append_ws (w := s) [] h
  simpa using this

theorem rstrip_cons_of_ne {s : Str} (c : Char) (h : rstrip s ≠ []) :
    rstrip (c :: s) = c :: rstrip s := by
  obtain ⟨w, hw, hws⟩ := rstrip_decomp s
  obtain ⟨w', d, hd'⟩ := (List.eq_nil_or_concat (rstrip s)).resolve_left h
  have hd : rstrip s = w' ++ [d] := by simpa [List.concat_eq_append] using hd'
  have hlast : isPySpace d = false := rstrip_last_not_ws hd
  calc rstrip (c :: s) = rstrip ((c :: rstrip s) ++ w) := by
        conv_lhs => rw [hw]
        rw [List.cons_append]
    _ = rstrip (c :: rstrip s) := rstrip_append_ws _ hws
    _ = c :: rstrip s := by
        refine rstrip_eq_self_of_last (Or.inr ⟨d, c :: w', ?_, hlast⟩)
        rw [hd]; rfl

theorem strip_cons_ws {c : Char} (s : Str) (h : isPySpace c) : strip (c :: s) = strip s := by
  by_cases hs : rstrip s = []
  · obtain ⟨w, hw, hws⟩ := rstrip_decomp s
    rw [hs] at hw
    simp only [List.nil_append] at hw
    have hall : ∀ x ∈ c :: s, isPySpace x := by
      intro x hx
      rcases List.mem_cons.1 hx with hx | hx
      · subst hx; exact h
      · exact hws x (hw ▸ hx)
    unfold strip
    rw [rstrip_all_ws hall, hs]
  · unfold strip
    rw [rstrip_cons_of_ne c hs, lstrip_cons_ws _ h]

theorem lstrip_cons_not_ws {c : Char} (s : Str) (h : isPySpace c = false) :
    lstrip (c :: s) = c :: s := by
  simp [lstrip, List.dropWhile_cons, h]

theorem strip_append_ws_right {w : Str} (s : Str) (h : ∀ c ∈ w, isPySpace c) :
    strip (s ++ w) = strip s := by
  unfold strip
  rw [rstrip_append_ws _ h]

/-- A line whose first and last characters are not whitespace strips to itself. -/
theorem strip_eq_self_of_clean {s : Str}
    (hh : s = [] ∨ ∃ c t, s = c :: t ∧ isPySpace c = false)
    (hl : s = [] ∨ ∃ c w, s = w ++ [c] ∧ isPySpace c = false) :
    strip s = s := by
  unfold strip
  rw [rstrip_eq_self_of_last hl]
  rcases hh with h | ⟨c, t, rfl, hc⟩
  · simp [h, lstrip]
  · exact lstrip_cons_not_ws _ hc

/-! ## Structure of the built sections -/

/-- The line list the tasks section is joined from. -/
def tasksLinesList (cat : Categorized) (m : List (Str × Bool)) : List Str :=
  [hTasks, []]
    ++ bucketLines m "### Overdue".data cat.overdue
    ++ bucketLines m "### Today".data cat.today
    ++ bucketLines m "### Tomorrow".data cat.tomorrow
    ++ bucketLines m "### This Week".data cat.thisWeek
    ++ bucketLines m "### No Due Date".data cat.noDue

theorem buildTasksSection_eq (cat : Categorized) (m : List (Str × Bool)) :
    buildTasksSection cat m = joinLines (tasksLinesList cat m) := rfl

theorem buildCalendarSection_eq_of_ne {events : List Event} (m : List (Str × Bool))
    (h : events ≠ []) :
    buildCalendarSection events m = joinLines (hCal :: events.map (calLine m)) := by
  unfold buildCalendarSection
  rw [if_neg (by simpa using h)]

theorem no_nl_calLine {m : List (Str × Bool)} {e : Event}
    (h : '\n' ∉ fmtEventChecklist e) : '\n' ∉ calLine m e := by
  unfold calLine
  intro hm
  simp only [List.mem_append, List.mem_cons] at hm
  rcases hm with ((h1 | h1) | h1) | h1
  · simp at h1
  · split at h1 <;> simp_all
  · simp at h1
  · exact h h1

theorem no_nl_taskLine {m : List (Str × Bool)} {t : Task}
    (h : '\n' ∉ fmtTaskChecklist t) : '\n' ∉ taskLine m t := by
  unfold taskLine
  intro hm
  simp only [List.mem_append, List.mem_cons] at hm
  rcases hm with ((h1 | h1) | h1) | h1
  · simp at h1
  · split at h1 <;> simp_all
  · simp at h1
  · exact h h1

theorem no_nl_taskNotesLines {t : Task} {l : Str} (h : l ∈ taskNotesLines t) : '\n' ∉ l := by
  obtain ⟨title, notes, due⟩ := t
  rcases notes with _ | n
  · simp [taskNotesLines] at h
  · simp only [taskNotesLines] at h
    by_cases hn : n.isEmpty
    · rw [if_pos hn] at h
      simp at h
    · rw [if_neg hn] at h
      obtain ⟨x, hx, hxl⟩ := List.mem_filterMap.1 h
      by_cases hsx : (strip x).isEmpty
      · rw [if_pos hsx] at hxl
        simp at hxl
      · rw [if_neg hsx] at hxl
        cases hxl
        have := no_nl_of_mem_splitLines hx
        simp [this]

theorem mem_bucketLines {m : List (Str × Bool)} {title : Str} {ts : List Task} {t : Task}
    (h : t ∈ ts) : taskLine m t ∈ bucketLines m title ts := by
  unfold bucketLines
  rw [if_neg (by rintro hh; simp [List.isEmpty_iff.1 hh] at h)]
  refine List.mem_cons_of_mem _ (List.mem_append_left _ ?_)
  refine List.mem_flatten.2 ⟨taskLine m t :: taskNotesLines t, ?_, by simp⟩
  exact List.mem_map_of_mem _ h

theorem mem_bucketLines_of_mem {m : List (Str × Bool)} {title : Str} {ts : List Task} {l : Str}
    (h : l ∈ bucketLines m title ts) :
    l = title ∨ (∃ t ∈ ts, l = taskLine m t) ∨ (∃ t ∈ ts, l ∈ taskNotesLines t) ∨ l = [] := by
  unfold bucketLines at h
  split at h
  · simp at h
  · rcases List.mem_cons.1 h with h | h
    · exact Or.inl h
    rcases List.mem_append.1 h with h | h
    · obtain ⟨g, hg, hlg⟩ := List.mem_flatten.1 h
      obtain ⟨t, ht, rfl⟩ := List.mem_map.1 hg
      rcases List.mem_cons.1 hlg with h' | h'
      · exact Or.inr (Or.inl ⟨t, ht, h'⟩)
      · exact Or.inr (Or.inr (Or.inl ⟨t, ht, h'⟩))
    · simp at h
      exact Or.inr (Or.inr (Or.inr h))

/-- All tasks placed in some bucket of a categorization. -/
def catAll (cat : Categorized) : List Task :=
  cat.overdue ++ cat.today ++ cat.tomorrow ++ cat.thisWeek ++ cat.noDue

theorem mem_tasksLinesList_of_mem_catAll {cat : Categorized} {m : List (Str × Bool)} {t : Task}
    (h : t ∈ catAll cat) : taskLine m t ∈ tasksLinesList cat m := by
  unfold catAll at h
  unfold tasksLinesList
  simp only [List.mem_append] at h ⊢
  rcases h with (((h | h) | h) | h) | h
  · exact Or.inl (Or.inl (Or.inl (Or.inl (Or.inr (mem_bucketLines h)))))
  · exact Or.inl (Or.inl (Or.inl (Or.inr (mem_bucketLines h))))
  · exact Or.inl (Or.inl (Or.inr (mem_bucketLines h)))
  · exact Or.inl (Or.inr (mem_bucketLines h))
  · exact Or.inr (mem_bucketLines h)

theorem no_nl_tasksLinesList {cat : Categorized} {m : List (Str × Bool)}
    (hs : ∀ t ∈ catAll cat, '\n' ∉ fmtTaskChecklist t) :
    ∀ l ∈ tasksLinesList cat m, '\n' ∉ l := by
  intro l hl
  unfold tasksLinesList at hl
  simp only [List.mem_append] at hl
  have hb : ∀ (title : Str) (sel : Categorized → List Task),
      (∀ x, sel cat = x → ∀ t ∈ x, t ∈ catAll cat) →
      l ∈ bucketLines m title (sel cat) → ('\n' ∉ title) → '\n' ∉ l := by
    intro title sel hsel hmem hnt
    rcases mem_bucketLines_of_mem hmem with rfl | ⟨t, ht, rfl⟩ | ⟨t, ht, hn⟩ | rfl
    · exact hnt
    · exact no_nl_taskLine (hs t (hsel _ rfl t ht))
    · exact no_nl_taskNotesLines hn
    · simp
  rcases hl with (((hl | hl) | hl) | hl) | hl
  · rcases hl with hl | hl
    · rcases List.mem_cons.1 hl with rfl | hl
      · decide
      · simp at hl
        subst hl
        simp
    · exact hb _ Categorized.overdue (fun x hx t ht => by simp [catAll, hx ▸ ht]) hl (by decide)
  · exact hb _ Categorized.today (fun x hx t ht => by simp [catAll, hx ▸ ht]) hl (by decide)
  · exact hb _ Categorized.tomorrow (fun x hx t ht => by simp [catAll, hx ▸ ht]) hl (by decide)
  · exact hb _ Categorized.thisWeek (fun x hx t ht => by simp [catAll, hx ▸ ht]) hl (by decide)
  · exact hb _ Categorized.noDue (fun x hx t ht => by simp [catAll, hx ▸ ht]) hl (by decide)

/-! ## Claim C6: empty-state rendering -/

/-- C6: with no events, the built calendar section is the heading followed by
the single literal line `- No events scheduled`; with all five task buckets
empty, the built tasks section is the bare `## Tasks` heading (and its
blank-line terminator), emitting no `### ` subsection heading and no
checklist line. -/
theorem emptyStateRendering (m m' : List (Str × Bool)) (cat : Categorized)
    (h1 : cat.overdue = []) (h2 : cat.today = []) (h3 : cat.tomorrow = [])
    (h4 : cat.thisWeek = []) (h5 : cat.noDue = []) :
    buildCalendarSection [] m = "## Calendar\n- No events scheduled".data ∧
    buildTasksSection cat m' = "## Tasks\n".data ∧
    (∀ l ∈ splitLines (buildTasksSection cat m'),
      l.take 4 ≠ "### ".data ∧ matchChecklist l = none) := by
  obtain ⟨o, t, tm, w, n⟩ := cat
  simp only at h1 h2 h3 h4 h5
  subst h1 h2 h3 h4 h5
  refine ⟨rfl, rfl, ?_⟩
  rw [show buildTasksSection ⟨[], [], [], [], []⟩ m' = "## Tasks\n".data from rfl]
  decide

/-- Closed instance of `emptyStateRendering`. -/
theorem emptyStateRendering_witness :
    buildCalendarSection [] [] = "## Calendar\n- No events scheduled".data ∧
    buildTasksSection ⟨[], [], [], [], []⟩ [] = "## Tasks\n".data ∧
    (∀ l ∈ splitLines (buildTasksSection ⟨[], [], [], [], []⟩ []),
      l.take 4 ≠ "### ".data ∧ matchChecklist l = none) :=
  emptyStateRendering [] [] ⟨[], [], [], [], []⟩ rfl rfl rfl rfl rfl

/-! ## Claim C7: behaviour of the multi-date export loop -/

/-- A concrete per-date export: date `0` fails, every other date succeeds. -/
def expOracle (n : Nat) : Except Str Nat :=
  if n = 0 then .error "boom".data else .ok n

/-- C7, counterexample: in a two-date batch whose first date fails, the loop
delivers no result for the second date even though exporting it on its own
succeeds — the orchestrator aborts the batch rather than continuing. -/
theorem batchContinues_cex :
    runExportLoop expOracle [0, 1] = ([], some "boom".data) ∧ expOracle 1 = .ok 1 :=
  ⟨rfl, rfl⟩

/-- C7, amended: the `try` block of both `export_obsidian` commands wraps the
whole date loop, so the first failing date aborts the batch: the dates
before it are exported, the error is surfaced, and no later date is
processed. -/
theorem batchAbortsAtFirstFailure {δ π : Type} (f : δ → Except Str π)
    (pre : List δ) (d : δ) (post : List δ) (e : Str)
    (hpre : ∀ x ∈ pre, ∃ p, f x = .ok p) (hd : f d = .error e) :
    runExportLoop f (pre ++ d :: post) =
      (pre.filterMap (fun x => (f x).toOption), some e) := by
  induction pre with
  | nil => simp [runExportLoop, hd]
  | cons x rest ih =>
    obtain ⟨p, hp⟩ := hpre x (by simp)
    simp [runExportLoop, hp, ih (fun y hy => hpre y (by simp [hy])), Except.toOption]

/-- Closed instance of `batchAbortsAtFirstFailure`. -/
theorem batchAbortsAtFirstFailure_witness :
    runExportLoop expOracle ([2] ++ 0 :: [1]) =
      ([2].filterMap (fun x => (expOracle x).toOption), some "boom".data) :=
  batchAbortsAtFirstFailure expOracle [2] 0 [1] "boom".data
    (by intro x hx; simp at hx; subst hx; exact ⟨2, rfl⟩) rfl

/-! ## Claim C8: the title placeholder -/

/-- C8, counterexample: a task or event whose title/summary key is present
but empty keeps the empty title through normalization — the placeholder is
not substituted — and the resulting signature of a no-due-date task is
empty. -/
theorem titlePlaceholder_cex :
    (processTask ⟨none, some [], none, none, none, none, none⟩).title = [] ∧
    ([] : Str) ≠ "(No title)".data ∧
    sigTask ⟨some [], none, none⟩ = [] ∧
    (processEvent ⟨none, some [], none, none, none, none, none, none⟩).summary = [] :=
  ⟨rfl, by decide, rfl, rfl⟩

/-- C8, amended: normalization substitutes the literal `(No title)` exactly
when the title/summary key is absent; a present value — even the empty
string — is kept verbatim, so a non-empty title is guaranteed only for
items whose remote title is absent or non-empty. -/
theorem titlePlaceholderOnlyWhenMissing (t : RawTask) (e : RawEvent) :
    (t.title = none → (processTask t).title = "(No title)".data) ∧
    (∀ s, t.title = some s → (processTask t).title = s) ∧
    (e.summary = none → (processEvent e).summary = "(No title)".data) ∧
    (∀ s, e.summary = some s → (processEvent e).summary = s) := by
  refine ⟨?_, ?_, ?_, ?_⟩
  · intro h; simp [processTask, h]
  · intro s h; simp [processTask, h]
  · intro h; simp [processEvent, h]
  · intro s h; simp [processEvent, h]

/-- Closed instance of `titlePlaceholderOnlyWhenMissing`. -/
theorem titlePlaceholderOnlyWhenMissing_witness :
    (processTask ⟨none, none, none, none, none, none, none⟩).title = "(No title)".data ∧
    (processTask ⟨none, some "T".data, none, none, none, none, none⟩).title = "T".data :=
  ⟨(titlePlaceholderOnlyWhenMissing ⟨none, none, none, none, none, none, none⟩
      ⟨none, none, none, none, none, none, none, none⟩).1 rfl,
   (titlePlaceholderOnlyWhenMissing ⟨none, some "T".data, none, none, none, none, none⟩
      ⟨none, none, none, none, none, none, none, none⟩).2.1 "T".data rfl⟩

/-! ## Claim C10: indentation sensitivity of the two checklist scans -/

/-- C10: the calendar scan strips each line before matching, so a leading
whitespace character never changes what it records, and an indented
checklist line inside the `## Calendar` section is still recorded under the
text before the first `" @ "`; the task scan matches only at column zero,
so an indented line (such as an emitted task note) is ignored. -/
theorem indentedChecklistScan :
    (∀ (c : Char) (l : Str), isPySpace c →
      matchChecklist (strip (c :: l)) = matchChecklist (strip l)) ∧
    (∀ l : Str, matchChecklist (' ' :: l) = none) ∧
    parseCheckedItemsCal "## Calendar\n  - [x] 09:00-10:00 Standup @ Zoom".data
      = [("09:00-10:00 Standup".data, true)] ∧
    parseCheckedItemsTasks "## Tasks\n  - [x] Standup".data = [] := by
  refine ⟨?_, ?_, by decide, by decide⟩
  · intro c l h
    rw [strip_cons_ws l h]
  · intro l
    rfl

/-- Closed instance of `indentedChecklistScan`. -/
theorem indentedChecklistScan_witness :
    matchChecklist (strip (' ' :: "- [x] A".data)) = matchChecklist (strip "- [x] A".data) :=
  indentedChecklistScan.1 ' ' "- [x] A".data rfl

/-! ## Claims C1 and C2: checked-state resolution in the section builders -/

theorem calLine_unfold (m : List (Str × Bool)) (e : Event) :
    calLine m e = "- [".data ++ [if dget m (sigEvent e) false then 'x' else ' ']
      ++ "] ".data ++ fmtEventChecklist e := rfl

theorem taskLine_unfold (m : List (Str × Bool)) (t : Task) :
    taskLine m t = "- [".data ++ [if dget m (sigTask t) false then 'x' else ' ']
      ++ "] ".data ++ fmtTaskChecklist t := rfl

theorem mem_splitLines_buildCal {m : List (Str × Bool)} {events : List Event} {e : Event}
    (he : e ∈ events) (hnl : ∀ x ∈ events, '\n' ∉ fmtEventChecklist x) :
    calLine m e ∈ splitLines (buildCalendarSection events m) := by
  have hne : events ≠ [] := by rintro rfl; simp at he
  rw [buildCalendarSection_eq_of_ne m hne, splitLines_joinLines (by simp)]
  · exact List.mem_cons_of_mem _ (List.mem_map_of_mem _ he)
  · intro l hl
    rcases List.mem_cons.1 hl with rfl | hl
    · decide
    · obtain ⟨x, hx, rfl⟩ := List.mem_map.1 hl
      exact no_nl_calLine (hnl x hx)

theorem mem_splitLines_buildTasks {m : List (Str × Bool)} {cat : Categorized} {t : Task}
    (ht : t ∈ catAll cat) (hnl : ∀ x ∈ catAll cat, '\n' ∉ fmtTaskChecklist x) :
    taskLine m t ∈ splitLines (buildTasksSection cat m) := by
  rw [buildTasksSection_eq, splitLines_joinLines (by simp [tasksLinesList])
    (no_nl_tasksLinesList hnl)]
  exact mem_tasksLinesList_of_mem_catAll ht

/-- C1, counterexample: the claim as stated fails when the existing section
lists the same signature twice with conflicting marks.  The section below
contains the checked line `- [x] All day: A`, whose recovered signature
equals the signature of the all-day event titled `A`, yet the rebuilt
section renders that event unchecked, because the later line `- [ ] All
day: A` wins in the recovered map. -/
theorem checkedStatePreserved_cex :
    ("- [x] All day: A".data ∈ splitLines (extractCalendarSection
      "## Calendar\n- [x] All day: A\n- [ ] All day: A".data)) ∧
    matchChecklist (strip "- [x] All day: A".data) = some (true, "All day: A".data) ∧
    sigOfItemText (strip "All day: A".data)
      = sigEvent ⟨some "A".data, true, [], [], none⟩ ∧
    buildCalendarSection [⟨some "A".data, true, [], [], none⟩]
      (parseCheckedItemsCal (extractCalendarSection
        "## Calendar\n- [x] All day: A\n- [ ] All day: A".data))
      = "## Calendar\n- [ ] All day: A".data := by
  refine ⟨by decide, by decide, by decide, by decide⟩

/-- C1, amended: if the checked-state map recovered from the existing
section maps signature S to true — i.e. the last checklist line whose
recovered signature is S is checked, the last occurrence winning — and a
current item's computed signature is S, then the rebuilt section contains
that item's checklist line checked.  Holds for both exporters (items
rendered on a single line). -/
theorem checkedStatePreserved_amended :
    (∀ (m : List (Str × Bool)) (events : List Event) (e : Event),
      e ∈ events → (∀ x ∈ events, '\n' ∉ fmtEventChecklist x) →
      dget m (sigEvent e) false = true →
      ("- [x] ".data ++ fmtEventChecklist e) ∈ splitLines (buildCalendarSection events m)) ∧
    (∀ (m : List (Str × Bool)) (cat : Categorized) (t : Task),
      t ∈ catAll cat → (∀ x ∈ catAll cat, '\n' ∉ fmtTaskChecklist x) →
      dget m (sigTask t) false = true →
      ("- [x] ".data ++ fmtTaskChecklist t) ∈ splitLines (buildTasksSection cat m)) := by
  constructor
  · intro m events e he hnl hc
    have := mem_splitLines_buildCal (m := m) he hnl
    rwa [calLine_unfold, hc, if_pos rfl] at this
  · intro m cat t ht hnl hc
    have := mem_splitLines_buildTasks (m := m) ht hnl
    rwa [taskLine_unfold, hc, if_pos rfl] at this

/-- Closed instance of `checkedStatePreserved_amended`. -/
theorem checkedStatePreserved_witness :
    ("- [x] All day: A".data ∈ splitLines (buildCalendarSection
      [⟨some "A".data, true, [], [], none⟩] [("All day: A".data, true)])) ∧
    ("- [x] T".data ∈ splitLines (buildTasksSection
      ⟨[], [], [], [], [⟨some "T".data, none, none⟩]⟩ [("T".data, true)])) :=
  ⟨checkedStatePreserved_amended.1 [("All day: A".data, true)]
      [⟨some "A".data, true, [], [], none⟩] ⟨some "A".data, true, [], [], none⟩
      (by decide) (by decide) (by decide),
   checkedStatePreserved_amended.2 [("T".data, true)]
      ⟨[], [], [], [], [⟨some "T".data, none, none⟩]⟩ ⟨some "T".data, none, none⟩
      (by decide) (by decide) (by decide)⟩

/-- C2: an item whose computed signature is not a key of the checked-state
map is rendered unchecked, whatever the map records for other signatures;
for both exporters. -/
theorem newItemsDefaultUnchecked :
    (∀ (m : List (Str × Bool)) (events : List Event) (e : Event),
      e ∈ events → (∀ x ∈ events, '\n' ∉ fmtEventChecklist x) →
      dfind m (sigEvent e) = none →
      calLine m e = "- [ ] ".data ++ fmtEventChecklist e ∧
      ("- [ ] ".data ++ fmtEventChecklist e) ∈ splitLines (buildCalendarSection events m)) ∧
    (∀ (m : List (Str × Bool)) (cat : Categorized) (t : Task),
      t ∈ catAll cat → (∀ x ∈ catAll cat, '\n' ∉ fmtTaskChecklist x) →
      dfind m (sigTask t) = none →
      taskLine m t = "- [ ] ".data ++ fmtTaskChecklist t ∧
      ("- [ ] ".data ++ fmtTaskChecklist t) ∈ splitLines (buildTasksSection cat m)) := by
  constructor
  · intro m events e he hnl hc
    have hline : calLine m e = "- [ ] ".data ++ fmtEventChecklist e := by
      rw [calLine_unfold]
      unfold dget
      rw [hc]
      rfl
    exact ⟨hline, hline ▸ mem_splitLines_buildCal he hnl⟩
  · intro m cat t ht hnl hc
    have hline : taskLine m t = "- [ ] ".data ++ fmtTaskChecklist t := by
      rw [taskLine_unfold]
      unfold dget
      rw [hc]
      rfl
    exact ⟨hline, hline ▸ mem_splitLines_buildTasks ht hnl⟩

/-- Closed instance of `newItemsDefaultUnchecked`. -/
theorem newItemsDefaultUnchecked_witness :
    calLine [("Old Meeting".data, true)] ⟨some "A".data, true, [], [], none⟩
      = "- [ ] All day: A".data ∧
    taskLine [("Old Task".data, true)] ⟨some "T".data, none, none⟩ = "- [ ] T".data :=
  ⟨(newItemsDefaultUnchecked.1 [("Old Meeting".data, true)]
      [⟨some "A".data, true, [], [], none⟩] ⟨some "A".data, true, [], [], none⟩
      (by decide) (by decide) (by decide)).1,
   (newItemsDefaultUnchecked.2 [("Old Task".data, true)]
      ⟨[], [], [], [], [⟨some "T".data, none, none⟩]⟩ ⟨some "T".data, none, none⟩
      (by decide) (by decide) (by decide)).1⟩

/-! ## Claim C5: date order, formatting, and the categorizer -/

theorem ymdLt_iff {a b : Ymd} : ymdLt a b = true ↔
    (a.y < b.y ∨ (a.y = b.y ∧ (a.m < b.m ∨ (a.m = b.m ∧ a.d < b.d)))) := by
  simp [ymdLt, Bool.or_eq_true, Bool.and_eq_true, decide_eq_true_eq]

theorem ymdLt_irrefl (a : Ymd) : ymdLt a a = false := by
  simp [ymdLt]

theorem ymdLt_asymm {a b : Ymd} (h : ymdLt a b = true) : ymdLt b a = false := by
  rw [ymdLt_iff] at h
  rw [← Bool.not_eq_true, ymdLt_iff]
  omega

theorem ymdLt_trans {a b c : Ymd} (h1 : ymdLt a b = true) (h2 : ymdLt b c = true) :
    ymdLt a c = true := by
  rw [ymdLt_iff] at h1 h2 ⊢
  omega

theorem ymdLt_ne {a b : Ymd} (h : ymdLt a b = true) : a ≠ b := by
  rintro rfl
  rw [ymdLt_irrefl] at h
  exact Bool.false_ne_true h

theorem ymdLt_nextDay (x : Ymd) : ymdLt x (nextDay x) = true := by
  unfold nextDay
  split_ifs <;> rw [ymdLt_iff] <;> simp

theorem addDays_succ_comm (x : Ymd) (n : Nat) :
    addDays x (n + 1) = nextDay (addDays x n) := by
  induction n generalizing x with
  | zero => rfl
  | succ n ih =>
    show addDays (nextDay x) (n + 1) = _
    rw [ih (nextDay x)]
    rfl

theorem ymdLt_addDays {x : Ymd} {n : Nat} (h : 0 < n) : ymdLt x (addDays x n) = true := by
  induction n with
  | zero => omega
  | succ n ih =>
    rw [addDays_succ_comm]
    rcases Nat.eq_zero_or_pos n with rfl | hn
    · exact ymdLt_nextDay x
    · exact ymdLt_trans (ih hn) (ymdLt_nextDay _)

theorem addDays_add (x : Ymd) (a b : Nat) : addDays x (a + b) = addDays (addDays x a) b := by
  induction a generalizing x with
  | zero => rw [Nat.zero_add]; rfl
  | succ a ih =>
    have h1 : a + 1 + b = (a + b) + 1 := by omega
    rw [h1]
    show addDays (nextDay x) (a + b) = addDays (addDays (nextDay x) a) b
    exact ih (nextDay x)

theorem ymdLt_addDays_mono {x : Ymd} {j k : Nat} (h : j < k) :
    ymdLt (addDays x j) (addDays x k) = true := by
  have : k = j + (k - j) := by omega
  rw [this, addDays_add]
  exact ymdLt_addDays (by omega)

/-- The field bounds under which `strftime("%Y-%m-%d")` is injective
(Python's `datetime` enforces year ≤ 9999). -/
def YmdBounded (x : Ymd) : Prop := x.y < 10000 ∧ x.m < 100 ∧ x.d < 100

theorem digitChar10_inj_aux : ∀ i < 10, ∀ j < 10, digitChar10 i = digitChar10 j → i = j := by
  decide

theorem digitChar10_inj {i j : Nat} (hi : i < 10) (hj : j < 10)
    (h : digitChar10 i = digitChar10 j) : i = j :=
  digitChar10_inj_aux i hi j hj h

theorem pad4_inj {a b : Nat} (ha : a < 10000) (hb : b < 10000) (h : pad4 a = pad4 b) :
    a = b := by
  unfold pad4 at h
  simp only [List.cons.injEq, and_true] at h
  obtain ⟨h1, h2, h3, h4⟩ := h
  have e1 := digitChar10_inj (Nat.mod_lt _ (by omega)) (Nat.mod_lt _ (by omega)) h1
  have e2 := digitChar10_inj (Nat.mod_lt _ (by omega)) (Nat.mod_lt _ (by omega)) h2
  have e3 := digitChar10_inj (Nat.mod_lt _ (by omega)) (Nat.mod_lt _ (by omega)) h3
  have e4 := digitChar10_inj (Nat.mod_lt _ (by omega)) (Nat.mod_lt _ (by omega)) h4
  omega

theorem pad2_inj {a b : Nat} (ha : a < 100) (hb : b < 100) (h : pad2 a = pad2 b) :
    a = b := by
  unfold pad2 at h
  simp only [List.cons.injEq, and_true] at h
  obtain ⟨h1, h2⟩ := h
  have e1 := digitChar10_inj (Nat.mod_lt _ (by omega)) (Nat.mod_lt _ (by omega)) h1
  have e2 := digitChar10_inj (Nat.mod_lt _ (by omega)) (Nat.mod_lt _ (by omega)) h2
  omega

theorem fmtYmd_inj {a b : Ymd} (ha : YmdBounded a) (hb : YmdBounded b)
    (h : fmtYmd a = fmtYmd b) : a = b := by
  unfold fmtYmd at h
  have h4 : pad4 a.y = pad4 b.y ∧ pad2 a.m ++ '-' :: pad2 a.d = pad2 b.m ++ '-' :: pad2 b.d := by
    have hlen : (pad4 a.y).length = (pad4 b.y).length := rfl
    have := List.append_inj (by simpa [List.append_assoc] using h) hlen
    obtain ⟨e1, e2⟩ := this
    exact ⟨e1, by simpa using e2⟩
  obtain ⟨hy, hrest⟩ := h4
  have h2 : pad2 a.m = pad2 b.m ∧ pad2 a.d = pad2 b.d := by
    have hlen : (pad2 a.m).length = (pad2 b.m).length := rfl
    have := List.append_inj hrest hlen
    obtain ⟨e1, e2⟩ := this
    exact ⟨e1, by simpa using e2⟩
  obtain ⟨hm, hd⟩ := h2
  obtain ⟨x1, x2, x3⟩ := a
  obtain ⟨y1, y2, y3⟩ := b
  obtain ⟨ha1, ha2, ha3⟩ := ha
  obtain ⟨hb1, hb2, hb3⟩ := hb
  simp only at hy hm hd ha1 ha2 ha3 hb1 hb2 hb3
  rw [pad4_inj ha1 hb1 hy, pad2_inj ha2 hb2 hm, pad2_inj ha3 hb3 hd]

/-- Validity of a Gregorian date as far as the categorizer needs it. -/
def ValidYmd (x : Ymd) : Prop := 1 ≤ x.m ∧ x.m ≤ 12 ∧ 1 ≤ x.d ∧ x.d ≤ 31

theorem daysInMonth_le (y m : Nat) : daysInMonth y m ≤ 31 := by
  unfold daysInMonth
  split_ifs <;> omega

theorem validYmd_nextDay {x : Ymd} (h : ValidYmd x) : ValidYmd (nextDay x) := by
  obtain ⟨h1, h2, h3, h4⟩ := h
  have hdm := daysInMonth_le x.y x.m
  unfold nextDay ValidYmd
  split_ifs with hd hm <;> simp <;> omega

theorem validYmd_addDays {x : Ymd} (h : ValidYmd x) (n : Nat) : ValidYmd (addDays x n) := by
  induction n with
  | zero => exact h
  | succ n ih =>
    rw [addDays_succ_comm]
    exact validYmd_nextDay ih

theorem nextDay_y_le (x : Ymd) : (nextDay x).y ≤ x.y + 1 := by
  unfold nextDay
  split_ifs <;> simp

theorem addDays_y_le (x : Ymd) (n : Nat) : (addDays x n).y ≤ x.y + n := by
  induction n with
  | zero => simp [addDays]
  | succ n ih =>
    rw [addDays_succ_comm]
    have := nextDay_y_le (addDays x n)
    omega

theorem bounded_of_valid {x : Ymd} (hv : ValidYmd x) (hy : x.y < 10000) : YmdBounded x := by
  obtain ⟨h1, h2, h3, h4⟩ := hv
  exact ⟨hy, by omega, by omega⟩

/-- The conditions under which `_categorize_tasks` places a task in each
bucket, read off from its `if` chain. -/
def pOver (g : Dt) (t : Task) : Bool :=
  match t.due with
  | none => false
  | some due => dtLt ⟨due, 0⟩ ⟨g.date, 0⟩

def pToday (g : Dt) (t : Task) : Bool :=
  match t.due with
  | none => false
  | some due =>
    if dtLt ⟨due, 0⟩ ⟨g.date, 0⟩ then false
    else decide (fmtYmd due = fmtYmd g.date)

def pTomorrow (g : Dt) (t : Task) : Bool :=
  match t.due with
  | none => false
  | some due =>
    if dtLt ⟨due, 0⟩ ⟨g.date, 0⟩ then false
    else if fmtYmd due = fmtYmd g.date then false
    else decide (fmtYmd due = fmtYmd (addDays g.date 1))

def pWeek (g : Dt) (t : Task) : Bool :=
  match t.due with
  | none => false
  | some due =>
    if dtLt ⟨due, 0⟩ ⟨g.date, 0⟩ then false
    else if fmtYmd due = fmtYmd g.date then false
    else if fmtYmd due = fmtYmd (addDays g.date 1) then false
    else dtLe ⟨due, 0⟩ ⟨addDays g.date 7, g.tod⟩

def pNoDue (t : Task) : Bool := t.due.isNone

theorem catStep_overdue (g : Dt) (c : Categorized) (t : Task) :
    (catStep g c t).overdue = c.overdue ++ (if pOver g t then [t] else []) := by
  unfold catStep pOver
  rcases t.due with _ | due
  · simp
  · simp only
    split_ifs <;> simp_all

theorem catStep_today (g : Dt) (c : Categorized) (t : Task) :
    (catStep g c t).today = c.today ++ (if pToday g t then [t] else []) := by
  unfold catStep pToday
  rcases t.due with _ | due
  · simp
  · simp only
    split_ifs <;> simp_all

theorem catStep_tomorrow (g : Dt) (c : Categorized) (t : Task) :
    (catStep g c t).tomorrow = c.tomorrow ++ (if pTomorrow g t then [t] else []) := by
  unfold catStep pTomorrow
  rcases t.due with _ | due
  · simp
  · simp only
    split_ifs <;> simp_all

theorem catStep_thisWeek (g : Dt) (c : Categorized) (t : Task) :
    (catStep g c t).thisWeek = c.thisWeek ++ (if pWeek g t then [t] else []) := by
  unfold catStep pWeek
  rcases t.due with _ | due
  · simp
  · simp only
    split_ifs <;> simp_all

theorem catStep_noDue (g : Dt) (c : Categorized) (t : Task) :
    (catStep g c t).noDue = c.noDue ++ (if pNoDue t then [t] else []) := by
  unfold catStep pNoDue
  rcases t.due with _ | due
  · simp
  · simp only
    split_ifs <;> simp_all [Option.isNone]

theorem foldl_catStep_proj (g : Dt) (proj : Categorized → List Task) (p : Task → Bool)
    (hstep : ∀ c t, proj (catStep g c t) = proj c ++ (if p t then [t] else []))
    (ts : List Task) : ∀ c0, proj (ts.foldl (catStep g) c0) = proj c0 ++ ts.filter p := by
  induction ts with
  | nil => intro c0; simp
  | cons t ts ih =>
    intro c0
    rw [List.foldl_cons, ih, hstep]
    rw [List.filter_cons]
    split_ifs <;> simp

theorem categorize_overdue (g : Dt) (ts : List Task) :
    (categorizeTasks ts g).overdue = ts.filter (pOver g) := by
  unfold categorizeTasks
  rw [foldl_catStep_proj g Categorized.overdue (pOver g) (catStep_overdue g) ts]
  rfl

theorem categorize_today (g : Dt) (ts : List Task) :
    (categorizeTasks ts g).today = ts.filter (pToday g) := by
  unfold categorizeTasks
  rw [foldl_catStep_proj g Categorized.today (pToday g) (catStep_today g) ts]
  rfl

theorem categorize_tomorrow (g : Dt) (ts : List Task) :
    (categorizeTasks ts g).tomorrow = ts.filter (pTomorrow g) := by
  unfold categorizeTasks
  rw [foldl_catStep_proj g Categorized.tomorrow (pTomorrow g) (catStep_tomorrow g) ts]
  rfl

theorem categorize_thisWeek (g : Dt) (ts : List Task) :
    (categorizeTasks ts g).thisWeek = ts.filter (pWeek g) := by
  unfold categorizeTasks
  rw [foldl_catStep_proj g Categorized.thisWeek (pWeek g) (catStep_thisWeek g) ts]
  rfl

theorem categorize_noDue (g : Dt) (ts : List Task) :
    (categorizeTasks ts g).noDue = ts.filter pNoDue := by
  unfold categorizeTasks
  rw [foldl_catStep_proj g Categorized.noDue pNoDue (catStep_noDue g) ts]
  rfl

theorem dtLt_midnight (a b : Ymd) : dtLt ⟨a, 0⟩ ⟨b, 0⟩ = ymdLt a b := by
  simp [dtLt]

theorem dtLe_midnight_of_le {a b : Ymd} (tod : Nat) (h : ymdLt a b = true ∨ a = b) :
    dtLe ⟨a, 0⟩ ⟨b, tod⟩ = true := by
  rcases h with h | rfl
  · simp [dtLe, dtLt, h]
  · rcases Nat.eq_zero_or_pos tod with rfl | hpos
    · simp [dtLe, dtLt]
    · simp [dtLe, dtLt, hpos]

theorem dtLe_midnight_of_gt {a b : Ymd} (tod : Nat) (h : ymdLt b a = true) :
    dtLe ⟨a, 0⟩ ⟨b, tod⟩ = false := by
  have hne : b ≠ a := ymdLt_ne h
  have hne' : a ≠ b := fun e => hne e.symm
  simp [dtLe, dtLt, ymdLt_asymm h, hne']

theorem fmtYmd_ne_of_ne {a b : Ymd} (ha : YmdBounded a) (hb : YmdBounded b)
    (h : a ≠ b) : fmtYmd a ≠ fmtYmd b :=
  fun he => h (fmtYmd_inj ha hb he)

/-- C5: a task due exactly on the target date lands in Today; one due the
day before lands in Overdue; one due the day after lands in Tomorrow; one
due `k` days after for `2 ≤ k ≤ 7` lands in This Week; and one due eight
or more days after the target date (within the representable year range)
lands in no bucket at all. -/
theorem taskCategoryExactness (g : Dt) (tasks : List Task) (t : Task) (due : Ymd)
    (hval : ValidYmd g.date) (hy : g.date.y + 8 < 10000)
    (hdue : t.due = some due) (ht : t ∈ tasks) :
    (due = g.date → t ∈ (categorizeTasks tasks g).today) ∧
    (addDays due 1 = g.date → t ∈ (categorizeTasks tasks g).overdue) ∧
    (due = addDays g.date 1 → t ∈ (categorizeTasks tasks g).tomorrow) ∧
    (∀ k, 2 ≤ k → k ≤ 7 → due = addDays g.date k →
      t ∈ (categorizeTasks tasks g).thisWeek) ∧
    (∀ k, 8 ≤ k → due = addDays g.date k → (addDays g.date k).y < 10000 →
      t ∉ (categorizeTasks tasks g).overdue ∧ t ∉ (categorizeTasks tasks g).today ∧
      t ∉ (categorizeTasks tasks g).tomorrow ∧ t ∉ (categorizeTasks tasks g).thisWeek ∧
      t ∉ (categorizeTasks tasks g).noDue) := by
  have hgB : YmdBounded g.date := bounded_of_valid hval (by omega)
  refine ⟨?_, ?_, ?_, ?_, ?_⟩
  · rintro rfl
    rw [categorize_today, List.mem_filter]
    refine ⟨ht, ?_⟩
    unfold pToday
    rw [hdue]
    simp only [dtLt_midnight, ymdLt_irrefl]
    simp
  · intro h
    rw [categorize_overdue, List.mem_filter]
    refine ⟨ht, ?_⟩
    unfold pOver
    rw [hdue]
    simp only [dtLt_midnight]
    rw [← h]
    exact ymdLt_nextDay due
  · rintro rfl
    have hlt : ymdLt g.date (addDays g.date 1) = true := ymdLt_addDays (by omega)
    have hdB : YmdBounded (addDays g.date 1) := by
      refine bounded_of_valid (validYmd_addDays hval 1) ?_
      have := addDays_y_le g.date 1
      omega
    rw [categorize_tomorrow, List.mem_filter]
    refine ⟨ht, ?_⟩
    unfold pTomorrow
    rw [hdue]
    simp only [dtLt_midnight]
    rw [if_neg (by simp [ymdLt_asymm hlt]),
      if_neg (fmtYmd_ne_of_ne hdB hgB (fun e => ymdLt_ne hlt e.symm))]
    simp
  · rintro k hk2 hk7 rfl
    have hlt : ymdLt g.date (addDays g.date k) = true := ymdLt_addDays (by omega)
    have hlt1 : ymdLt (addDays g.date 1) (addDays g.date k) = true :=
      ymdLt_addDays_mono (by omega)
    have hdB : YmdBounded (addDays g.date k) := by
      refine bounded_of_valid (validYmd_addDays hval k) ?_
      have := addDays_y_le g.date k
      omega
    have h1B : YmdBounded (addDays g.date 1) := by
      refine bounded_of_valid (validYmd_addDays hval 1) ?_
      have := addDays_y_le g.date 1
      omega
    rw [categorize_thisWeek, List.mem_filter]
    refine ⟨ht, ?_⟩
    unfold pWeek
    rw [hdue]
    simp only [dtLt_midnight]
    rw [if_neg (by simp [ymdLt_asymm hlt]),
      if_neg (fmtYmd_ne_of_ne hdB hgB (fun e => ymdLt_ne hlt e.symm)),
      if_neg (fmtYmd_ne_of_ne hdB h1B (fun e => ymdLt_ne hlt1 e.symm))]
    rcases Nat.lt_or_ge k 7 with hk | hk
    · exact dtLe_midnight_of_le g.tod (Or.inl (ymdLt_addDays_mono hk))
    · have : k = 7 := by omega
      subst this
      exact dtLe_midnight_of_le g.tod (Or.inr rfl)
  · rintro k hk8 rfl hky
    have hlt : ymdLt g.date (addDays g.date k) = true := ymdLt_addDays (by omega)
    have hlt1 : ymdLt (addDays g.date 1) (addDays g.date k) = true :=
      ymdLt_addDays_mono (by omega)
    have hlt7 : ymdLt (addDays g.date 7) (addDays g.date k) = true :=
      ymdLt_addDays_mono (by omega)
    have hdB : YmdBounded (addDays g.date k) :=
      bounded_of_valid (validYmd_addDays hval k) hky
    have h1B : YmdBounded (addDays g.date 1) := by
      refine bounded_of_valid (validYmd_addDays hval 1) ?_
      have := addDays_y_le g.date 1
      omega
    have hnOver : pOver g t = false := by
      unfold pOver
      rw [hdue]
      simp only [dtLt_midnight]
      exact ymdLt_asymm hlt
    have hnToday : pToday g t = false := by
      unfold pToday
      rw [hdue]
      simp only [dtLt_midnight]
      rw [if_neg (by simp [ymdLt_asymm hlt])]
      simp [fmtYmd_ne_of_ne hdB hgB (fun e => ymdLt_ne hlt e.symm)]
    have hnTom : pTomorrow g t = false := by
      unfold pTomorrow
      rw [hdue]
      simp only [dtLt_midnight]
      rw [if_neg (by simp [ymdLt_asymm hlt]),
        if_neg (fmtYmd_ne_of_ne hdB hgB (fun e => ymdLt_ne hlt e.symm))]
      simp [fmtYmd_ne_of_ne hdB h1B (fun e => ymdLt_ne hlt1 e.symm)]
    have hnWeek : pWeek g t = false := by
      unfold pWeek
      rw [hdue]
      simp only [dtLt_midnight]
      rw [if_neg (by simp [ymdLt_asymm hlt]),
        if_neg (fmtYmd_ne_of_ne hdB hgB (fun e => ymdLt_ne hlt e.symm)),
        if_neg (fmtYmd_ne_of_ne hdB h1B (fun e => ymdLt_ne hlt1 e.symm))]
      exact dtLe_midnight_of_gt g.tod hlt7
    have hnND : pNoDue t = false := by
      unfold pNoDue
      rw [hdue]
      rfl
    refine ⟨?_, ?_, ?_, ?_, ?_⟩
    · rw [categorize_overdue]
      simp [List.mem_filter, hnOver]
    · rw [categorize_today]
      simp [List.mem_filter, hnToday]
    · rw [categorize_tomorrow]
      simp [List.mem_filter, hnTom]
    · rw [categorize_thisWeek]
      simp [List.mem_filter, hnWeek]
    · rw [categorize_noDue]
      simp [List.mem_filter, hnND]

/-- Closed instance of `taskCategoryExactness`, at the target date
2025-11-20: due dates 2025-11-20, -19, -21, -27, -28 land in Today,
Overdue, Tomorrow, This Week, nowhere, respectively. -/
theorem taskCategoryExactness_witness :
    ((⟨some "T".data, none, some ⟨2025, 11, 20⟩⟩ : Task) ∈
      (categorizeTasks [⟨some "T".data, none, some ⟨2025, 11, 20⟩⟩] ⟨⟨2025, 11, 20⟩, 0⟩).today) ∧
    ((⟨some "T".data, none, some ⟨2025, 11, 19⟩⟩ : Task) ∈
      (categorizeTasks [⟨some "T".data, none, some ⟨2025, 11, 19⟩⟩] ⟨⟨2025, 11, 20⟩, 0⟩).overdue) ∧
    ((⟨some "T".data, none, some ⟨2025, 11, 21⟩⟩ : Task) ∈
      (categorizeTasks [⟨some "T".data, none, some ⟨2025, 11, 21⟩⟩] ⟨⟨2025, 11, 20⟩, 0⟩).tomorrow) ∧
    ((⟨some "T".data, none, some ⟨2025, 11, 27⟩⟩ : Task) ∈
      (categorizeTasks [⟨some "T".data, none, some ⟨2025, 11, 27⟩⟩] ⟨⟨2025, 11, 20⟩, 0⟩).thisWeek) ∧
    ((⟨some "T".data, none, some ⟨2025, 11, 28⟩⟩ : Task) ∉
      (categorizeTasks [⟨some "T".data, none, some ⟨2025, 11, 28⟩⟩] ⟨⟨2025, 11, 20⟩, 0⟩).thisWeek) :=
  ⟨(taskCategoryExactness ⟨⟨2025, 11, 20⟩, 0⟩ _ _ ⟨2025, 11, 20⟩ (by unfold ValidYmd; decide) (by decide)
      rfl (by decide)).1 rfl,
   (taskCategoryExactness ⟨⟨2025, 11, 20⟩, 0⟩ _ _ ⟨2025, 11, 19⟩ (by unfold ValidYmd; decide) (by decide)
      rfl (by decide)).2.1 (by decide),
   (taskCategoryExactness ⟨⟨2025, 11, 20⟩, 0⟩ _ _ ⟨2025, 11, 21⟩ (by unfold ValidYmd; decide) (by decide)
      rfl (by decide)).2.2.1 (by decide),
   (taskCategoryExactness ⟨⟨2025, 11, 20⟩, 0⟩ _ _ ⟨2025, 11, 27⟩ (by unfold ValidYmd; decide) (by decide)
      rfl (by decide)).2.2.2.1 7 (by decide) (by decide) (by decide),
   ((taskCategoryExactness ⟨⟨2025, 11, 20⟩, 0⟩ _ _ ⟨2025, 11, 28⟩ (by unfold ValidYmd; decide) (by decide)
      rfl (by decide)).2.2.2.2 8 (by decide) (by decide) (by decide)).2.2.2.1⟩

/-! ## Specification of the positional matchers -/

theorem backK_atEOL {s : Str} {base : Nat} : ∀ {w k : Nat}, backK s base w = some k →
    atEOL s (base + k) = true ∧ k ≤ w := by
  intro w
  induction w with
  | zero =>
    intro k h
    unfold backK at h
    split_ifs at h with hc
    cases h
    exact ⟨by simpa using hc, Nat.le_refl _⟩
  | succ w ih =>
    intro k h
    unfold backK at h
    split_ifs at h with hc
    · cases h; exact ⟨hc, Nat.le_refl _⟩
    · obtain ⟨h1, h2⟩ := ih h
      exact ⟨h1, by omega⟩

theorem headEndAt_spec {h s : Str} {i e : Nat} (hm : headEndAt h s i = some e) :
    isLineStart s i = true ∧ (s.drop i).take h.length = h ∧
    ∃ k, e = i + h.length + k ∧ atEOL s (i + h.length + k) = true ∧
      k ≤ ((s.drop (i + h.length)).takeWhile isPySpace).length := by
  unfold headEndAt at hm
  split_ifs at hm with hc
  obtain ⟨k, hk, rfl⟩ := Option.map_eq_some'.1 hm
  obtain ⟨h1, h2⟩ := backK_atEOL hk
  exact ⟨by simpa using hc.1, hc.2, k, rfl, h1, h2⟩

theorem headEndAt_le {h s : Str} {i e : Nat} (hm : headEndAt h s i = some e) :
    i ≤ e ∧ e ≤ s.length := by
  obtain ⟨-, -, k, rfl, hEol, -⟩ := headEndAt_spec hm
  constructor
  · omega
  · unfold atEOL at hEol
    rw [Bool.or_eq_true] at hEol
    rcases hEol with h1 | h1
    · simp only [decide_eq_true_eq] at h1; omega
    · have : i + h.length + k < s.length := by
        by_contra hge
        rw [List.getElem?_eq_none (by omega)] at h1
        simp at h1
      omega

theorem findHeadAux_spec {h s : Str} : ∀ {fuel i st en},
    findHeadAux h s i fuel = some (st, en) →
    i ≤ st ∧ headEndAt h s st = some en ∧ ∀ j, i ≤ j → j < st → headEndAt h s j = none := by
  intro fuel
  induction fuel with
  | zero => intro i st en hm; cases hm
  | succ fuel ih =>
    intro i st en hm
    unfold findHeadAux at hm
    rcases he : headEndAt h s i with _ | e
    · rw [he] at hm
      obtain ⟨h1, h2, h3⟩ := ih hm
      refine ⟨by omega, h2, ?_⟩
      intro j hj1 hj2
      rcases Nat.eq_or_lt_of_le hj1 with rfl | hlt
      · exact he
      · exact h3 j hlt hj2
    · rw [he] at hm
      cases hm
      exact ⟨Nat.le_refl _, he, fun j hj1 hj2 => by omega⟩

theorem findHead_spec {h s : Str} {st en : Nat} (hm : findHead h s = some (st, en)) :
    headEndAt h s st = some en ∧ ∀ j < st, headEndAt h s j = none := by
  obtain ⟨-, h2, h3⟩ := findHeadAux_spec hm
  exact ⟨h2, fun j hj => h3 j (Nat.zero_le j) hj⟩

theorem findHHOrEndAux_ge {s : Str} : ∀ {fuel j : Nat}, j ≤ findHHOrEndAux s j fuel := by
  intro fuel
  induction fuel with
  | zero => intro j; exact Nat.le_refl _
  | succ fuel ih =>
    intro j
    unfold findHHOrEndAux
    split_ifs
    · exact Nat.le_refl _
    · exact Nat.le_trans (by omega) ih

theorem findHHOrEndAux_spec {s : Str} : ∀ {fuel j : Nat}, j + fuel > s.length → j ≤ s.length →
    (findHHOrEndAux s j fuel = s.length ∨ hhAt s (findHHOrEndAux s j fuel) = true) ∧
    findHHOrEndAux s j fuel ≤ s.length := by
  intro fuel
  induction fuel with
  | zero => intro j h1 h2; omega
  | succ fuel ih =>
    intro j h1 h2
    unfold findHHOrEndAux
    split_ifs with hc
    · rw [Bool.or_eq_true] at hc
      rcases hc with h' | h'
      · simp only [decide_eq_true_eq] at h'
        exact ⟨Or.inl h', by omega⟩
      · exact ⟨Or.inr h', h2⟩
    · have hjne : ¬(j = s.length) := by
        intro hj
        rw [hj] at hc
        simp at hc
      exact ih (by omega) (by omega)

theorem findHHOrEnd_spec {s : Str} {start : Nat} (hs : start ≤ s.length) :
    (findHHOrEnd s start = s.length ∨ hhAt s (findHHOrEnd s start) = true) ∧
    start ≤ findHHOrEnd s start ∧ findHHOrEnd s start ≤ s.length := by
  unfold findHHOrEnd
  obtain ⟨h1, h2⟩ := @findHHOrEndAux_spec s (s.length + 1 - start) start
    (by omega) hs
  exact ⟨h1, findHHOrEndAux_ge, h2⟩

theorem hhAt_drop_shape {s : Str} {j : Nat} (h : hhAt s j = true) :
    ∃ r, s.drop j = '#' :: '#' :: ' ' :: r := by
  unfold hhAt at h
  rw [Bool.and_eq_true] at h
  obtain ⟨-, h2⟩ := h
  simp only [decide_eq_true_eq] at h2
  rcases hd : s.drop j with _ | ⟨a, t⟩
  · rw [hd] at h2; simp at h2
  · rcases t with _ | ⟨b, t2⟩
    · rw [hd] at h2; simp at h2
    · rcases t2 with _ | ⟨c, t3⟩
      · rw [hd] at h2; simp at h2
      · rw [hd] at h2
        simp only [List.take, List.cons.injEq] at h2
        obtain ⟨rfl, rfl, rfl, -⟩ := h2
        exact ⟨t3, rfl⟩

/-! ## Claim C4: the frame property of the two document mergers -/

theorem take_append_drop_mid {s : Str} {a b : Nat} (hab : a ≤ b) :
    s = s.take a ++ (s.drop a).take (b - a) ++ s.drop b := by
  have h2 : s.drop b = (s.drop a).drop (b - a) := by
    rw [List.drop_drop]
    congr 1
    omega
  calc s = s.take a ++ s.drop a := (List.take_append_drop a s).symm
    _ = s.take a ++ ((s.drop a).take (b - a) ++ (s.drop a).drop (b - a)) := by
        rw [List.take_append_drop (b - a) (s.drop a)]
    _ = s.take a ++ (s.drop a).take (b - a) ++ s.drop b := by
        rw [h2, List.append_assoc]

/-- C4, counterexample: a document with no owned section and a trailing
space on its last text line.  Both mergers `rstrip` the document before
appending the new section, so the free-text line `hello ` is not preserved
byte-for-byte — it is shortened to `hello`. -/
theorem sectionIsolation_cex :
    ("hello ".data ∈ splitLines "# Title\nhello \n".data) ∧
    ("hello ".data ∉ splitLines (replaceCalendarSection "# Title\nhello \n".data
      (buildCalendarSection [] []))) ∧
    ("hello ".data ∉ splitLines (mergeContent "# Title\nhello \n".data
      (buildTasksSection ⟨[], [], [], [], []⟩ []) "2025-11-20".data)) := by
  refine ⟨by decide, by decide, by decide⟩

/-- C4, amended: when the owned heading is present, the merge is an exact
splice — the document splits as `A ++ M ++ B` with `A` the bytes before
the heading line and `B` the bytes from the next `## ` heading (or empty),
and the output is `A ++ newSection ++ glue ++ B` with a fixed small glue —
so frontmatter, other sections and free text outside the owned span are
preserved byte-for-byte.  When the heading is absent, the new section is
appended, but only after the document's trailing whitespace is stripped:
everything except that trailing whitespace is preserved. -/
theorem sectionIsolation_amended :
    (∀ (content newSec : Str) (st en : Nat), findHead hCal content = some (st, en) →
      ∃ A M B glue, content = A ++ M ++ B ∧ A = content.take st ∧
        replaceCalendarSection content newSec = A ++ newSec ++ glue ++ B ∧
        (glue = "\n\n".data ∨ (B = [] ∧ glue = ['\n']))) ∧
    (∀ (content newSec : Str), findHead hCal content = none →
      ∃ w, content = rstrip content ++ w ∧ (∀ c ∈ w, isPySpace c) ∧
        replaceCalendarSection content newSec
          = rstrip content ++ "\n\n".data ++ newSec ++ ['\n']) ∧
    (∀ (existing tasksSection dstr : Str) (st en : Nat), existing ≠ [] →
      findHead hTasks existing = some (st, en) →
      ∃ A M B glue, existing = A ++ M ++ B ∧ A = existing.take st ∧
        mergeContent existing tasksSection dstr = A ++ tasksSection ++ glue ++ B ∧
        (glue = ['\n'] ∨ (B = [] ∧ glue = []))) ∧
    (∀ (existing tasksSection dstr : Str), existing ≠ [] →
      findHead hTasks existing = none →
      ∃ w, existing = rstrip existing ++ w ∧ (∀ c ∈ w, isPySpace c) ∧
        mergeContent existing tasksSection dstr
          = rstrip existing ++ "\n\n".data ++ tasksSection) := by
  refine ⟨?_, ?_, ?_, ?_⟩
  · intro content newSec st en hm
    have hst : st ≤ en := (headEndAt_le (findHead_spec hm).1).1
    rcases hh : findHH (content.drop en) with _ | ns
    · have hrc : replaceCalendarSection content newSec
          = content.take st ++ newSec ++ ['\n'] := by
        simp [replaceCalendarSection, hm, hh]
      refine ⟨content.take st, content.drop st, [], ['\n'], by simp, rfl, ?_, Or.inr ⟨rfl, rfl⟩⟩
      rw [hrc]
      simp
    · have hrc : replaceCalendarSection content newSec
          = content.take st ++ newSec ++ "\n\n".data ++ content.drop (en + ns) := by
        simp [replaceCalendarSection, hm, hh, List.append_assoc]
      refine ⟨content.take st, (content.drop st).take (en + ns - st), content.drop (en + ns),
        "\n\n".data, ?_, rfl, ?_, Or.inl rfl⟩
      · exact take_append_drop_mid (by omega)
      · rw [hrc]
  · intro content newSec hm
    obtain ⟨w, hw, hws⟩ := rstrip_decomp content
    refine ⟨w, hw, hws, ?_⟩
    simp [replaceCalendarSection, hm, List.append_assoc]
  · intro existing tasksSection dstr st en hne hm
    have hst : st ≤ en := (headEndAt_le (findHead_spec hm).1).1
    have henL : en ≤ existing.length := (headEndAt_le (findHead_spec hm).1).2
    have hmc : mergeContent existing tasksSection dstr
        = existing.take st ++ tasksSection ++
          (if findHHOrEnd existing en < existing.length
           then ['\n'] ++ lstrip (existing.drop (findHHOrEnd existing en)) else []) := by
      simp only [mergeContent, hm, if_neg (show ¬(existing.isEmpty = true) by simpa using hne)]
    obtain ⟨hj1, hj2, hj3⟩ := findHHOrEnd_spec henL
    by_cases hjlen : findHHOrEnd existing en < existing.length
    · have hha : hhAt existing (findHHOrEnd existing en) = true := by
        rcases hj1 with h' | h'
        · omega
        · exact h'
      obtain ⟨r, hr⟩ := hhAt_drop_shape hha
      refine ⟨existing.take st,
        (existing.drop st).take (findHHOrEnd existing en - st),
        existing.drop (findHHOrEnd existing en), ['\n'],
        take_append_drop_mid (by omega), rfl, ?_, Or.inl rfl⟩
      rw [hmc, if_pos hjlen, hr, lstrip_cons_not_ws _ (by decide), ← hr]
      simp [List.append_assoc]
    · refine ⟨existing.take st, existing.drop st, [], [], by simp, rfl, ?_, Or.inr ⟨rfl, rfl⟩⟩
      rw [hmc, if_neg hjlen]
      simp
  · intro existing tasksSection dstr hne hm
    obtain ⟨w, hw, hws⟩ := rstrip_decomp existing
    refine ⟨w, hw, hws, ?_⟩
    simp [mergeContent, hm, if_neg (show ¬(existing.isEmpty = true) by simpa using hne),
      List.append_assoc]
    intro h
    exact absurd h hne

/-- Closed instance of `sectionIsolation_amended`. -/
theorem sectionIsolation_witness :
    ∃ A M B glue, ("## Calendar\n- [ ] a\n\n## Other\nrest".data : Str) = A ++ M ++ B ∧
      A = ("## Calendar\n- [ ] a\n\n## Other\nrest".data : Str).take 0 ∧
      replaceCalendarSection "## Calendar\n- [ ] a\n\n## Other\nrest".data
        "## Calendar\n- [ ] b".data = A ++ "## Calendar\n- [ ] b".data ++ glue ++ B ∧
      (glue = "\n\n".data ∨ (B = [] ∧ glue = ['\n'])) :=
  sectionIsolation_amended.1 "## Calendar\n- [ ] a\n\n## Other\nrest".data
    "## Calendar\n- [ ] b".data 0 11 (by decide)

/-! ## A propositional characterization of the heading match -/

theorem lt_takeWhile_length {p : Char → Bool} {l : Str} {j : Nat}
    (h : j < (l.takeWhile p).length) : ∃ c, l[j]? = some c ∧ p c = true := by
  induction l generalizing j with
  | nil => simp [List.takeWhile] at h
  | cons a t ih =>
    rw [List.takeWhile_cons] at h
    by_cases ha : p a
    · rw [if_pos ha] at h
      cases j with
      | zero => exact ⟨a, by simp, ha⟩
      | succ j =>
        simp only [List.length_cons, Nat.succ_lt_succ_iff] at h
        obtain ⟨c, hc1, hc2⟩ := ih h
        exact ⟨c, by simpa using hc1, hc2⟩
    · rw [if_neg ha] at h
      simp at h

theorem le_takeWhile_length {p : Char → Bool} {l : Str} {k : Nat}
    (h : ∀ j < k, ∃ c, l[j]? = some c ∧ p c = true) : k ≤ (l.takeWhile p).length := by
  induction l generalizing k with
  | nil =>
    cases k with
    | zero => simp
    | succ k =>
      obtain ⟨c, hc, -⟩ := h 0 (by omega)
      simp at hc
  | cons a t ih =>
    cases k with
    | zero => simp
    | succ k =>
      obtain ⟨c, hc, hpc⟩ := h 0 (by omega)
      simp only [List.getElem?_cons_zero, Option.some.injEq] at hc
      subst hc
      rw [List.takeWhile_cons, if_pos hpc]
      simp only [List.length_cons, Nat.succ_le_succ_iff]
      refine ih ?_
      intro j hj
      obtain ⟨c', hc1, hc2⟩ := h (j+1) (by omega)
      exact ⟨c', by simpa using hc1, hc2⟩

theorem backK_ne_none_iff {s : Str} {base : Nat} :
    ∀ {w : Nat}, backK s base w ≠ none ↔ ∃ k ≤ w, atEOL s (base + k) = true := by
  intro w
  induction w with
  | zero =>
    unfold backK
    split_ifs with hc
    · simp only [ne_eq, reduceCtorEq, not_false_iff, true_iff]
      exact ⟨0, Nat.le_refl 0, hc⟩
    · simp only [ne_eq, not_true_eq_false, false_iff, not_exists]
      intro k
      rintro ⟨hk, hEol⟩
      interval_cases k
      exact hc hEol
  | succ w ih =>
    unfold backK
    split_ifs with hc
    · simp only [ne_eq, reduceCtorEq, not_false_iff, true_iff]
      exact ⟨w + 1, Nat.le_refl _, hc⟩
    · rw [ih]
      constructor
      · rintro ⟨k, hk, hEol⟩
        exact ⟨k, by omega, hEol⟩
      · rintro ⟨k, hk, hEol⟩
        refine ⟨k, ?_, hEol⟩
        rcases Nat.eq_or_lt_of_le hk with rfl | hlt
        · exact absurd hEol hc
        · omega

/-- `^{h}\s*$` matches at `i` iff `i` starts a line, carries the heading
characters, and some whitespace run from the heading's end reaches an
end-of-line. -/
theorem headEndAt_ne_none_iff {h s : Str} {i : Nat} :
    headEndAt h s i ≠ none ↔
      isLineStart s i = true ∧ (s.drop i).take h.length = h ∧
      ∃ k, (∀ j < k, ∃ c, s[i + h.length + j]? = some c ∧ isPySpace c = true) ∧
        atEOL s (i + h.length + k) = true := by
  unfold headEndAt
  split_ifs with hc
  · rw [ne_eq, Option.map_eq_none', ← ne_eq, backK_ne_none_iff]
    constructor
    · rintro ⟨k, hk, hEol⟩
      refine ⟨by simpa using hc.1, hc.2, k, ?_, hEol⟩
      intro j hj
      have : j < ((s.drop (i + h.length)).takeWhile isPySpace).length := by omega
      obtain ⟨c, hc1, hc2⟩ := lt_takeWhile_length this
      rw [List.getElem?_drop] at hc1
      exact ⟨c, hc1, hc2⟩
    · rintro ⟨-, -, k, hws, hEol⟩
      refine ⟨k, ?_, hEol⟩
      refine le_takeWhile_length ?_
      intro j hj
      obtain ⟨c, hc1, hc2⟩ := hws j hj
      rw [← List.getElem?_drop] at hc1
      exact ⟨c, hc1, hc2⟩
  · simp only [ne_eq, not_true_eq_false, not_not, false_iff, not_and]
    intro h1 h2
    exfalso
    exact hc ⟨by simpa using h1, h2⟩

theorem headEndAt_none_of_ge {h s : Str} {i : Nat} (hne : h ≠ []) (hi : s.length ≤ i) :
    headEndAt h s i = none := by
  by_contra hcon
  obtain ⟨-, h2, -⟩ := headEndAt_ne_none_iff.1 hcon
  rw [List.drop_eq_nil_of_le hi] at h2
  simp only [List.take_nil] at h2
  exact hne h2.symm

theorem getElem?_take_lt {l : Str} {n m : Nat} (h : m < n) : (l.take n)[m]? = l[m]? := by
  rw [List.getElem?_take, if_pos h]

theorem getElem?_append_lt {a : Str} (b : Str) {n : Nat} (h : n < a.length) :
    (a ++ b)[n]? = a[n]? := by
  rw [List.getElem?_append, if_pos h]

theorem getElem?_append_ge {a : Str} (b : Str) {n : Nat} (h : a.length ≤ n) :
    (a ++ b)[n]? = b[n - a.length]? := by
  rw [List.getElem?_append, if_neg (by omega)]

/-- Character-level reading of a successful heading-character comparison. -/
theorem charsAt_of_take_drop {s x : Str} {i : Nat} (h : (s.drop i).take x.length = x) :
    ∀ j < x.length, s[i + j]? = x[j]? := by
  intro j hj
  have : ((s.drop i).take x.length)[j]? = x[j]? := by rw [h]
  rwa [getElem?_take_lt hj, List.getElem?_drop] at this

theorem take_drop_of_charsAt {s x : Str} {i : Nat}
    (h : ∀ j < x.length, s[i + j]? = x[j]?) : (s.drop i).take x.length = x := by
  refine List.ext_getElem? ?_
  intro n
  rcases Nat.lt_or_ge n x.length with hn | hn
  · rw [getElem?_take_lt hn, List.getElem?_drop]
    exact h n hn
  · rw [List.getElem?_eq_none hn, List.getElem?_eq_none]
    rw [List.length_take]
    omega

/-- No heading match in the prefix kept by a splice: a position that matched
neither in the original document nor anywhere below the splice point cannot
start matching after the text beyond the splice point is replaced. -/
theorem no_match_prefix_take {h : Str} (hnl : '\n' ∉ h)
    {p0 : Str} {st : Nat} (hst : st ≤ p0.length)
    (hb : st = 0 ∨ p0[st - 1]? = some '\n')
    (hnone : ∀ i < st, headEndAt h p0 i = none)
    (X : Str) : ∀ i < st, headEndAt h (p0.take st ++ X) i = none := by
  intro i hi
  by_contra hcon
  obtain ⟨hLS, hchars, k, hws, hEol⟩ := headEndAt_ne_none_iff.1 hcon
  have hql : (p0.take st).length = st := by
    rw [List.length_take]
    omega
  have htr : ∀ j < st, (p0.take st ++ X)[j]? = p0[j]? := by
    intro j hj
    rw [getElem?_append_lt X (by omega), getElem?_take_lt hj]
  have hbNL : p0[st - 1]? = some '\n' := by
    rcases hb with rfl | hb
    · omega
    · exact hb
  have hchars' := charsAt_of_take_drop hchars
  -- the heading characters cannot straddle the splice point
  have hspan : i + h.length ≤ st - 1 := by
    by_contra hov
    have hj0 : st - 1 - i < h.length := by omega
    have := hchars' (st - 1 - i) hj0
    rw [show i + (st - 1 - i) = st - 1 by omega, htr (st - 1) (by omega), hbNL] at this
    exact hnl (List.getElem?_mem this.symm)
  refine absurd (hnone i hi) ?_
  rw [← ne_eq, headEndAt_ne_none_iff]
  refine ⟨?_, ?_, ?_⟩
  · unfold isLineStart at hLS ⊢
    rcases Nat.eq_zero_or_pos i with rfl | hpos
    · simp
    · rw [Bool.or_eq_true] at hLS
      rcases hLS with h' | h'
      · simp only [decide_eq_true_eq] at h'
        simp [h']
      · simp only [decide_eq_true_eq] at h'
        rw [htr (i-1) (by omega)] at h'
        simp [h']
  · refine take_drop_of_charsAt ?_
    intro j hj
    rw [← htr (i + j) (by omega)]
    exact hchars' j hj
  · rcases Nat.lt_or_ge (i + h.length + k) st with hcase | hcase
    · refine ⟨k, ?_, ?_⟩
      · intro j hj
        obtain ⟨c, hc1, hc2⟩ := hws j hj
        rw [htr (i + h.length + j) (by omega)] at hc1
        exact ⟨c, hc1, hc2⟩
      · unfold atEOL at hEol ⊢
        rw [Bool.or_eq_true] at hEol
        rcases hEol with h' | h'
        · simp only [decide_eq_true_eq] at h'
          rw [List.length_append, hql] at h'
          omega
        · simp only [decide_eq_true_eq] at h'
          rw [htr _ hcase] at h'
          simp [h']
    · refine ⟨st - 1 - (i + h.length), ?_, ?_⟩
      · intro j hj
        obtain ⟨c, hc1, hc2⟩ := hws j (by omega)
        rw [htr (i + h.length + j) (by omega)] at hc1
        exact ⟨c, hc1, hc2⟩
      · unfold atEOL
        rw [show i + h.length + (st - 1 - (i + h.length)) = st - 1 by omega, hbNL]
        simp

/-- No heading match strictly inside the stripped document plus the two glue
newlines, when the original document had no match at all. -/
theorem no_match_append_ws {h : Str} (hne : h ≠ []) (hnl : '\n' ∉ h)
    {p0 : Str} (hnone : ∀ i, headEndAt h p0 i = none)
    (X : Str) : ∀ i < (rstrip p0).length + 2,
      headEndAt h (rstrip p0 ++ '\n' :: '\n' :: X) i = none := by
  obtain ⟨w, hw, hws0⟩ := rstrip_decomp p0
  set a := rstrip p0 with ha
  set n := a.length with hn
  intro i hi
  by_contra hcon
  obtain ⟨hLS, hchars, k, hws, hEol⟩ := headEndAt_ne_none_iff.1 hcon
  have hp0len : p0.length = n + w.length := by rw [hw, List.length_append]
  have htr : ∀ j < n, (a ++ '\n' :: '\n' :: X)[j]? = p0[j]? := by
    intro j hj
    rw [getElem?_append_lt _ (by omega), hw, getElem?_append_lt _ (by omega)]
  have hwc : ∀ j, n ≤ j → j < p0.length → ∃ c, p0[j]? = some c ∧ isPySpace c = true := by
    intro j hj1 hj2
    have hjw : p0[j]? = w[j - n]? := by rw [hw, getElem?_append_ge _ (by omega)]
    rcases hww : w[j - n]? with _ | c
    · rw [hww, List.getElem?_eq_none_iff] at hjw
      omega
    · exact ⟨c, by rw [hjw, hww], hws0 c (List.getElem?_mem hww)⟩
  have hsep0 : (a ++ '\n' :: '\n' :: X)[n]? = some '\n' := by
    rw [getElem?_append_ge _ (by omega)]
    simp
  have hsep1 : (a ++ '\n' :: '\n' :: X)[n + 1]? = some '\n' := by
    rw [getElem?_append_ge _ (by omega)]
    simp [Nat.add_sub_cancel_left]
  have hchars' := charsAt_of_take_drop hchars
  have hpos : 0 < h.length := List.length_pos.2 hne
  rcases Nat.lt_or_ge i n with hin | hout
  · -- the position lies in the preserved stripped text
    have hspan : i + h.length ≤ n := by
      by_contra hov
      have hj0 : n - i < h.length := by omega
      have := hchars' (n - i) hj0
      rw [show i + (n - i) = n by omega, hsep0] at this
      exact hnl (List.getElem?_mem this.symm)
    refine absurd (hnone i) ?_
    rw [← ne_eq, headEndAt_ne_none_iff]
    refine ⟨?_, ?_, ?_⟩
    · unfold isLineStart at hLS ⊢
      rcases Nat.eq_zero_or_pos i with rfl | hipos
      · simp
      · rw [Bool.or_eq_true] at hLS
        rcases hLS with h' | h'
        · simp only [decide_eq_true_eq] at h'
          simp [h']
        · simp only [decide_eq_true_eq] at h'
          rw [htr (i - 1) (by omega)] at h'
          simp [h']
    · refine take_drop_of_charsAt ?_
      intro j hj
      rw [← htr (i + j) (by omega)]
      exact hchars' j hj
    · rcases Nat.lt_or_ge (i + h.length + k) n with hcase | hcase
      · refine ⟨k, ?_, ?_⟩
        · intro j hj
          obtain ⟨c, hc1, hc2⟩ := hws j hj
          rw [htr (i + h.length + j) (by omega)] at hc1
          exact ⟨c, hc1, hc2⟩
        · unfold atEOL at hEol ⊢
          rw [Bool.or_eq_true] at hEol
          rcases hEol with h' | h'
          · simp only [decide_eq_true_eq] at h'
            rw [List.length_append, List.length_cons, List.length_cons] at h'
            omega
          · simp only [decide_eq_true_eq] at h'
            rw [htr _ hcase] at h'
            simp [h']
      · refine ⟨p0.length - (i + h.length), ?_, ?_⟩
        · intro j hj
          rcases Nat.lt_or_ge (i + h.length + j) n with hjn | hjn
          · obtain ⟨c, hc1, hc2⟩ := hws j (by omega)
            rw [htr (i + h.length + j) (by omega)] at hc1
            exact ⟨c, hc1, hc2⟩
          · exact hwc (i + h.length + j) hjn (by omega)
        · unfold atEOL
          have : i + h.length + (p0.length - (i + h.length)) = p0.length := by omega
          rw [this]
          simp
  · -- the position sits on one of the two glue newlines
    have h0 := hchars' 0 hpos
    rw [Nat.add_zero] at h0
    have hnlh : h[0]? = some '\n' := by
      rcases Nat.eq_or_lt_of_le hout with rfl | h'
      · rw [← h0, hsep0]
      · have : i = n + 1 := by omega
        subst this
        rw [← h0, hsep1]
    exact hnl (List.getElem?_mem hnlh)

theorem drop_append_ge (u v : Str) (i : Nat) : (u ++ v).drop (u.length + i) = v.drop i := by
  rw [← List.drop_drop, List.drop_left]

theorem getLast?_append_left {u : Str} (v : Str) (hne : u ≠ []) :
    (u ++ v)[u.length - 1]? = u.getLast? := by
  rw [getElem?_append_lt v (by
    have := List.length_pos.2 hne
    omega)]
  rw [List.getLast?_eq_getElem?]

/-- Matching a heading at a position inside a common suffix does not depend
on the text before the suffix, provided both prefixes end in a newline. -/
theorem match_suffix_mp {h u1 u2 v : Str} (h1 : u1.getLast? = some '\n')
    (h2 : u2.getLast? = some '\n') {i : Nat}
    (hm : headEndAt h (u1 ++ v) (u1.length + i) ≠ none) :
    headEndAt h (u2 ++ v) (u2.length + i) ≠ none := by
  have hu1 : u1 ≠ [] := by rintro rfl; simp at h1
  have hu2 : u2 ≠ [] := by rintro rfl; simp at h2
  obtain ⟨hLS, hchars, k, hws, hEol⟩ := headEndAt_ne_none_iff.1 hm
  rw [headEndAt_ne_none_iff]
  refine ⟨?_, ?_, k, ?_, ?_⟩
  · unfold isLineStart at hLS ⊢
    rcases Nat.eq_zero_or_pos i with rfl | hpos
    · rw [Nat.add_zero] at hLS ⊢
      rw [Bool.or_eq_true]
      right
      rw [decide_eq_true_eq, getLast?_append_left v hu2, h2]
    · rw [Bool.or_eq_true] at hLS
      rcases hLS with h' | h'
      · simp only [decide_eq_true_eq] at h'
        omega
      · simp only [decide_eq_true_eq] at h'
        rw [show u1.length + i - 1 = u1.length + (i - 1) by omega,
          getElem?_append_ge _ (by omega), Nat.add_sub_cancel_left] at h'
        rw [Bool.or_eq_true]
        right
        rw [decide_eq_true_eq, show u2.length + i - 1 = u2.length + (i - 1) by omega,
          getElem?_append_ge _ (by omega), Nat.add_sub_cancel_left]
        exact h'
  · rwa [drop_append_ge] at hchars ⊢
  · intro j hj
    obtain ⟨c, hc1, hc2⟩ := hws j hj
    rw [show u1.length + i + h.length + j = u1.length + (i + h.length + j) by omega,
      getElem?_append_ge _ (by omega), Nat.add_sub_cancel_left] at hc1
    refine ⟨c, ?_, hc2⟩
    rw [show u2.length + i + h.length + j = u2.length + (i + h.length + j) by omega,
      getElem?_append_ge _ (by omega), Nat.add_sub_cancel_left]
    exact hc1
  · unfold atEOL at hEol ⊢
    rw [Bool.or_eq_true] at hEol ⊢
    rcases hEol with h' | h'
    · simp only [decide_eq_true_eq] at h'
      rw [List.length_append] at h'
      left
      rw [decide_eq_true_eq, List.length_append]
      omega
    · simp only [decide_eq_true_eq] at h'
      rw [show u1.length + i + h.length + k = u1.length + (i + h.length + k) by omega,
        getElem?_append_ge _ (by omega), Nat.add_sub_cancel_left] at h'
      right
      rw [decide_eq_true_eq, show u2.length + i + h.length + k
        = u2.length + (i + h.length + k) by omega,
        getElem?_append_ge _ (by omega), Nat.add_sub_cancel_left]
      exact h'

/-! ## No heading can start inside the frontmatter -/

def noHashPair (s : Str) : Prop := ∀ i, ¬(s[i]? = some '#' ∧ s[i+1]? = some '#')

theorem noHashPair_append {u v : Str} (hu : noHashPair u) (hv : noHashPair v)
    (hj : ¬(u.getLast? = some '#' ∧ v[0]? = some '#')) : noHashPair (u ++ v) := by
  rintro i ⟨ha, hb⟩
  rcases Nat.lt_or_ge (i + 1) u.length with h1 | h1
  · rw [getElem?_append_lt v (by omega)] at ha hb
    exact hu i ⟨ha, hb⟩
  · rcases Nat.lt_or_ge i u.length with h2 | h2
    · have hieq : i = u.length - 1 := by omega
      rw [getElem?_append_lt v h2, hieq, ← List.getLast?_eq_getElem?] at ha
      rw [getElem?_append_ge v h1, show i + 1 - u.length = 0 by omega] at hb
      exact hj ⟨ha, hb⟩
    · rw [getElem?_append_ge v h2] at ha
      rw [getElem?_append_ge v (by omega), show i + 1 - u.length = (i - u.length) + 1 by omega]
        at hb
      exact hv (i - u.length) ⟨ha, hb⟩

theorem noHashPair_of_all_ne {s : Str} (h : ∀ c ∈ s, c ≠ '#') : noHashPair s := by
  rintro i ⟨ha, -⟩
  exact h '#' (List.getElem?_mem ha) rfl

theorem digitChar10_mod_ne_hash (n : Nat) : digitChar10 (n % 10) ≠ '#' := by
  have h : n % 10 < 10 := Nat.mod_lt n (by omega)
  revert h
  generalize n % 10 = m
  revert m
  decide

theorem digitChar10_mod_ne_nl (n : Nat) : digitChar10 (n % 10) ≠ '\n' := by
  have h : n % 10 < 10 := Nat.mod_lt n (by omega)
  revert h
  generalize n % 10 = m
  revert m
  decide

theorem fmtYmd_no_hash (d : Ymd) : ∀ c ∈ fmtYmd d, c ≠ '#' := by
  intro c hc
  unfold fmtYmd pad4 pad2 at hc
  simp only [List.cons_append, List.nil_append, List.mem_cons, List.not_mem_nil, or_false] at hc
  rcases hc with rfl | rfl | rfl | rfl | rfl | rfl | rfl | rfl | rfl | rfl <;>
    first
    | exact digitChar10_mod_ne_hash _
    | decide

theorem fmtYmd_no_nl (d : Ymd) : '\n' ∉ fmtYmd d := by
  intro hc
  unfold fmtYmd pad4 pad2 at hc
  simp only [List.cons_append, List.nil_append, List.mem_cons, List.not_mem_nil, or_false] at hc
  rcases hc with h | h | h | h | h | h | h | h | h | h <;>
    first
    | exact digitChar10_mod_ne_nl _ h.symm
    | simp_all

/-- No heading match strictly below the end of a hash-pair-free prefix
ending in a newline, for a heading starting with two hashes. -/
theorem no_match_prefix_noHH {h : Str} (h0 : h[0]? = some '#') (h1 : h[1]? = some '#')
    {front : Str} (X : Str) (hnp : noHashPair front) (hlastNL : front.getLast? = some '\n') :
    ∀ i < front.length, headEndAt h (front ++ X) i = none := by
  intro i hi
  by_contra hcon
  obtain ⟨-, hchars, -⟩ := headEndAt_ne_none_iff.1 hcon
  have hlen1 : 1 < h.length := by
    by_contra hle
    rw [List.getElem?_eq_none (by omega)] at h1
    cases h1
  have hchars' := charsAt_of_take_drop hchars
  have ca : (front ++ X)[i]? = some '#' := by
    have := hchars' 0 (by omega)
    rw [Nat.add_zero, h0] at this
    exact this
  have cb : (front ++ X)[i + 1]? = some '#' := by
    have := hchars' 1 hlen1
    rw [h1] at this
    exact this
  rcases Nat.lt_or_ge (i + 1) front.length with hin | hout
  · rw [getElem?_append_lt X (by omega)] at ca
    rw [getElem?_append_lt X hin] at cb
    exact hnp i ⟨ca, cb⟩
  · have hieq : i = front.length - 1 := by omega
    rw [getElem?_append_lt X hi, hieq, ← List.getLast?_eq_getElem?, hlastNL] at ca
    cases ca

/-! ## The match end at the start of a freshly built section -/

theorem isLineStart_boundary {A : Str} (X : Str) (hA : A = [] ∨ A.getLast? = some '\n') :
    isLineStart (A ++ X) A.length = true := by
  unfold isLineStart
  rcases hA with rfl | hA
  · simp
  · have hne : A ≠ [] := by rintro rfl; simp at hA
    rw [Bool.or_eq_true]
    right
    rw [decide_eq_true_eq, getLast?_append_left X hne, hA]

theorem drop_boundary (A y : Str) : (A ++ y).drop A.length = y := List.drop_left A y

theorem drop_boundary2 (A h y : Str) : (A ++ (h ++ y)).drop (A.length + h.length) = y := by
  rw [← List.append_assoc, ← List.length_append, List.drop_left]

theorem getElem?_at_drop {s y : Str} {base : Nat} (hd : s.drop base = y) (j : Nat) :
    s[base + j]? = y[j]? := by
  rw [← hd]
  exact (List.getElem?_drop s base j).symm

theorem headEndAt_boundary_b {h A R : Str} {c : Char}
    (hA : A = [] ∨ A.getLast? = some '\n') (hc : isPySpace c = false) :
    headEndAt h (A ++ (h ++ '\n' :: c :: R)) A.length = some (A.length + h.length) := by
  have hdrop : (A ++ (h ++ '\n' :: c :: R)).drop (A.length + h.length) = '\n' :: c :: R :=
    drop_boundary2 A h _
  have hcnl : ¬(c = '\n') := by rintro rfl; simp [isPySpace] at hc
  unfold headEndAt
  rw [if_pos ⟨isLineStart_boundary _ hA, by rw [drop_boundary A _, List.take_left]⟩]
  have hW : ((A ++ (h ++ '\n' :: c :: R)).drop (A.length + h.length)).takeWhile isPySpace
      = ['\n'] := by
    rw [hdrop, List.takeWhile_cons, if_pos (by decide), List.takeWhile_cons, if_neg (by
      simp [hc])]
  show Option.map (fun k => A.length + h.length + k)
      (backK (A ++ (h ++ '\n' :: c :: R)) (A.length + h.length)
        (((A ++ (h ++ '\n' :: c :: R)).drop (A.length + h.length)).takeWhile isPySpace).length)
      = some (A.length + h.length)
  rw [show (((A ++ (h ++ '\n' :: c :: R)).drop
      (A.length + h.length)).takeWhile isPySpace).length = 1 by rw [hW]; rfl]
  unfold backK
  rw [if_neg (by
    unfold atEOL
    rw [getElem?_at_drop hdrop 1]
    simp only [List.getElem?_cons_succ, List.getElem?_cons_zero, Bool.or_eq_true,
      decide_eq_true_eq]
    rintro (hl | hl)
    · rw [List.length_append, List.length_append, List.length_cons, List.length_cons] at hl
      omega
    · exact hcnl (by injection hl))]
  unfold backK
  rw [if_pos (by
    unfold atEOL
    have := getElem?_at_drop hdrop 0
    rw [Nat.add_zero] at this
    rw [this]
    simp)]
  simp

theorem headEndAt_boundary_a {h A : Str} (hA : A = [] ∨ A.getLast? = some '\n') :
    headEndAt h (A ++ (h ++ ['\n'])) A.length = some (A.length + h.length + 1) := by
  have hdrop : (A ++ (h ++ ['\n'])).drop (A.length + h.length) = ['\n'] :=
    drop_boundary2 A h _
  unfold headEndAt
  rw [if_pos ⟨isLineStart_boundary _ hA, by rw [drop_boundary A _, List.take_left]⟩]
  have hW : ((A ++ (h ++ ['\n'])).drop (A.length + h.length)).takeWhile isPySpace = ['\n'] := by
    rw [hdrop]
    rfl
  show Option.map (fun k => A.length + h.length + k)
      (backK (A ++ (h ++ ['\n'])) (A.length + h.length)
        (((A ++ (h ++ ['\n'])).drop (A.length + h.length)).takeWhile isPySpace).length)
      = some (A.length + h.length + 1)
  rw [show (((A ++ (h ++ ['\n'])).drop
      (A.length + h.length)).takeWhile isPySpace).length = 1 by rw [hW]; rfl]
  unfold backK
  rw [if_pos (by
    unfold atEOL
    rw [Bool.or_eq_true]
    left
    rw [decide_eq_true_eq, List.length_append, List.length_append]
    simp
    omega)]
  simp

theorem headEndAt_boundary_c {h A R : Str} {c : Char}
    (hA : A = [] ∨ A.getLast? = some '\n') (hc : isPySpace c = false) :
    headEndAt h (A ++ (h ++ '\n' :: '\n' :: c :: R)) A.length
      = some (A.length + h.length + 1) := by
  have hdrop : (A ++ (h ++ '\n' :: '\n' :: c :: R)).drop (A.length + h.length)
      = '\n' :: '\n' :: c :: R := drop_boundary2 A h _
  have hcnl : ¬(c = '\n') := by rintro rfl; simp [isPySpace] at hc
  unfold headEndAt
  rw [if_pos ⟨isLineStart_boundary _ hA, by rw [drop_boundary A _, List.take_left]⟩]
  have hW : ((A ++ (h ++ '\n' :: '\n' :: c :: R)).drop (A.length + h.length)).takeWhile isPySpace
      = ['\n', '\n'] := by
    rw [hdrop, List.takeWhile_cons, if_pos (by decide), List.takeWhile_cons, if_pos (by decide),
      List.takeWhile_cons, if_neg (by simp [hc])]
  show Option.map (fun k => A.length + h.length + k)
      (backK (A ++ (h ++ '\n' :: '\n' :: c :: R)) (A.length + h.length)
        (((A ++ (h ++ '\n' :: '\n' :: c :: R)).drop
          (A.length + h.length)).takeWhile isPySpace).length)
      = some (A.length + h.length + 1)
  rw [show (((A ++ (h ++ '\n' :: '\n' :: c :: R)).drop
      (A.length + h.length)).takeWhile isPySpace).length = 2 by rw [hW]; rfl]
  unfold backK
  rw [if_neg (by
    unfold atEOL
    rw [getElem?_at_drop hdrop 2]
    simp only [List.getElem?_cons_succ, List.getElem?_cons_zero, Bool.or_eq_true,
      decide_eq_true_eq]
    rintro (hl | hl)
    · rw [List.length_append, List.length_append, List.length_cons, List.length_cons,
        List.length_cons] at hl
      omega
    · exact hcnl (by injection hl))]
  unfold backK
  rw [if_pos (by
    unfold atEOL
    rw [getElem?_at_drop hdrop 1]
    simp)]
  simp

/-! ## Where `^## ` can and cannot match -/

theorem hhAt_lt_length {t : Str} {j : Nat} (h : hhAt t j = true) : j < t.length := by
  obtain ⟨r, hr⟩ := hhAt_drop_shape h
  by_contra hge
  rw [List.drop_eq_nil_of_le (by omega)] at hr
  cases hr

theorem hhAt_chars {t : Str} {j : Nat} (h : hhAt t j = true) :
    t[j]? = some '#' ∧ t[j + 1]? = some '#' ∧ t[j + 2]? = some ' ' := by
  unfold hhAt at h
  rw [Bool.and_eq_true] at h
  obtain ⟨-, h2⟩ := h
  rw [decide_eq_true_eq] at h2
  have := charsAt_of_take_drop (x := ['#', '#', ' ']) (by simpa using h2)
  exact ⟨by simpa using this 0 (by decide), by simpa using this 1 (by decide),
    by simpa using this 2 (by decide)⟩

theorem hhAt_shift {s : Str} {off j : Nat} (hj : 1 ≤ j) :
    hhAt s (off + j) = hhAt (s.drop off) j := by
  have e1 : s[off + j - 1]? = (s.drop off)[j - 1]? := by
    rw [List.getElem?_drop]
    congr 1
    omega
  have e2 : (s.drop off).drop j = s.drop (off + j) := by
    rw [List.drop_drop]
  unfold hhAt isLineStart
  rw [e2, ← e1]
  have n1 : (decide (off + j = 0)) = false := by simp; omega
  have n2 : (decide (j = 0)) = false := by simp; omega
  rw [n1, n2]

theorem joinLines_append_singleton {L : List Str} (hL : L ≠ []) (x : Str) :
    joinLines (L ++ [x]) = joinLines L ++ '\n' :: x := by
  induction L with
  | nil => exact absurd rfl hL
  | cons l ls ih =>
    cases ls with
    | nil => simp [joinLines, List.intercalate]
    | cons l' ls' =>
      have h1 : joinLines ((l :: l' :: ls') ++ [x]) = l ++ '\n' :: joinLines ((l' :: ls') ++ [x]) := by
        simp [joinLines, List.intercalate]
      have h2 : joinLines (l :: l' :: ls') = l ++ '\n' :: joinLines (l' :: ls') := by
        simp [joinLines, List.intercalate]
      rw [h1, ih (by simp), h2]
      simp

theorem take3_of_append_nl {l y : Str} (h : (l ++ '\n' :: y).take 3 = ['#', '#', ' ']) :
    l.take 3 = ['#', '#', ' '] := by
  match l with
  | [] => simp at h
  | [a] =>
    simp only [List.cons_append, List.nil_append] at h
    simp at h
  | [a, b] =>
    simp only [List.cons_append, List.nil_append] at h
    simp at h
  | a :: b :: c :: t =>
    simp only [List.cons_append] at h
    simp only [List.take, List.cons.injEq] at h ⊢
    exact ⟨h.1, h.2.1, h.2.2.1, trivial⟩

/-- `^## ` never matches inside a joined block of newline-free lines none
of which opens with `## `. -/
theorem hhAt_joinLines_false {L : List Str}
    (hL : ∀ l ∈ L, '\n' ∉ l ∧ l.take 3 ≠ ['#', '#', ' ']) :
    ∀ j, hhAt (joinLines L) j = false := by
  induction L with
  | nil =>
    intro j
    unfold hhAt
    have : joinLines ([] : List Str) = [] := rfl
    rw [this]
    simp
  | cons l ls ih =>
    intro j
    cases ls with
    | nil =>
      have hjl : joinLines [l] = l := by simp [joinLines, List.intercalate]
      rw [hjl]
      obtain ⟨hnl, h3⟩ := hL l (by simp)
      rcases Nat.eq_zero_or_pos j with rfl | hj
      · unfold hhAt
        by_contra hcon
        rw [Bool.not_eq_false, Bool.and_eq_true] at hcon
        obtain ⟨-, h2⟩ := hcon
        rw [decide_eq_true_eq, List.drop_zero] at h2
        exact h3 h2
      · unfold hhAt isLineStart
        have : l[j-1]? ≠ some '\n' := by
          intro hc
          exact hnl (List.getElem?_mem hc)
        simp only [Bool.and_eq_false_iff, Bool.or_eq_false_iff]
        left
        constructor
        · simp; omega
        · simpa using this
    | cons l' ls' =>
      have hjl : joinLines (l :: l' :: ls') = l ++ '\n' :: joinLines (l' :: ls') := by
        simp [joinLines, List.intercalate]
      rw [hjl]
      obtain ⟨hnl, h3⟩ := hL l (by simp)
      set s' := joinLines (l' :: ls') with hs'
      have ihs : ∀ j, hhAt s' j = false := ih (fun x hx => hL x (by simp [hx]))
      rcases Nat.lt_or_ge j 1 with hj | hj
      · interval_cases j
        by_contra hcon
        rw [Bool.not_eq_false] at hcon
        obtain ⟨c1, -, -⟩ := hhAt_chars hcon
        have h2 := hhAt_chars hcon
        unfold hhAt at hcon
        rw [Bool.and_eq_true] at hcon
        obtain ⟨-, hch⟩ := hcon
        rw [decide_eq_true_eq, List.drop_zero] at hch
        exact h3 (take3_of_append_nl hch)
      · rcases Nat.lt_or_ge j (l.length + 1) with hjl2 | hjl2
        · -- inside the first line: the previous character is not a newline
          unfold hhAt isLineStart
          have : (l ++ '\n' :: s')[j - 1]? ≠ some '\n' := by
            rw [getElem?_append_lt _ (by omega)]
            intro hc
            exact hnl (List.getElem?_mem hc)
          simp only [Bool.and_eq_false_iff, Bool.or_eq_false_iff]
          left
          constructor
          · simp; omega
          · simpa using this
        · -- at or after the start of the joined remainder
          have hdrop : (l ++ '\n' :: s').drop (l.length + 1) = s' := by
            rw [show l ++ '\n' :: s' = (l ++ ['\n']) ++ s' by simp, show l.length + 1
              = (l ++ ['\n']).length by simp, List.drop_left]
          rcases Nat.eq_or_lt_of_le hjl2 with rfl | hgt
          · by_contra hcon
            rw [Bool.not_eq_false] at hcon
            unfold hhAt at hcon
            rw [Bool.and_eq_true] at hcon
            obtain ⟨-, hch⟩ := hcon
            rw [decide_eq_true_eq, hdrop] at hch
            have h0 := ihs 0
            unfold hhAt at h0
            rw [Bool.and_eq_false_iff] at h0
            rcases h0 with h0 | h0
            · unfold isLineStart at h0
              simp at h0
            · rw [List.drop_zero] at h0
              simp only [decide_eq_false_iff_not] at h0
              exact h0 hch
          · have := @hhAt_shift (l ++ '\n' :: s') (l.length + 1)
              (j - (l.length + 1)) (by omega)
            rw [show l.length + 1 + (j - (l.length + 1)) = j by omega, hdrop] at this
            rw [this]
            exact ihs _

/-! ## Converse search lemmas: computing the leftmost match -/

theorem findHHAux_eq_none {t : Str} (h : ∀ i, hhAt t i = false) :
    ∀ fuel j, findHHAux t j fuel = none := by
  intro fuel
  induction fuel with
  | zero => intro j; rfl
  | succ f ih =>
    intro j
    unfold findHHAux
    rw [if_neg (by simp [h j])]
    exact ih (j + 1)

theorem findHH_eq_none_of {t : Str} (h : ∀ i, hhAt t i = false) : findHH t = none :=
  findHHAux_eq_none h _ 0

theorem findHHAux_eq_some {t : Str} {p : Nat} (h1 : hhAt t p = true)
    (h2 : ∀ i < p, hhAt t i = false) :
    ∀ fuel j, j ≤ p → p < j + fuel → findHHAux t j fuel = some p := by
  intro fuel
  induction fuel with
  | zero => intro j hj hlt; omega
  | succ f ih =>
    intro j hj hlt
    unfold findHHAux
    rcases Nat.eq_or_lt_of_le hj with rfl | hlt2
    · rw [if_pos h1]
    · rw [if_neg (by simp [h2 j hlt2])]
      exact ih (j + 1) hlt2 (by omega)

theorem findHH_eq_some_of {t : Str} {p : Nat} (h1 : hhAt t p = true)
    (h2 : ∀ i < p, hhAt t i = false) : findHH t = some p :=
  findHHAux_eq_some h1 h2 _ 0 (Nat.zero_le _)
    (by have := hhAt_lt_length h1; omega)

theorem findHeadAux_eq_some {h s : Str} {st en : Nat}
    (h1 : headEndAt h s st = some en) (h2 : ∀ i < st, headEndAt h s i = none) :
    ∀ fuel j, j ≤ st → st < j + fuel → findHeadAux h s j fuel = some (st, en) := by
  intro fuel
  induction fuel with
  | zero => intro j hj hlt; omega
  | succ f ih =>
    intro j hj hlt
    unfold findHeadAux
    rcases Nat.eq_or_lt_of_le hj with rfl | hlt2
    · rw [h1]
    · rw [h2 j hlt2]
      exact ih (j + 1) hlt2 (by omega)

theorem findHead_eq_some_of {h s : Str} {st en : Nat} (hst : st ≤ s.length)
    (h1 : headEndAt h s st = some en) (h2 : ∀ i < st, headEndAt h s i = none) :
    findHead h s = some (st, en) :=
  findHeadAux_eq_some h1 h2 _ 0 (Nat.zero_le _) (by omega)

theorem findHHOrEndAux_eq {s : Str} {q : Nat}
    (hq : q = s.length ∨ hhAt s q = true) :
    ∀ fuel j, j ≤ q → q ≤ j + fuel →
      (∀ i, j ≤ i → i < q → i ≠ s.length ∧ hhAt s i = false) →
      findHHOrEndAux s j fuel = q := by
  intro fuel
  induction fuel with
  | zero =>
    intro j hj hle _
    have hqj : q = j := by omega
    subst hqj
    rfl
  | succ f ih =>
    intro j hj hle h2
    unfold findHHOrEndAux
    rcases Nat.eq_or_lt_of_le hj with rfl | hlt
    · rw [if_pos]
      rcases hq with hq | hq
      · simp [hq]
      · simp [hq]
    · obtain ⟨hne, hff⟩ := h2 j (le_refl _) hlt
      rw [if_neg (by simp [hff, hne])]
      exact ih (j + 1) hlt (by omega) (fun i hi hiq => h2 i (by omega) hiq)

theorem findHHOrEnd_eq_of {s : Str} {start q : Nat} (h0 : start ≤ q)
    (hq : q = s.length ∨ hhAt s q = true)
    (h2 : ∀ i, start ≤ i → i < q → i ≠ s.length ∧ hhAt s i = false) :
    findHHOrEnd s start = q := by
  have hql : q ≤ s.length := by
    rcases hq with rfl | hq
    · exact le_refl _
    · exact le_of_lt (hhAt_lt_length hq)
  exact findHHOrEndAux_eq hq _ start h0 (by omega) h2

/-- `^## ` matching at a position strictly inside a prefix only reads the
prefix. -/
theorem hhAt_append_left {a b : Str} {j : Nat} (hj : j + 3 ≤ a.length) :
    hhAt (a ++ b) j = hhAt a j := by
  unfold hhAt isLineStart
  have e1 : (a ++ b)[j-1]? = a[j-1]? := getElem?_append_lt _ (by omega)
  have e2 : ((a ++ b).drop j).take 3 = (a.drop j).take 3 := by
    rw [List.drop_append_of_le_length (by omega),
      List.take_append_of_le_length (by rw [List.length_drop]; omega)]
  rw [e1, e2]

/-- A position at or past a cut where `^## ` fails on the suffix slice also
fails in the full string (at the boundary the character test alone
refutes it). -/
theorem hhAt_false_of_slice {s : Str} {off i : Nat} (hoff : off ≤ i)
    (hs : hhAt (s.drop off) (i - off) = false) : hhAt s i = false := by
  rcases Nat.eq_or_lt_of_le hoff with rfl | hlt
  · rw [Nat.sub_self] at hs
    unfold hhAt at hs ⊢
    rw [Bool.and_eq_false_iff] at hs
    rcases hs with hs | hs
    · unfold isLineStart at hs
      simp at hs
    · rw [List.drop_zero] at hs
      rw [Bool.and_eq_false_iff]
      right
      exact hs
  · have := @hhAt_shift s off (i - off) (by omega)
    rw [show off + (i - off) = i by omega] at this
    rw [this]
    exact hs

/-- `^## ` fires right after the `'\n'` gluing a `"## "` tail to a block. -/
theorem hhAt_append_tail_true {U tl : Str} (ht : tl.take 3 = ['#', '#', ' ']) :
    hhAt (U ++ '\n' :: tl) (U.length + 1) = true := by
  have hnlU : (U ++ '\n' :: tl)[U.length]? = some '\n' := by
    rw [getElem?_append_ge _ (le_refl _)]
    simp
  unfold hhAt isLineStart
  have e1 : (U ++ '\n' :: tl).drop (U.length + 1) = tl := by
    rw [show U ++ '\n' :: tl = (U ++ ['\n']) ++ tl by simp,
      show U.length + 1 = (U ++ ['\n']).length by simp, List.drop_left]
  rw [e1, ht]
  simp [hnlU]

/-- `^## ` fails everywhere up to and including the gluing `'\n'` when the
block consists of clean lines. -/
theorem hhAt_joinTail_false {L : List Str} {tl : Str}
    (hL : ∀ l ∈ L, '\n' ∉ l ∧ l.take 3 ≠ ['#', '#', ' ']) :
    ∀ i < (joinLines L).length + 1, hhAt (joinLines L ++ '\n' :: tl) i = false := by
  set U := joinLines L with hU
  have hnlU : (U ++ '\n' :: tl)[U.length]? = some '\n' := by
    rw [getElem?_append_ge _ (le_refl _)]
    simp
  · intro i hi
    rcases Nat.lt_or_ge (i + 2) (U.length + 1) with hA | hB
    · -- the window sits strictly inside `U ++ ['\n']`
      have hLne : L ≠ [] := by
        intro hnil
        rw [hnil] at hU
        have hz : joinLines ([] : List Str) = [] := rfl
        rw [hz] at hU
        rw [hU] at hA
        simp at hA
      have hjoin : joinLines (L ++ [[]]) = U ++ ['\n'] := by
        rw [joinLines_append_singleton hLne]
      have hfalse := hhAt_joinLines_false (L := L ++ [[]])
        (fun l hl => by
          rcases List.mem_append.mp hl with hmem | hmem
          · exact hL l hmem
          · simp only [List.mem_singleton] at hmem
            subst hmem
            exact ⟨by simp, by decide⟩) i
      rw [hjoin] at hfalse
      rw [show U ++ '\n' :: tl = (U ++ ['\n']) ++ tl by simp,
        hhAt_append_left (by simp; omega)]
      exact hfalse
    · -- the window touches the `'\n'` at index `|U|`
      by_contra hcon
      rw [Bool.not_eq_false] at hcon
      obtain ⟨c1, c2, -⟩ := hhAt_chars hcon
      rcases Nat.eq_or_lt_of_le (Nat.lt_succ_iff.mp hi) with heq | hlt2
      · rw [heq, hnlU] at c1
        simp at c1
      · have he : i + 1 = U.length := by omega
        rw [he, hnlU] at c2
        simp at c2

/-- In a block of clean lines followed by a `"## "` tail, the first `^## `
match sits exactly at the start of the tail. -/
theorem findHH_joinLines_tail {L : List Str} {tl : Str}
    (hL : ∀ l ∈ L, '\n' ∉ l ∧ l.take 3 ≠ ['#', '#', ' '])
    (ht : tl.take 3 = ['#', '#', ' ']) :
    findHH (joinLines L ++ '\n' :: tl) = some ((joinLines L).length + 1) :=
  findHH_eq_some_of (hhAt_append_tail_true ht) (hhAt_joinTail_false hL)

/-- A block of clean lines alone contains no `^## ` match at all. -/
theorem findHH_joinLines_none {L : List Str}
    (hL : ∀ l ∈ L, '\n' ∉ l ∧ l.take 3 ≠ ['#', '#', ' ']) :
    findHH (joinLines L) = none :=
  findHH_eq_none_of (hhAt_joinLines_false hL)

/-! ## Forward readings of the remaining searches -/

theorem findHeadAux_none {h s : Str} : ∀ {fuel j : Nat}, findHeadAux h s j fuel = none →
    ∀ i, j ≤ i → i < j + fuel → headEndAt h s i = none := by
  intro fuel
  induction fuel with
  | zero => intro j _ i h1 h2; omega
  | succ f ih =>
    intro j hm i h1 h2
    unfold findHeadAux at hm
    rcases he : headEndAt h s j with _ | e
    · rw [he] at hm
      rcases Nat.eq_or_lt_of_le h1 with rfl | hlt
      · exact he
      · exact ih hm i hlt (by omega)
    · rw [he] at hm
      cases hm

theorem findHead_none_all {h s : Str} (hne : h ≠ []) (hm : findHead h s = none) :
    ∀ i, headEndAt h s i = none := by
  intro i
  rcases Nat.lt_or_ge i (s.length + 1) with hi | hi
  · exact findHeadAux_none hm i (Nat.zero_le _) (by omega)
  · exact headEndAt_none_of_ge hne (by omega)

theorem findHHAux_some {t : Str} : ∀ {fuel j p : Nat}, findHHAux t j fuel = some p →
    hhAt t p = true := by
  intro fuel
  induction fuel with
  | zero => intro j p hm; cases hm
  | succ f ih =>
    intro j p hm
    unfold findHHAux at hm
    by_cases hj : hhAt t j = true
    · rw [if_pos hj] at hm
      cases hm
      exact hj
    · rw [if_neg hj] at hm
      exact ih hm

/-! ## Clean item texts -/

/-- An item text as both exporters assume it: nonempty, single-line and
already stripped. -/
def SaneText (x : Str) : Prop := x ≠ [] ∧ '\n' ∉ x ∧ strip x = x

theorem rstrip_sublist (s : Str) : List.Sublist (rstrip s) s := by
  unfold rstrip
  have h := List.dropWhile_sublist (l := s.reverse) isPySpace
  have h2 := List.reverse_sublist.mpr h
  rwa [List.reverse_reverse] at h2

theorem lstrip_sublist (s : Str) : List.Sublist (lstrip s) s :=
  List.dropWhile_sublist isPySpace

theorem strip_parts {s : Str} (h : strip s = s) : rstrip s = s ∧ lstrip s = s := by
  have e : strip s = lstrip (rstrip s) := rfl
  have l1 : (lstrip (rstrip s)).length ≤ (rstrip s).length := (lstrip_sublist _).length_le
  have l2 : (rstrip s).length ≤ s.length := (rstrip_sublist s).length_le
  have l3 : s.length = (lstrip (rstrip s)).length := by rw [← e, h]
  have hr : rstrip s = s :=
    (List.Sublist.length_eq (rstrip_sublist s)).mp (by omega)
  refine ⟨hr, ?_⟩
  have h2 := h
  rw [e, hr] at h2
  exact h2

theorem rstrip_append_right {pre x : Str} (hx : rstrip x = x) (hne : x ≠ []) :
    rstrip (pre ++ x) = pre ++ x := by
  obtain ⟨w, d, hd'⟩ := (List.eq_nil_or_concat x).resolve_left hne
  have hd : x = w ++ [d] := by simpa [List.concat_eq_append] using hd'
  have hlast : isPySpace d = false := rstrip_last_not_ws (s := x) (by rw [hx, hd])
  refine rstrip_eq_self_of_last (Or.inr ⟨d, pre ++ w, ?_, hlast⟩)
  rw [hd, List.append_assoc]

theorem strip_pre_append {c : Char} {pre x : Str} (hc : isPySpace c = false)
    (hx : rstrip x = x) (hne : x ≠ []) :
    strip (c :: pre ++ x) = c :: pre ++ x := by
  unfold strip
  rw [show c :: pre ++ x = (c :: pre) ++ x from rfl,
    @rstrip_append_right (c :: pre) x hx hne]
  exact lstrip_cons_not_ws _ hc

theorem getLast?_take {s : Str} {st : Nat} (h1 : 0 < st) (h2 : st ≤ s.length) :
    (s.take st).getLast? = s[st - 1]? := by
  rw [List.getLast?_eq_getElem?]
  have hlen : (s.take st).length = st := by rw [List.length_take]; omega
  rw [hlen, getElem?_take_lt (by omega)]

/-! ## What the checklist pattern does and does not match -/

theorem matchChecklist_render (mk : Bool) {t : Str} (hne : t ≠ []) (hnl : '\n' ∉ t) :
    matchChecklist ("- [".data ++ [if mk then 'x' else ' '] ++ "] ".data ++ t)
      = some (mk, t) := by
  have hl : ¬(t.getLast? = some '\n') := by
    intro hc
    exact hnl (List.mem_of_mem_getLast? hc)
  cases mk
  · have e : "- [".data ++ [if (false : Bool) then 'x' else ' '] ++ "] ".data ++ t
        = '-' :: ' ' :: '[' :: ' ' :: ']' :: ' ' :: t := rfl
    rw [e]
    unfold matchChecklist
    simp [hl, hne, hnl]
  · have e : "- [".data ++ [if (true : Bool) then 'x' else ' '] ++ "] ".data ++ t
        = '-' :: ' ' :: '[' :: 'x' :: ']' :: ' ' :: t := rfl
    rw [e]
    unfold matchChecklist
    simp [hl, hne, hnl]

theorem matchChecklist_ne_none {l : Str} (h : matchChecklist l ≠ none) :
    ∃ c rest, l = '-' :: ' ' :: '[' :: c :: ']' :: ' ' :: rest := by
  unfold matchChecklist at h
  split at h
  · rename_i x1 c rest
    exact ⟨c, rest, rfl⟩
  · exact absurd rfl h

theorem matchChecklist_none_of_head {l : Str} (h : l.head? ≠ some '-') :
    matchChecklist l = none := by
  by_contra hc
  obtain ⟨c, rest, rfl⟩ := matchChecklist_ne_none hc
  simp at h

/-! ## Hash pairs on concrete prefixes -/

theorem noHashPair_iff_lt {s : Str} :
    noHashPair s ↔ ∀ i < s.length, ¬(s[i]? = some '#' ∧ s[i+1]? = some '#') := by
  constructor
  · intro h i _
    exact h i
  · intro h i
    rcases Nat.lt_or_ge i s.length with hi | hi
    · exact h i hi
    · rintro ⟨ha, -⟩
      rw [List.getElem?_eq_none hi] at ha
      cases ha

/-! ## The checked-item parsers as filterMaps over the line list -/

/-- One parsed entry of the calendar scanner (strip each line, then match). -/
def calF (line : Str) : Option (Str × Bool) :=
  (matchChecklist (strip line)).map (fun p => (sigOfItemText (strip p.2), p.1))

/-- One parsed entry of the task scanner (match at column zero). -/
def taskF (line : Str) : Option (Str × Bool) :=
  (matchChecklist line).map (fun p => (extractTaskSignature p.2, p.1))

theorem calFold (lines : List Str) : ∀ init : List (Str × Bool),
    lines.foldl (fun m line =>
      match matchChecklist (strip line) with
      | some (mk, txt) => m ++ [(sigOfItemText (strip txt), mk)]
      | none => m) init = init ++ lines.filterMap calF := by
  induction lines with
  | nil => intro init; simp
  | cons l ls ih =>
    intro init
    rw [List.foldl_cons, List.filterMap_cons]
    rcases hF : matchChecklist (strip l) with _ | ⟨mk, txt⟩
    · simp only [calF, hF, Option.map_none']
      rw [ih]
    · simp only [calF, hF, Option.map_some']
      rw [ih]
      simp

theorem taskFold (lines : List Str) : ∀ init : List (Str × Bool),
    lines.foldl (fun m line =>
      match matchChecklist line with
      | some (mk, txt) => m ++ [(extractTaskSignature txt, mk)]
      | none => m) init = init ++ lines.filterMap taskF := by
  induction lines with
  | nil => intro init; simp
  | cons l ls ih =>
    intro init
    rw [List.foldl_cons, List.filterMap_cons]
    rcases hF : matchChecklist l with _ | ⟨mk, txt⟩
    · simp only [taskF, hF, Option.map_none']
      rw [ih]
    · simp only [taskF, hF, Option.map_some']
      rw [ih]
      simp

theorem parseCheckedItemsCal_eq (s : Str) :
    parseCheckedItemsCal s = (splitLines s).filterMap calF := by
  have h := calFold (splitLines s) []
  rw [List.nil_append] at h
  exact h

theorem parseCheckedItemsTasks_eq (content : Str) :
    parseCheckedItemsTasks content =
      match findHead hTasks content with
      | none => []
      | some (_, en) =>
        (splitLines (match findHH (content.drop en) with
          | some ns => (content.drop en).take ns
          | none => content.drop en)).filterMap taskF := by
  unfold parseCheckedItemsTasks
  rcases hf : findHead hTasks content with _ | ⟨st, en⟩
  · simp only
  · simp only
    have h := taskFold (splitLines (match findHH (content.drop en) with
      | some ns => (content.drop en).take ns
      | none => content.drop en)) []
    rw [List.nil_append] at h
    exact h

/-! ## What each rendered line parses back to -/

theorem calF_calLine {m : List (Str × Bool)} {e : Event}
    (hs : SaneText (fmtEventChecklist e)) :
    calF (calLine m e) = some (sigEvent e, dget m (sigEvent e) false) := by
  obtain ⟨hne, hnl, hstrip⟩ := hs
  obtain ⟨hr, -⟩ := strip_parts hstrip
  have hcal : calLine m e = "- [".data
      ++ [if dget m (sigEvent e) false then 'x' else ' '] ++ "] ".data
      ++ fmtEventChecklist e := rfl
  have hshape : calLine m e = '-' ::
      ([' ', '[', if dget m (sigEvent e) false then 'x' else ' ', ']', ' ']
        ++ fmtEventChecklist e) := rfl
  have hstr : strip (calLine m e) = calLine m e := by
    rw [hshape]
    exact strip_pre_append (by decide) hr hne
  unfold calF
  rw [hstr, hcal, matchChecklist_render _ hne hnl]
  simp only [Option.map_some']
  rw [hstrip]
  rfl

theorem taskF_taskLine {m : List (Str × Bool)} {t : Task}
    (hne : fmtTaskChecklist t ≠ []) (hnl : '\n' ∉ fmtTaskChecklist t) :
    taskF (taskLine m t) = some (sigTask t, dget m (sigTask t) false) := by
  have htl : taskLine m t = "- [".data
      ++ [if dget m (sigTask t) false then 'x' else ' '] ++ "] ".data
      ++ fmtTaskChecklist t := rfl
  unfold taskF
  rw [htl, matchChecklist_render _ hne hnl]
  rfl

theorem taskF_indent (l : Str) : taskF ("  ".data ++ l) = none := by
  unfold taskF
  rw [matchChecklist_none_of_head (by intro h; simp at h)]
  rfl

/-! ## Reading a rendered map entry back -/

theorem dget_entries {ml : List (Str × Bool)} {f : Str → Bool}
    (hml : ∀ p ∈ ml, p.2 = f p.1) {s : Str} (hs : ∃ v, (s, v) ∈ ml) :
    dget ml s false = f s := by
  unfold dget dfind
  obtain ⟨v, hv⟩ := hs
  rcases hf : ml.reverse.find? (fun p => p.1 == s) with _ | p
  · rw [List.find?_eq_none] at hf
    exact absurd (by simp) (hf (s, v) (List.mem_reverse.mpr hv))
  · have hp1 := List.find?_some hf
    simp only [beq_iff_eq] at hp1
    have hpm : p ∈ ml := List.mem_reverse.mp (List.mem_of_find?_eq_some hf)
    have hval := hml p hpm
    rw [hf]
    simp only [Option.map_some', Option.getD_some]
    rw [hval, hp1]

/-! ## Every bucketed task came from the input list -/

set_option maxHeartbeats 1000000 in
theorem mem_catAll_catStep {target : Dt} {c : Categorized} {t x : Task}
    (h : x ∈ catAll (catStep target c t)) : x ∈ catAll c ∨ x = t := by
  obtain ⟨title, notes, due⟩ := t
  rcases due with _ | due
  · have e : catStep target c ⟨title, notes, none⟩
        = { c with noDue := c.noDue ++ [⟨title, notes, none⟩] } := rfl
    rw [e] at h
    simp only [catAll, List.mem_append, List.mem_singleton] at h ⊢
    tauto
  · have e : catStep target c ⟨title, notes, some due⟩ =
      (if dtLt ⟨due, 0⟩ ⟨target.date, 0⟩ then
        { c with overdue := c.overdue ++ [⟨title, notes, some due⟩] }
       else if fmtYmd due = fmtYmd target.date then
        { c with today := c.today ++ [⟨title, notes, some due⟩] }
       else if fmtYmd due = fmtYmd (addDays target.date 1) then
        { c with tomorrow := c.tomorrow ++ [⟨title, notes, some due⟩] }
       else if dtLe ⟨due, 0⟩ ⟨addDays target.date 7, target.tod⟩ then
        { c with thisWeek := c.thisWeek ++ [⟨title, notes, some due⟩] }
       else c) := rfl
    rw [e] at h
    split_ifs at h
    · have e2 : catAll { c with overdue := c.overdue ++ [⟨title, notes, some due⟩] }
          = c.overdue ++ [(⟨title, notes, some due⟩ : Task)] ++ c.today ++ c.tomorrow
            ++ c.thisWeek ++ c.noDue := by
        simp [catAll]
      rw [e2] at h
      simp only [catAll, List.mem_append, List.mem_singleton] at h ⊢
      tauto
    · have e2 : catAll { c with today := c.today ++ [⟨title, notes, some due⟩] }
          = c.overdue ++ (c.today ++ [(⟨title, notes, some due⟩ : Task)]) ++ c.tomorrow
            ++ c.thisWeek ++ c.noDue := by
        simp [catAll]
      rw [e2] at h
      simp only [catAll, List.mem_append, List.mem_singleton] at h ⊢
      tauto
    · have e2 : catAll { c with tomorrow := c.tomorrow ++ [⟨title, notes, some due⟩] }
          = c.overdue ++ c.today ++ (c.tomorrow ++ [(⟨title, notes, some due⟩ : Task)])
            ++ c.thisWeek ++ c.noDue := by
        simp [catAll]
      rw [e2] at h
      simp only [catAll, List.mem_append, List.mem_singleton] at h ⊢
      tauto
    · have e2 : catAll { c with thisWeek := c.thisWeek ++ [⟨title, notes, some due⟩] }
          = c.overdue ++ c.today ++ c.tomorrow
            ++ (c.thisWeek ++ [(⟨title, notes, some due⟩ : Task)]) ++ c.noDue := by
        simp [catAll]
      rw [e2] at h
      rename_i hc1 hc2 hc3 hc4
      clear hc1 hc2 hc3 hc4 e e2
      simp only [catAll, List.mem_append, List.mem_singleton] at h ⊢
      tauto
    · rename_i hc1 hc2 hc3 hc4
      clear hc1 hc2 hc3 hc4 e
      exact Or.inl h

theorem mem_catAll_categorize {tasks : List Task} {target : Dt} {x : Task}
    (h : x ∈ catAll (categorizeTasks tasks target)) : x ∈ tasks := by
  unfold categorizeTasks at h
  suffices H : ∀ (l : List Task) (c : Categorized),
      x ∈ catAll (l.foldl (catStep target) c) → x ∈ catAll c ∨ x ∈ l by
    rcases H tasks ⟨[], [], [], [], []⟩ h with h' | h'
    · simp [catAll] at h'
    · exact h'
  intro l
  induction l with
  | nil => intro c hc; exact Or.inl hc
  | cons a l ih =>
    intro c hc
    rw [List.foldl_cons] at hc
    rcases ih _ hc with h' | h'
    · rcases mem_catAll_catStep h' with h'' | rfl
      · exact Or.inl h''
      · exact Or.inr (by simp)
    · exact Or.inr (by simp [h'])

/-! ## The calendar section, uniformly as a joined line list -/

/-- The item lines below the calendar heading. -/
def calItems (events : List Event) (m : List (Str × Bool)) : List Str :=
  if events.isEmpty then ["- No events scheduled".data]
  else events.map (calLine m)

theorem buildCalendarSection_eq (events : List Event) (m : List (Str × Bool)) :
    buildCalendarSection events m = joinLines (hCal :: calItems events m) := by
  unfold buildCalendarSection calItems
  split
  · rfl
  · rfl

theorem calItems_ne_nil (events : List Event) (m : List (Str × Bool)) :
    calItems events m ≠ [] := by
  unfold calItems
  split
  · simp
  · rename_i h
    simp only [List.isEmpty_eq_true] at h
    simp [h]

/-! ## Rendering depends on the map only through the item's signature -/

theorem calLine_congr {m1 m2 : List (Str × Bool)} {e : Event}
    (h : dget m1 (sigEvent e) false = dget m2 (sigEvent e) false) :
    calLine m1 e = calLine m2 e := by
  have h1 : calLine m1 e = "- [".data
      ++ [if dget m1 (sigEvent e) false then 'x' else ' '] ++ "] ".data
      ++ fmtEventChecklist e := rfl
  have h2 : calLine m2 e = "- [".data
      ++ [if dget m2 (sigEvent e) false then 'x' else ' '] ++ "] ".data
      ++ fmtEventChecklist e := rfl
  rw [h1, h2, h]

theorem taskLine_congr {m1 m2 : List (Str × Bool)} {t : Task}
    (h : dget m1 (sigTask t) false = dget m2 (sigTask t) false) :
    taskLine m1 t = taskLine m2 t := by
  have h1 : taskLine m1 t = "- [".data
      ++ [if dget m1 (sigTask t) false then 'x' else ' '] ++ "] ".data
      ++ fmtTaskChecklist t := rfl
  have h2 : taskLine m2 t = "- [".data
      ++ [if dget m2 (sigTask t) false then 'x' else ' '] ++ "] ".data
      ++ fmtTaskChecklist t := rfl
  rw [h1, h2, h]

/-! ## Parsing the freshly built calendar section back -/

theorem filterMap_calF_items {events : List Event} {m : List (Str × Bool)}
    (hs : ∀ e ∈ events, SaneText (fmtEventChecklist e)) :
    (events.map (calLine m)).filterMap calF
      = events.map (fun e => (sigEvent e, dget m (sigEvent e) false)) := by
  induction events with
  | nil => rfl
  | cons e es ih =>
    rw [List.map_cons, List.filterMap_cons_some (calF_calLine (hs e (by simp))),
      List.map_cons, ih (fun x hx => hs x (by simp [hx]))]

theorem filterMap_calF_all {events : List Event} {m : List (Str × Bool)}
    (hs : ∀ e ∈ events, SaneText (fmtEventChecklist e)) :
    (hCal :: calItems events m).filterMap calF
      = events.map (fun e => (sigEvent e, dget m (sigEvent e) false)) := by
  rw [List.filterMap_cons_none (show calF hCal = none from rfl)]
  unfold calItems
  rcases events with _ | ⟨e, es⟩
  · rfl
  · rw [if_neg (by simp)]
    exact filterMap_calF_items hs

/-- Rebuilding the calendar section from its own parse is the identity. -/
theorem buildCal_fixpoint {events : List Event} {m : List (Str × Bool)}
    (hs : ∀ e ∈ events, SaneText (fmtEventChecklist e)) :
    buildCalendarSection events (parseCheckedItemsCal (buildCalendarSection events m))
      = buildCalendarSection events m := by
  rcases hev : events with _ | ⟨e0, es⟩
  · rfl
  · rw [← hev]
    have hne : events ≠ [] := by rw [hev]; simp
    have hlines : ∀ l ∈ hCal :: calItems events m, '\n' ∉ l := by
      intro l hl
      rcases List.mem_cons.1 hl with rfl | hl
      · decide
      · unfold calItems at hl
        split at hl
        · simp only [List.mem_singleton] at hl
          subst hl
          decide
        · obtain ⟨e, he, rfl⟩ := List.mem_map.1 hl
          exact no_nl_calLine (hs e he).2.1
    have hsplit : splitLines (buildCalendarSection events m) = hCal :: calItems events m := by
      rw [buildCalendarSection_eq]
      exact splitLines_joinLines (by simp) hlines
    rw [parseCheckedItemsCal_eq, hsplit, filterMap_calF_all hs,
      buildCalendarSection_eq_of_ne _ hne, buildCalendarSection_eq_of_ne _ hne]
    congr 1
    congr 1
    refine List.map_eq_map_iff.mpr ?_
    intro e he
    refine calLine_congr ?_
    refine @dget_entries (events.map (fun e => (sigEvent e, dget m (sigEvent e) false)))
      (fun s => dget m s false) ?_ (sigEvent e) ⟨dget m (sigEvent e) false,
      List.mem_map_of_mem (fun e => (sigEvent e, dget m (sigEvent e) false)) he⟩
    intro p hp
    obtain ⟨e', -, rfl⟩ := List.mem_map.1 hp
    rfl

/-! ## Parsing the freshly built tasks section back -/

theorem mem_taskNotesLines_shape {t : Task} {l : Str} (h : l ∈ taskNotesLines t) :
    ∃ x, l = "  ".data ++ x := by
  obtain ⟨title, notes, due⟩ := t
  rcases notes with _ | n
  · simp [taskNotesLines] at h
  · simp only [taskNotesLines] at h
    by_cases hn : n.isEmpty
    · rw [if_pos hn] at h
      simp at h
    · rw [if_neg hn] at h
      obtain ⟨x, hx, hxl⟩ := List.mem_filterMap.1 h
      by_cases hsx : (strip x).isEmpty
      · rw [if_pos hsx] at hxl
        simp at hxl
      · rw [if_neg hsx] at hxl
        rw [Option.some.injEq] at hxl
        exact ⟨x, hxl.symm⟩

theorem filterMap_taskF_notes (t : Task) : (taskNotesLines t).filterMap taskF = [] := by
  refine List.filterMap_eq_nil_iff.mpr ?_
  intro l hl
  obtain ⟨x, rfl⟩ := mem_taskNotesLines_shape hl
  exact taskF_indent x

theorem filterMap_taskF_flat {m : List (Str × Bool)} {ts : List Task}
    (hsane : ∀ t ∈ ts, SaneText (fmtTaskChecklist t)) :
    ((ts.map (fun t => taskLine m t :: taskNotesLines t)).flatten).filterMap taskF
      = ts.map (fun t => (sigTask t, dget m (sigTask t) false)) := by
  induction ts with
  | nil => rfl
  | cons t ts ih =>
    obtain ⟨hne, hnl, -⟩ := hsane t (by simp)
    rw [List.map_cons, List.flatten_cons, List.filterMap_append,
      List.filterMap_cons_some (taskF_taskLine hne hnl),
      filterMap_taskF_notes, List.map_cons, ih (fun x hx => hsane x (by simp [hx]))]
    rfl

theorem filterMap_taskF_bucket {m : List (Str × Bool)} {title : Str} {ts : List Task}
    (hsane : ∀ t ∈ ts, SaneText (fmtTaskChecklist t))
    (htitle : taskF title = none) :
    (bucketLines m title ts).filterMap taskF
      = ts.map (fun t => (sigTask t, dget m (sigTask t) false)) := by
  unfold bucketLines
  split
  · rename_i hE
    have hts : ts = [] := by simpa using hE
    subst hts
    rfl
  · rw [List.filterMap_cons_none htitle, List.filterMap_append,
      filterMap_taskF_flat hsane]
    have h2 : List.filterMap taskF [[]] = [] := rfl
    rw [h2, List.append_nil]

/-- The five bucket blocks below the `## Tasks` heading and its blank line. -/
def tasksBL (cat : Categorized) (m : List (Str × Bool)) : List Str :=
  bucketLines m "### Overdue".data cat.overdue
    ++ bucketLines m "### Today".data cat.today
    ++ bucketLines m "### Tomorrow".data cat.tomorrow
    ++ bucketLines m "### This Week".data cat.thisWeek
    ++ bucketLines m "### No Due Date".data cat.noDue

theorem tasksLinesList_eq_BL (cat : Categorized) (m : List (Str × Bool)) :
    tasksLinesList cat m = hTasks :: [] :: tasksBL cat m := by
  unfold tasksLinesList tasksBL
  simp

theorem filterMap_taskF_BL {cat : Categorized} {m : List (Str × Bool)}
    (hsane : ∀ t ∈ catAll cat, SaneText (fmtTaskChecklist t)) :
    (tasksBL cat m).filterMap taskF
      = (catAll cat).map (fun t => (sigTask t, dget m (sigTask t) false)) := by
  unfold tasksBL
  rw [List.filterMap_append, List.filterMap_append, List.filterMap_append,
    List.filterMap_append]
  rw [filterMap_taskF_bucket (fun t ht => hsane t (by simp [catAll, ht]))
      (rfl : taskF "### Overdue".data = none),
    filterMap_taskF_bucket (fun t ht => hsane t (by simp [catAll, ht]))
      (rfl : taskF "### Today".data = none),
    filterMap_taskF_bucket (fun t ht => hsane t (by simp [catAll, ht]))
      (rfl : taskF "### Tomorrow".data = none),
    filterMap_taskF_bucket (fun t ht => hsane t (by simp [catAll, ht]))
      (rfl : taskF "### This Week".data = none),
    filterMap_taskF_bucket (fun t ht => hsane t (by simp [catAll, ht]))
      (rfl : taskF "### No Due Date".data = none)]
  unfold catAll
  rw [List.map_append, List.map_append, List.map_append, List.map_append]

/-! ## The tasks section depends on the map only through bucketed signatures -/

theorem bucketLines_congr {m1 m2 : List (Str × Bool)} {title : Str} {ts : List Task}
    (h : ∀ t ∈ ts, dget m1 (sigTask t) false = dget m2 (sigTask t) false) :
    bucketLines m1 title ts = bucketLines m2 title ts := by
  unfold bucketLines
  by_cases hE : ts.isEmpty
  · rw [if_pos hE, if_pos hE]
  · rw [if_neg hE, if_neg hE]
    have hm : ts.map (fun t => taskLine m1 t :: taskNotesLines t)
        = ts.map (fun t => taskLine m2 t :: taskNotesLines t) :=
      List.map_eq_map_iff.mpr (fun t ht => by rw [taskLine_congr (h t ht)])
    rw [hm]

theorem buildTasksSection_congr {cat : Categorized} {m1 m2 : List (Str × Bool)}
    (h : ∀ t ∈ catAll cat, dget m1 (sigTask t) false = dget m2 (sigTask t) false) :
    buildTasksSection cat m1 = buildTasksSection cat m2 := by
  rw [buildTasksSection_eq, buildTasksSection_eq, tasksLinesList_eq_BL,
    tasksLinesList_eq_BL]
  unfold tasksBL
  rw [bucketLines_congr (fun t ht => h t (by simp [catAll, ht])),
    bucketLines_congr (fun t ht => h t (by simp [catAll, ht])),
    bucketLines_congr (fun t ht => h t (by simp [catAll, ht])),
    bucketLines_congr (fun t ht => h t (by simp [catAll, ht])),
    bucketLines_congr (fun t ht => h t (by simp [catAll, ht]))]

/-- Rebuilding the tasks section from its own parsed entries is the identity. -/
theorem buildTasks_fixpoint {cat : Categorized} {m : List (Str × Bool)} :
    buildTasksSection cat
      ((catAll cat).map (fun t => (sigTask t, dget m (sigTask t) false)))
      = buildTasksSection cat m := by
  refine buildTasksSection_congr ?_
  intro t ht
  refine @dget_entries ((catAll cat).map (fun t => (sigTask t, dget m (sigTask t) false)))
    (fun s => dget m s false) ?_ (sigTask t)
    ⟨dget m (sigTask t) false,
      List.mem_map_of_mem (fun t => (sigTask t, dget m (sigTask t) false)) ht⟩
  intro p hp
  obtain ⟨t', -, rfl⟩ := List.mem_map.1 hp
  rfl

theorem filterMap_taskF_region1 {cat : Categorized} {m : List (Str × Bool)}
    (hsane : ∀ t ∈ catAll cat, SaneText (fmtTaskChecklist t)) :
    ([] :: tasksBL cat m).filterMap taskF
      = (catAll cat).map (fun t => (sigTask t, dget m (sigTask t) false)) := by
  rw [List.filterMap_cons_none rfl, filterMap_taskF_BL hsane]

theorem filterMap_taskF_region2 {cat : Categorized} {m : List (Str × Bool)}
    (hsane : ∀ t ∈ catAll cat, SaneText (fmtTaskChecklist t)) :
    (([] :: tasksBL cat m) ++ [[]]).filterMap taskF
      = (catAll cat).map (fun t => (sigTask t, dget m (sigTask t) false)) := by
  rw [List.filterMap_append, filterMap_taskF_region1 hsane]
  have h2 : List.filterMap taskF [[]] = [] := rfl
  rw [h2, List.append_nil]

/-! ## Shape of the built sections as byte strings -/

theorem joinLines_cons_cons (a b : Str) (l : List Str) :
    joinLines (a :: b :: l) = a ++ '\n' :: joinLines (b :: l) := by
  simp [joinLines, List.intercalate]

theorem joinLines_cons_head {x : Str} {xs : List Str} {c : Char} {t : Str}
    (hx : x = c :: t) : ∃ r, joinLines (x :: xs) = c :: r := by
  cases xs with
  | nil => exact ⟨t, by simp [joinLines, List.intercalate, hx]⟩
  | cons y ys =>
    refine ⟨t ++ '\n' :: joinLines (y :: ys), ?_⟩
    rw [joinLines_cons_cons, hx]
    rfl

theorem joinLines_last_decomp {L K : List Str} {w : Str} {d : Char}
    (hK : L = K ++ [w ++ [d]]) : ∃ W, joinLines L = W ++ [d] := by
  rcases K with _ | ⟨k0, K'⟩
  · rw [hK]
    exact ⟨w, by simp [joinLines, List.intercalate]⟩
  · rw [hK, joinLines_append_singleton (by simp)]
    exact ⟨joinLines (k0 :: K') ++ '\n' :: w, by simp⟩

theorem concat_of_sane {x : Str} (hne : x ≠ []) (hx : rstrip x = x) :
    ∃ w d, x = w ++ [d] ∧ isPySpace d = false := by
  obtain ⟨w, d, hd'⟩ := (List.eq_nil_or_concat x).resolve_left hne
  have hd : x = w ++ [d] := by simpa [List.concat_eq_append] using hd'
  exact ⟨w, d, hd, rstrip_last_not_ws (hx.trans hd)⟩

theorem strip_joinLines_of {L : List Str} {c : Char} {t : Str} {K : List Str}
    {w : Str} {d : Char} (hL : ∃ M, L = (c :: t) :: M) (hc : isPySpace c = false)
    (hlast : L = K ++ [w ++ [d]]) (hd : isPySpace d = false) :
    strip (joinLines L) = joinLines L := by
  obtain ⟨M, rfl⟩ := hL
  obtain ⟨r, hr⟩ := @joinLines_cons_head (c :: t) M c t rfl
  obtain ⟨W, hW⟩ := joinLines_last_decomp hlast
  exact strip_eq_self_of_clean (Or.inr ⟨c, r, hr, hc⟩) (Or.inr ⟨d, W, hW, hd⟩)

/-! ### The calendar section -/

theorem calItems_head (events : List Event) (m : List (Str × Bool)) :
    ∃ t rest, calItems events m = ('-' :: t) :: rest := by
  unfold calItems
  split
  · exact ⟨" No events scheduled".data, [], rfl⟩
  · rename_i h
    rcases events with _ | ⟨e, es⟩
    · simp at h
    · exact ⟨' ' :: '[' :: (if dget m (sigEvent e) false then 'x' else ' ')
        :: ']' :: ' ' :: fmtEventChecklist e, es.map (calLine m), rfl⟩

theorem calItems_last {events : List Event} {m : List (Str × Bool)}
    (hs : ∀ e ∈ events, SaneText (fmtEventChecklist e)) :
    ∀ x ∈ calItems events m, ∃ w d, x = w ++ [d] ∧ isPySpace d = false := by
  intro x hx
  unfold calItems at hx
  split at hx
  · simp only [List.mem_singleton] at hx
    subst hx
    exact ⟨"- No events schedule".data, 'd', rfl, by decide⟩
  · obtain ⟨e, he, rfl⟩ := List.mem_map.1 hx
    obtain ⟨hne, -, hstrip⟩ := hs e he
    obtain ⟨hr, -⟩ := strip_parts hstrip
    obtain ⟨w, d, hd, hdws⟩ := concat_of_sane hne hr
    refine ⟨"- [".data ++ [if dget m (sigEvent e) false then 'x' else ' ']
      ++ "] ".data ++ w, d, ?_, hdws⟩
    have hcal : calLine m e = "- [".data
        ++ [if dget m (sigEvent e) false then 'x' else ' '] ++ "] ".data
        ++ fmtEventChecklist e := rfl
    rw [hcal, hd, ← List.append_assoc]

theorem buildCalendarSection_shape (events : List Event) (m : List (Str × Bool)) :
    ∃ tail, buildCalendarSection events m = hCal ++ '\n' :: '-' :: tail
      ∧ joinLines (calItems events m) = '-' :: tail := by
  obtain ⟨t0, rest, hitems⟩ := calItems_head events m
  obtain ⟨r, hjoin⟩ := @joinLines_cons_head ('-' :: t0) rest '-' t0 rfl
  refine ⟨r, ?_, by rw [hitems, hjoin]⟩
  rw [buildCalendarSection_eq, hitems, joinLines_cons_cons, hjoin]

theorem strip_buildCalendarSection {events : List Event} {m : List (Str × Bool)}
    (hs : ∀ e ∈ events, SaneText (fmtEventChecklist e)) :
    strip (buildCalendarSection events m) = buildCalendarSection events m := by
  rw [buildCalendarSection_eq]
  have hne : calItems events m ≠ [] := calItems_ne_nil events m
  have hg := List.dropLast_append_getLast hne
  obtain ⟨w, d, hd, hdws⟩ := calItems_last hs _ (List.getLast_mem hne)
  refine @strip_joinLines_of (hCal :: calItems events m) '#' "# Calendar".data
    (hCal :: (calItems events m).dropLast) w d ⟨calItems events m, rfl⟩
    (by decide) ?_ hdws
  rw [← hd, List.cons_append, hg]

/-! ### The tasks section -/

theorem bucketLines_nil_or_cons (m : List (Str × Bool)) (title : Str) (ts : List Task) :
    bucketLines m title ts = [] ∨ ∃ r, bucketLines m title ts = title :: r := by
  unfold bucketLines
  split
  · exact Or.inl rfl
  · exact Or.inr ⟨_, rfl⟩

theorem tasksBL_shape (cat : Categorized) (m : List (Str × Bool)) :
    tasksBL cat m = [] ∨ ∃ t rest, tasksBL cat m = ('#' :: t) :: rest := by
  unfold tasksBL
  rcases bucketLines_nil_or_cons m "### Overdue".data cat.overdue with h1 | ⟨r1, h1⟩
  · rw [h1, List.nil_append]
    rcases bucketLines_nil_or_cons m "### Today".data cat.today with h2 | ⟨r2, h2⟩
    · rw [h2, List.nil_append]
      rcases bucketLines_nil_or_cons m "### Tomorrow".data cat.tomorrow with h3 | ⟨r3, h3⟩
      · rw [h3, List.nil_append]
        rcases bucketLines_nil_or_cons m "### This Week".data cat.thisWeek with h4 | ⟨r4, h4⟩
        · rw [h4, List.nil_append]
          rcases bucketLines_nil_or_cons m "### No Due Date".data cat.noDue with h5 | ⟨r5, h5⟩
          · rw [h5]
            exact Or.inl rfl
          · rw [h5]
            exact Or.inr ⟨"## No Due Date".data, r5, rfl⟩
        · rw [h4]
          exact Or.inr ⟨"## This Week".data, r4 ++ _, rfl⟩
      · rw [h3]
        exact Or.inr ⟨"## Tomorrow".data, (r3 ++ _) ++ _, rfl⟩
    · rw [h2]
      exact Or.inr ⟨"## Today".data, ((r2 ++ _) ++ _) ++ _, rfl⟩
  · rw [h1]
    exact Or.inr ⟨"## Overdue".data, (((r1 ++ _) ++ _) ++ _) ++ _, rfl⟩

theorem buildTasksSection_shape (cat : Categorized) (m : List (Str × Bool)) :
    buildTasksSection cat m = hTasks ++ '\n' :: joinLines ([] :: tasksBL cat m) := by
  rw [buildTasksSection_eq, tasksLinesList_eq_BL, joinLines_cons_cons]

theorem tasksV_shape (cat : Categorized) (m : List (Str × Bool)) :
    joinLines ([] :: tasksBL cat m) = []
      ∨ ∃ r, joinLines ([] :: tasksBL cat m) = '\n' :: '#' :: r := by
  rcases tasksBL_shape cat m with h | ⟨t, rest, h⟩
  · rw [h]
    exact Or.inl rfl
  · rw [h]
    obtain ⟨r, hr⟩ := @joinLines_cons_head ('#' :: t) rest '#' t rfl
    refine Or.inr ⟨r, ?_⟩
    rw [joinLines_cons_cons, hr]
    rfl

/-! ## The rendered lines never open a `## ` heading -/

theorem take3_ne_head {c : Char} (hc : c ≠ '#') (r : Str) :
    (c :: r).take 3 ≠ ['#', '#', ' '] := by
  intro h
  simp only [List.take_succ_cons, List.cons.injEq] at h
  exact hc h.1

theorem joinLines_nil_cons {L : List Str} (hL : L ≠ []) :
    joinLines ([] :: L) = '\n' :: joinLines L := by
  rcases L with _ | ⟨x, xs⟩
  · exact absurd rfl hL
  · rw [joinLines_cons_cons]
    rfl

theorem cleanLines_cal {events : List Event} {m : List (Str × Bool)}
    (hs : ∀ e ∈ events, '\n' ∉ fmtEventChecklist e) :
    ∀ l ∈ calItems events m, '\n' ∉ l ∧ l.take 3 ≠ ['#', '#', ' '] := by
  intro l hl
  unfold calItems at hl
  split at hl
  · simp only [List.mem_singleton] at hl
    subst hl
    exact ⟨by decide, by decide⟩
  · obtain ⟨e, he, rfl⟩ := List.mem_map.1 hl
    refine ⟨no_nl_calLine (hs e he), ?_⟩
    have h3 : calLine m e = '-' :: (' ' :: '[' ::
        (if dget m (sigEvent e) false then 'x' else ' ') :: ']' :: ' '
        :: fmtEventChecklist e) := rfl
    rw [h3]
    exact take3_ne_head (by decide) _

theorem cleanLines_tasks {cat : Categorized} {m : List (Str × Bool)}
    (hs : ∀ t ∈ catAll cat, '\n' ∉ fmtTaskChecklist t) :
    ∀ l ∈ [] :: tasksBL cat m, '\n' ∉ l ∧ l.take 3 ≠ ['#', '#', ' '] := by
  intro l hl
  rcases List.mem_cons.1 hl with rfl | hl
  · exact ⟨by simp, by decide⟩
  · have hb : ∀ (title : Str) (ts : List Task), (∀ t ∈ ts, t ∈ catAll cat) →
        l ∈ bucketLines m title ts → ('\n' ∉ title ∧ title.take 3 ≠ ['#', '#', ' ']) →
        '\n' ∉ l ∧ l.take 3 ≠ ['#', '#', ' '] := by
      intro title ts hsub hmem htitle
      rcases mem_bucketLines_of_mem hmem with rfl | ⟨t, ht, rfl⟩ | ⟨t, ht, hn⟩ | rfl
      · exact htitle
      · refine ⟨no_nl_taskLine (hs t (hsub t ht)), ?_⟩
        have h3 : taskLine m t = '-' :: (' ' :: '[' ::
            (if dget m (sigTask t) false then 'x' else ' ') :: ']' :: ' '
            :: fmtTaskChecklist t) := rfl
        rw [h3]
        exact take3_ne_head (by decide) _
      · refine ⟨no_nl_taskNotesLines hn, ?_⟩
        obtain ⟨x, rfl⟩ := mem_taskNotesLines_shape hn
        exact take3_ne_head (c := ' ') (by decide) (' ' :: x)
      · exact ⟨by simp, by decide⟩
    unfold tasksBL at hl
    simp only [List.mem_append] at hl
    rcases hl with (((hl | hl) | hl) | hl) | hl
    · exact hb _ _ (fun t ht => by simp [catAll, ht]) hl ⟨by decide, by decide⟩
    · exact hb _ _ (fun t ht => by simp [catAll, ht]) hl ⟨by decide, by decide⟩
    · exact hb _ _ (fun t ht => by simp [catAll, ht]) hl ⟨by decide, by decide⟩
    · exact hb _ _ (fun t ht => by simp [catAll, ht]) hl ⟨by decide, by decide⟩
    · exact hb _ _ (fun t ht => by simp [catAll, ht]) hl ⟨by decide, by decide⟩

/-! ## Where the owned heading matches in a spliced document -/

theorem headEndAt_calendar {A : Str} (events : List Event) (m : List (Str × Bool))
    (hA : A = [] ∨ A.getLast? = some '\n') (R : Str) :
    headEndAt hCal (A ++ (buildCalendarSection events m ++ R)) A.length
      = some (A.length + hCal.length) := by
  obtain ⟨tail, hsec, -⟩ := buildCalendarSection_shape events m
  rw [hsec]
  have e : (hCal ++ '\n' :: '-' :: tail) ++ R = hCal ++ '\n' :: '-' :: (tail ++ R) := by
    simp
  rw [e]
  exact headEndAt_boundary_b hA (by decide)

theorem headEndAt_tasks {A : Str} (cat : Categorized) (m : List (Str × Bool))
    (hA : A = [] ∨ A.getLast? = some '\n')
    {T : Str} (hT : T = [] ∨ ∃ r, T = '\n' :: '#' :: r) :
    headEndAt hTasks (A ++ (buildTasksSection cat m ++ T)) A.length
      = some (A.length + hTasks.length + 1) := by
  rw [buildTasksSection_shape]
  rcases tasksV_shape cat m with hV | ⟨r, hV⟩
  · rw [hV]
    rcases hT with rfl | ⟨rT, rfl⟩
    · have e : (hTasks ++ '\n' :: ([] : Str)) ++ ([] : Str) = hTasks ++ ['\n'] := by simp
      rw [e]
      exact headEndAt_boundary_a hA
    · have e : (hTasks ++ '\n' :: ([] : Str)) ++ ('\n' :: '#' :: rT)
          = hTasks ++ '\n' :: '\n' :: '#' :: rT := by simp
      rw [e]
      exact headEndAt_boundary_c hA (by decide)
  · rw [hV]
    have e : (hTasks ++ '\n' :: ('\n' :: '#' :: r)) ++ T
        = hTasks ++ '\n' :: '\n' :: '#' :: (r ++ T) := by simp
    rw [e]
    exact headEndAt_boundary_c hA (by decide)

/-! ## The calendar export is the identity on its own output shapes -/

theorem exportEvents_fix {events : List Event} (dstr : Str) {m : List (Str × Bool)}
    (hs : ∀ e ∈ events, SaneText (fmtEventChecklist e))
    {A T : Str} (hA : A = [] ∨ A.getLast? = some '\n')
    (hnomatch : ∀ i < A.length,
      headEndAt hCal (A ++ (buildCalendarSection events m ++ T)) i = none)
    (hT : T = ['\n'] ∨ ∃ B, T = '\n' :: '\n' :: B ∧ B.take 3 = ['#', '#', ' ']) :
    exportEventsContent events dstr (A ++ (buildCalendarSection events m ++ T))
      = A ++ (buildCalendarSection events m ++ T) := by
  obtain ⟨tail, hsecshape, hJ⟩ := buildCalendarSection_shape events m
  have hitems_ne : calItems events m ≠ [] := calItems_ne_nil events m
  have hen : headEndAt hCal (A ++ (buildCalendarSection events m ++ T)) A.length
      = some (A.length + hCal.length) := headEndAt_calendar events m hA T
  have hstle : A.length ≤ (A ++ (buildCalendarSection events m ++ T)).length := by
    rw [List.length_append]
    omega
  have hfind : findHead hCal (A ++ (buildCalendarSection events m ++ T))
      = some (A.length, A.length + hCal.length) :=
    findHead_eq_some_of hstle hen hnomatch
  have hdrop : (A ++ (buildCalendarSection events m ++ T)).drop (A.length + hCal.length)
      = '\n' :: (joinLines (calItems events m) ++ T) := by
    have e : A ++ (buildCalendarSection events m ++ T)
        = A ++ (hCal ++ ('\n' :: (joinLines (calItems events m) ++ T))) := by
      rw [hsecshape, hJ]
      simp
    rw [e]
    exact drop_boundary2 A hCal _
  have hdropst : (A ++ (buildCalendarSection events m ++ T)).drop A.length
      = buildCalendarSection events m ++ T := drop_boundary A _
  have hU : joinLines (([] :: calItems events m) ++ [[]])
      = '\n' :: (joinLines (calItems events m) ++ ['\n']) := by
    rw [joinLines_append_singleton (by simp), joinLines_nil_cons hitems_ne]
    rfl
  have hclean : ∀ l ∈ ([] :: calItems events m) ++ [[]],
      '\n' ∉ l ∧ l.take 3 ≠ ['#', '#', ' '] := by
    intro l hl
    simp only [List.mem_append, List.mem_cons, List.mem_singleton,
      List.not_mem_nil, or_false] at hl
    rcases hl with (rfl | hl) | rfl
    · exact ⟨by simp, by decide⟩
    · exact cleanLines_cal (fun e he => (hs e he).2.1) l hl
    · exact ⟨by simp, by decide⟩
  have hPne : (A ++ (buildCalendarSection events m ++ T)).isEmpty ≠ true := by
    intro hc
    rw [List.isEmpty_eq_true, hsecshape] at hc
    simp at hc
  rcases hT with rfl | ⟨B, rfl, hB⟩
  · -- replaced with trailing-newline glue: the next-heading search fails
    have hfh : findHH ((A ++ (buildCalendarSection events m ++ ['\n'])).drop
        (A.length + hCal.length)) = none := by
      rw [hdrop, ← hU]
      exact findHH_joinLines_none hclean
    have hext : extractCalendarSection (A ++ (buildCalendarSection events m ++ ['\n']))
        = buildCalendarSection events m := by
      unfold extractCalendarSection
      simp only [hfind, hfh]
      rw [hdropst, strip_append_ws_right _ (by decide), strip_buildCalendarSection hs]
    simp only [exportEventsContent]
    rw [if_neg hPne]
    rw [hext, buildCal_fixpoint hs]
    unfold replaceCalendarSection
    simp only [hfind, hfh]
    rw [List.take_left]
    simp
  · -- replaced with the two-newline glue before a retained `## ` heading
    have hfh : findHH ((A ++ (buildCalendarSection events m ++ ('\n' :: '\n' :: B))).drop
        (A.length + hCal.length))
        = some ((joinLines (calItems events m)).length + 3) := by
      rw [hdrop]
      have e : '\n' :: (joinLines (calItems events m) ++ ('\n' :: '\n' :: B))
          = joinLines (([] :: calItems events m) ++ [[]]) ++ '\n' :: B := by
        rw [hU]
        simp
      rw [e, findHH_joinLines_tail hclean hB, hU]
      have e2 : ('\n' :: (joinLines (calItems events m) ++ ['\n'])).length
          = (joinLines (calItems events m)).length + 2 := by
        simp
      rw [e2]
    have hlen2 : (A ++ (buildCalendarSection events m ++ ['\n', '\n'])).length
        = A.length + hCal.length + ((joinLines (calItems events m)).length + 3) := by
      rw [hsecshape]
      have hJlen : (joinLines (calItems events m)).length = tail.length + 1 := by
        rw [hJ]
        rfl
      rw [hJlen]
      simp
      omega
    have hdropns : (A ++ (buildCalendarSection events m ++ ('\n' :: '\n' :: B))).drop
        (A.length + hCal.length + ((joinLines (calItems events m)).length + 3)) = B := by
      have e : A ++ (buildCalendarSection events m ++ ('\n' :: '\n' :: B))
          = (A ++ (buildCalendarSection events m ++ ['\n', '\n'])) ++ B := by simp
      rw [e, ← hlen2]
      exact List.drop_left _ B
    have htake : (buildCalendarSection events m ++ ('\n' :: '\n' :: B)).take
        (A.length + hCal.length + ((joinLines (calItems events m)).length + 3) - A.length)
        = buildCalendarSection events m ++ ['\n', '\n'] := by
      have e : buildCalendarSection events m ++ ('\n' :: '\n' :: B)
          = (buildCalendarSection events m ++ ['\n', '\n']) ++ B := by simp
      rw [e]
      have e2 : A.length + hCal.length + ((joinLines (calItems events m)).length + 3)
          - A.length = (buildCalendarSection events m ++ ['\n', '\n']).length := by
        rw [hsecshape, hJ]
        simp
        omega
      rw [e2, List.take_left]
    have hext : extractCalendarSection
        (A ++ (buildCalendarSection events m ++ ('\n' :: '\n' :: B)))
        = buildCalendarSection events m := by
      unfold extractCalendarSection
      simp only [hfind, hfh]
      rw [hdropst, htake, strip_append_ws_right _ (by decide),
        strip_buildCalendarSection hs]
    simp only [exportEventsContent]
    rw [if_neg hPne]
    rw [hext, buildCal_fixpoint hs]
    unfold replaceCalendarSection
    simp only [hfind, hfh]
    rw [List.take_left, hdropns]
    simp

/-! ## The task export is the identity on its own output shapes -/

theorem take3_shape {l : Str} (h : l.take 3 = ['#', '#', ' ']) :
    ∃ r, l = '#' :: '#' :: ' ' :: r := by
  rcases l with _ | ⟨a, l⟩
  · simp at h
  · rcases l with _ | ⟨b, l⟩
    · simp at h
    · rcases l with _ | ⟨c, l⟩
      · simp at h
      · simp only [List.take_succ_cons, List.take_zero, List.cons.injEq, and_true] at h
        obtain ⟨rfl, rfl, rfl, -⟩ := h
        exact ⟨l, rfl⟩

theorem exportTasks_fix {tasks : List Task} {target : Dt} {m : List (Str × Bool)}
    (hs : ∀ t ∈ catAll (categorizeTasks tasks target), SaneText (fmtTaskChecklist t))
    {A T : Str} (hA : A = [] ∨ A.getLast? = some '\n')
    (hnomatch : ∀ i < A.length, headEndAt hTasks
      (A ++ (buildTasksSection (categorizeTasks tasks target) m ++ T)) i = none)
    (hT : T = [] ∨ ∃ tl, T = '\n' :: tl ∧ tl.take 3 = ['#', '#', ' ']) :
    exportTasksContent tasks target
        (A ++ (buildTasksSection (categorizeTasks tasks target) m ++ T))
      = A ++ (buildTasksSection (categorizeTasks tasks target) m ++ T) := by
  have hsecshape := buildTasksSection_shape (categorizeTasks tasks target) m
  have hcleanV : ∀ l ∈ [] :: tasksBL (categorizeTasks tasks target) m,
      '\n' ∉ l ∧ l.take 3 ≠ ['#', '#', ' '] :=
    cleanLines_tasks (fun t ht => (hs t ht).2.1)
  have hsplitV : splitLines (joinLines ([] :: tasksBL (categorizeTasks tasks target) m))
      = [] :: tasksBL (categorizeTasks tasks target) m :=
    splitLines_joinLines (by simp) (fun l hl => (hcleanV l hl).1)
  have hT2 : T = [] ∨ ∃ r, T = '\n' :: '#' :: r := by
    rcases hT with rfl | ⟨tl, rfl, h3⟩
    · exact Or.inl rfl
    · obtain ⟨r, rfl⟩ := take3_shape h3
      exact Or.inr ⟨'#' :: ' ' :: r, rfl⟩
  have hen : headEndAt hTasks
      (A ++ (buildTasksSection (categorizeTasks tasks target) m ++ T)) A.length
      = some (A.length + hTasks.length + 1) :=
    headEndAt_tasks (categorizeTasks tasks target) m hA hT2
  have hstle : A.length
      ≤ (A ++ (buildTasksSection (categorizeTasks tasks target) m ++ T)).length := by
    rw [List.length_append]
    omega
  have hfind : findHead hTasks (A ++ (buildTasksSection (categorizeTasks tasks target) m ++ T))
      = some (A.length, A.length + hTasks.length + 1) :=
    findHead_eq_some_of hstle hen hnomatch
  have hdrop : (A ++ (buildTasksSection (categorizeTasks tasks target) m ++ T)).drop
      (A.length + hTasks.length + 1)
      = joinLines ([] :: tasksBL (categorizeTasks tasks target) m) ++ T := by
    have e : A ++ (buildTasksSection (categorizeTasks tasks target) m ++ T)
        = (A ++ (hTasks ++ ['\n']))
          ++ (joinLines ([] :: tasksBL (categorizeTasks tasks target) m) ++ T) := by
      rw [hsecshape]
      simp
    have e2 : A.length + hTasks.length + 1 = (A ++ (hTasks ++ ['\n'])).length := by
      simp only [List.length_append, List.length_singleton]
      omega
    rw [e, e2]
    exact List.drop_left _ _
  have hPlen : (A ++ (buildTasksSection (categorizeTasks tasks target) m ++ T)).length
      = A.length + hTasks.length + 1
        + ((joinLines ([] :: tasksBL (categorizeTasks tasks target) m)).length
          + T.length) := by
    rw [hsecshape]
    simp only [List.length_append, List.length_cons]
    omega
  have hPne : (A ++ (buildTasksSection (categorizeTasks tasks target) m ++ T)).isEmpty
      ≠ true := by
    intro hc
    rw [List.isEmpty_eq_true, hsecshape] at hc
    simp at hc
  rcases hT with rfl | ⟨tl, rfl, htl3⟩
  · -- nothing follows the owned section
    have hslice : (A ++ (buildTasksSection (categorizeTasks tasks target) m ++ [])).drop
        (A.length + hTasks.length + 1)
        = joinLines ([] :: tasksBL (categorizeTasks tasks target) m) := by
      rw [hdrop]
      simp
    have hfh : findHH ((A ++ (buildTasksSection (categorizeTasks tasks target) m ++ [])).drop
        (A.length + hTasks.length + 1)) = none := by
      rw [hslice]
      exact findHH_joinLines_none hcleanV
    have hparse : parseCheckedItemsTasks
        (A ++ (buildTasksSection (categorizeTasks tasks target) m ++ []))
        = (catAll (categorizeTasks tasks target)).map
          (fun t => (sigTask t, dget m (sigTask t) false)) := by
      rw [parseCheckedItemsTasks_eq]
      simp only [hfind, hfh]
      rw [hslice, hsplitV, filterMap_taskF_region1 hs]
    have hj : findHHOrEnd (A ++ (buildTasksSection (categorizeTasks tasks target) m ++ []))
        (A.length + hTasks.length + 1)
        = (A ++ (buildTasksSection (categorizeTasks tasks target) m ++ [])).length := by
      refine findHHOrEnd_eq_of (by rw [hPlen]; omega) (Or.inl rfl) ?_
      intro i hi1 hi2
      refine ⟨by omega, ?_⟩
      refine hhAt_false_of_slice hi1 ?_
      rw [hslice]
      exact hhAt_joinLines_false hcleanV _
    simp only [exportTasksContent]
    rw [hparse, buildTasks_fixpoint]
    simp only [mergeContent]
    rw [if_neg hPne]
    simp only [hfind]
    rw [hj, if_neg (by omega), List.take_left]
    simp
  · -- a retained `## ` heading follows the owned section
    have hdrop2 : (A ++ (buildTasksSection (categorizeTasks tasks target) m
        ++ ('\n' :: tl))).drop (A.length + hTasks.length + 1)
        = joinLines ([] :: tasksBL (categorizeTasks tasks target) m) ++ '\n' :: tl := hdrop
    have hfh : findHH ((A ++ (buildTasksSection (categorizeTasks tasks target) m
        ++ ('\n' :: tl))).drop (A.length + hTasks.length + 1))
        = some ((joinLines ([] :: tasksBL (categorizeTasks tasks target) m)).length + 1) := by
      rw [hdrop2]
      exact findHH_joinLines_tail hcleanV htl3
    have htakeregion : ((A ++ (buildTasksSection (categorizeTasks tasks target) m
        ++ ('\n' :: tl))).drop (A.length + hTasks.length + 1)).take
        ((joinLines ([] :: tasksBL (categorizeTasks tasks target) m)).length + 1)
        = joinLines (([] :: tasksBL (categorizeTasks tasks target) m) ++ [[]]) := by
      rw [hdrop2, joinLines_append_singleton (by simp)]
      have e : joinLines ([] :: tasksBL (categorizeTasks tasks target) m) ++ '\n' :: tl
          = (joinLines ([] :: tasksBL (categorizeTasks tasks target) m) ++ ['\n']) ++ tl := by
        simp
      have e2 : (joinLines ([] :: tasksBL (categorizeTasks tasks target) m)).length + 1
          = (joinLines ([] :: tasksBL (categorizeTasks tasks target) m) ++ ['\n']).length := by
        simp
      rw [e, e2]
      exact List.take_left _ _
    have hsplit2 : splitLines
        (joinLines (([] :: tasksBL (categorizeTasks tasks target) m) ++ [[]]))
        = ([] :: tasksBL (categorizeTasks tasks target) m) ++ [[]] := by
      refine splitLines_joinLines (by simp) ?_
      intro l hl
      rcases List.mem_append.1 hl with hl | hl
      · exact (hcleanV l hl).1
      · simp only [List.mem_singleton] at hl
        subst hl
        simp
    have hparse : parseCheckedItemsTasks
        (A ++ (buildTasksSection (categorizeTasks tasks target) m ++ ('\n' :: tl)))
        = (catAll (categorizeTasks tasks target)).map
          (fun t => (sigTask t, dget m (sigTask t) false)) := by
      rw [parseCheckedItemsTasks_eq]
      simp only [hfind, hfh]
      rw [htakeregion, hsplit2, filterMap_taskF_region2 hs]
    obtain ⟨rtl, hrtl⟩ := take3_shape htl3
    have hj : findHHOrEnd (A ++ (buildTasksSection (categorizeTasks tasks target) m
        ++ ('\n' :: tl))) (A.length + hTasks.length + 1)
        = A.length + hTasks.length + 1
          + ((joinLines ([] :: tasksBL (categorizeTasks tasks target) m)).length + 1) := by
      refine findHHOrEnd_eq_of (by omega) (Or.inr ?_) ?_
      · have hsh := @hhAt_shift
          (A ++ (buildTasksSection (categorizeTasks tasks target) m ++ ('\n' :: tl)))
          (A.length + hTasks.length + 1)
          ((joinLines ([] :: tasksBL (categorizeTasks tasks target) m)).length + 1)
          (by omega)
        rw [hsh, hdrop2]
        exact hhAt_append_tail_true htl3
      · intro i hi1 hi2
        constructor
        · have : i < (A ++ (buildTasksSection (categorizeTasks tasks target) m
              ++ ('\n' :: tl))).length := by
            rw [hPlen]
            simp only [List.length_cons]
            omega
          omega
        · refine hhAt_false_of_slice hi1 ?_
          rw [hdrop2]
          exact hhAt_joinTail_false hcleanV _ (by omega)
    have hdropj : (A ++ (buildTasksSection (categorizeTasks tasks target) m
        ++ ('\n' :: tl))).drop (A.length + hTasks.length + 1
          + ((joinLines ([] :: tasksBL (categorizeTasks tasks target) m)).length + 1))
        = tl := by
      have e : A ++ (buildTasksSection (categorizeTasks tasks target) m ++ ('\n' :: tl))
          = (A ++ ((hTasks ++ '\n'
            :: joinLines ([] :: tasksBL (categorizeTasks tasks target) m)) ++ ['\n']))
            ++ tl := by
        rw [hsecshape]
        simp
      have e2 : A.length + hTasks.length + 1
          + ((joinLines ([] :: tasksBL (categorizeTasks tasks target) m)).length + 1)
          = (A ++ ((hTasks ++ '\n'
            :: joinLines ([] :: tasksBL (categorizeTasks tasks target) m)) ++ ['\n'])).length := by
        simp only [List.length_append, List.length_cons, List.length_singleton,
          List.length_nil]
        omega
      rw [e, e2]
      exact List.drop_left _ _
    simp only [exportTasksContent]
    rw [hparse, buildTasks_fixpoint]
    simp only [mergeContent]
    rw [if_neg hPne]
    simp only [hfind]
    rw [hj, if_pos (by rw [hPlen, hrtl]; simp only [List.length_cons]; omega), hdropj]
    rw [hrtl, lstrip_cons_not_ws _ (by decide), List.take_left]
    simp

/-! ## Idempotence from the second run on -/

theorem getLast?_append_some {u v : Str} {c : Char} (h : v.getLast? = some c) :
    (u ++ v).getLast? = some c := by
  rcases v with _ | ⟨a, t⟩
  · simp at h
  · rw [List.getLast?_append_cons]
    exact h

/-- A second calendar export over a nonempty prior file reproduces the first
run's bytes exactly. -/
theorem exportEvents_idem {events : List Event} (dstr : Str)
    (hsE : ∀ e ∈ events, SaneText (fmtEventChecklist e))
    {existing : Str} (hex : existing ≠ []) :
    exportEventsContent events dstr (exportEventsContent events dstr existing)
      = exportEventsContent events dstr existing := by
  have hne : existing.isEmpty ≠ true := by
    intro hc
    rw [List.isEmpty_eq_true] at hc
    exact hex hc
  have hrun1 : exportEventsContent events dstr existing
      = replaceCalendarSection existing (buildCalendarSection events
        (parseCheckedItemsCal (extractCalendarSection existing))) := by
    simp only [exportEventsContent]
    rw [if_neg hne]
  rw [hrun1]
  rcases hfe : findHead hCal existing with _ | ⟨st₀, en₀⟩
  · -- no owned heading yet: the append branch
    have hrepl : replaceCalendarSection existing (buildCalendarSection events
        (parseCheckedItemsCal (extractCalendarSection existing)))
        = (rstrip existing ++ "\n\n".data)
          ++ (buildCalendarSection events
            (parseCheckedItemsCal (extractCalendarSection existing)) ++ ['\n']) := by
      unfold replaceCalendarSection
      simp only [hfe]
      simp
    rw [hrepl]
    refine exportEvents_fix dstr hsE (Or.inr (by simp)) ?_ (Or.inl rfl)
    have hnone := findHead_none_all (by decide) hfe
    have htb := no_match_append_ws (by decide) (by decide) hnone
      (buildCalendarSection events
        (parseCheckedItemsCal (extractCalendarSection existing)) ++ ['\n'])
    intro i hi
    have e : (rstrip existing ++ "\n\n".data)
        ++ (buildCalendarSection events
          (parseCheckedItemsCal (extractCalendarSection existing)) ++ ['\n'])
        = rstrip existing ++ '\n' :: '\n' :: (buildCalendarSection events
          (parseCheckedItemsCal (extractCalendarSection existing)) ++ ['\n']) := by
      simp
    rw [e]
    refine htb i ?_
    have hlen : (rstrip existing ++ "\n\n".data).length = (rstrip existing).length + 2 := by
      simp
    omega
  · -- the heading is present: the two replace branches
    obtain ⟨hmat, hmin⟩ := findHead_spec hfe
    obtain ⟨hLS, hchars, -⟩ := headEndAt_spec hmat
    have hstlt : st₀ < existing.length := by
      by_contra hge
      rw [List.drop_eq_nil_of_le (by omega)] at hchars
      exact absurd hchars (by decide)
    have hb : st₀ = 0 ∨ existing[st₀ - 1]? = some '\n' := by
      unfold isLineStart at hLS
      rw [Bool.or_eq_true] at hLS
      rcases hLS with h0 | h1
      · left
        simpa using h0
      · right
        simpa using h1
    have hA : existing.take st₀ = [] ∨ (existing.take st₀).getLast? = some '\n' := by
      rcases Nat.eq_zero_or_pos st₀ with rfl | hpos
      · left
        rfl
      · rcases hb with h0 | h1
        · omega
        · right
          rw [getLast?_take hpos (le_of_lt hstlt)]
          exact h1
    have hAlen : (existing.take st₀).length = st₀ := by
      rw [List.length_take]
      omega
    rcases hfh : findHH (existing.drop en₀) with _ | ns₀
    · -- the owned section runs to the end of the file
      have hrepl : replaceCalendarSection existing (buildCalendarSection events
          (parseCheckedItemsCal (extractCalendarSection existing)))
          = existing.take st₀ ++ (buildCalendarSection events
            (parseCheckedItemsCal (extractCalendarSection existing)) ++ ['\n']) := by
        unfold replaceCalendarSection
        simp only [hfe, hfh]
        simp
      rw [hrepl]
      refine exportEvents_fix dstr hsE hA ?_ (Or.inl rfl)
      intro i hi
      rw [hAlen] at hi
      exact no_match_prefix_take (by decide) (le_of_lt hstlt) hb hmin _ i hi
    · -- a later `## ` heading is retained after the glue
      have hhns := findHHAux_some hfh
      obtain ⟨r, hr⟩ := hhAt_drop_shape hhns
      have hB : existing.drop (en₀ + ns₀) = '#' :: '#' :: ' ' :: r := by
        rw [show existing.drop (en₀ + ns₀) = (existing.drop en₀).drop ns₀ from by
          rw [List.drop_drop, Nat.add_comm]]
        exact hr
      have hBtake : (existing.drop (en₀ + ns₀)).take 3 = ['#', '#', ' '] := by
        rw [hB]
        rfl
      have hrepl : replaceCalendarSection existing (buildCalendarSection events
          (parseCheckedItemsCal (extractCalendarSection existing)))
          = existing.take st₀ ++ (buildCalendarSection events
            (parseCheckedItemsCal (extractCalendarSection existing))
            ++ ('\n' :: '\n' :: existing.drop (en₀ + ns₀))) := by
        unfold replaceCalendarSection
        simp only [hfe, hfh]
        simp
      rw [hrepl]
      refine exportEvents_fix dstr hsE hA ?_ (Or.inr ⟨_, rfl, hBtake⟩)
      intro i hi
      rw [hAlen] at hi
      exact no_match_prefix_take (by decide) (le_of_lt hstlt) hb hmin _ i hi

/-- The note-template prefix before the tasks section is hash-pair free. -/
theorem noHashPair_tmplA (d : Ymd) : noHashPair ("---\ndate: ".data ++ fmtYmd d
    ++ "\ntype: daily\ntags:\n  - daily\n---\n\n# ".data ++ fmtYmd d ++ "\n\n".data) := by
  have npd : noHashPair (fmtYmd d) :=
    noHashPair_of_all_ne (fmtYmd_no_hash d)
  have np1 : noHashPair "---\ndate: ".data := by
    rw [noHashPair_iff_lt]
    decide
  have npc2 : noHashPair "\ntype: daily\ntags:\n  - daily\n---\n\n# ".data := by
    rw [noHashPair_iff_lt]
    decide
  have npc3 : noHashPair "\n\n".data := by
    rw [noHashPair_iff_lt]
    decide
  have h12 := noHashPair_append np1 npd (by
    rintro ⟨h1, -⟩
    exact absurd h1 (by decide))
  have h123 := noHashPair_append h12 npc2 (by
    rintro ⟨-, h2⟩
    exact absurd h2 (by decide))
  have h1234 := noHashPair_append h123 npd (by
    rintro ⟨-, h2⟩
    exact fmtYmd_no_hash d '#' (List.getElem?_mem h2) rfl)
  exact noHashPair_append h1234 npc3 (by
    rintro ⟨-, h2⟩
    exact absurd h2 (by decide))

theorem frontmatter_decomp (dstr : Str) : frontmatter dstr
    = "---\ndate: ".data ++ dstr ++ "\ntype: daily\ntags:\n  - daily\n---".data := by
  simp [frontmatter, joinLines, List.intercalate]

/-- The fresh-file prefix before the calendar section is hash-pair free. -/
theorem noHashPair_calA (d : Ymd) : noHashPair (frontmatter (fmtYmd d)
    ++ "\n\n# ".data ++ fmtYmd d ++ "\n\n".data) := by
  rw [frontmatter_decomp]
  have npd : noHashPair (fmtYmd d) :=
    noHashPair_of_all_ne (fmtYmd_no_hash d)
  have np1 : noHashPair "---\ndate: ".data := by
    rw [noHashPair_iff_lt]
    decide
  have npc2 : noHashPair "\ntype: daily\ntags:\n  - daily\n---".data := by
    rw [noHashPair_iff_lt]
    decide
  have npc3 : noHashPair "\n\n# ".data := by
    rw [noHashPair_iff_lt]
    decide
  have npc4 : noHashPair "\n\n".data := by
    rw [noHashPair_iff_lt]
    decide
  have h12 := noHashPair_append np1 npd (by
    rintro ⟨h1, -⟩
    exact absurd h1 (by decide))
  have h123 := noHashPair_append h12 npc2 (by
    rintro ⟨-, h2⟩
    exact absurd h2 (by decide))
  have h4 := noHashPair_append h123 npc3 (by
    rintro ⟨-, h2⟩
    exact absurd h2 (by decide))
  have h5 := noHashPair_append h4 npd (by
    rintro ⟨-, h2⟩
    exact fmtYmd_no_hash d '#' (List.getElem?_mem h2) rfl)
  exact noHashPair_append h5 npc4 (by
    rintro ⟨-, h2⟩
    exact absurd h2 (by decide))

/-- A second task export reproduces the first run's bytes exactly, for every
prior file state including the fresh one. -/
theorem exportTasks_idem {tasks : List Task} {target : Dt}
    (hsT : ∀ t ∈ tasks, SaneText (fmtTaskChecklist t)) (existing : Str) :
    exportTasksContent tasks target (exportTasksContent tasks target existing)
      = exportTasksContent tasks target existing := by
  have hs : ∀ t ∈ catAll (categorizeTasks tasks target), SaneText (fmtTaskChecklist t) :=
    fun t ht => hsT t (mem_catAll_categorize ht)
  have hrun1 : exportTasksContent tasks target existing
      = mergeContent existing (buildTasksSection (categorizeTasks tasks target)
        (parseCheckedItemsTasks existing)) (fmtYmd target.date) := rfl
  rw [hrun1]
  by_cases hex : existing = []
  · -- fresh file: the note template
    subst hex
    have hmerge : mergeContent [] (buildTasksSection (categorizeTasks tasks target)
        (parseCheckedItemsTasks [])) (fmtYmd target.date)
        = ("---\ndate: ".data ++ fmtYmd target.date
            ++ "\ntype: daily\ntags:\n  - daily\n---\n\n# ".data ++ fmtYmd target.date
            ++ "\n\n".data)
          ++ (buildTasksSection (categorizeTasks tasks target)
            (parseCheckedItemsTasks []) ++ []) := by
      simp only [mergeContent]
      rw [if_pos (show ([] : Str).isEmpty = true from rfl), List.append_nil]
      rfl
    rw [hmerge]
    have npA := noHashPair_tmplA target.date
    refine exportTasks_fix hs (Or.inr (getLast?_append_some (by decide))) ?_ (Or.inl rfl)
    intro i hi
    exact no_match_prefix_noHH (by decide) (by decide) _ npA
      (getLast?_append_some (by decide)) i hi
  · -- the file already exists
    have hne : existing.isEmpty ≠ true := by
      intro hc
      rw [List.isEmpty_eq_true] at hc
      exact hex hc
    rcases hfe : findHead hTasks existing with _ | ⟨st₀, en₀⟩
    · -- no owned heading yet: the append branch
      have hmerge : mergeContent existing (buildTasksSection (categorizeTasks tasks target)
          (parseCheckedItemsTasks existing)) (fmtYmd target.date)
          = (rstrip existing ++ "\n\n".data)
            ++ (buildTasksSection (categorizeTasks tasks target)
              (parseCheckedItemsTasks existing) ++ []) := by
        simp only [mergeContent]
        rw [if_neg hne]
        simp only [hfe]
        simp
      rw [hmerge]
      refine exportTasks_fix hs (Or.inr (by simp)) ?_ (Or.inl rfl)
      have hnone := findHead_none_all (by decide) hfe
      have htb := no_match_append_ws (by decide) (by decide) hnone
        (buildTasksSection (categorizeTasks tasks target)
          (parseCheckedItemsTasks existing) ++ [])
      intro i hi
      have e : (rstrip existing ++ "\n\n".data)
          ++ (buildTasksSection (categorizeTasks tasks target)
            (parseCheckedItemsTasks existing) ++ [])
          = rstrip existing ++ '\n' :: '\n' :: (buildTasksSection (categorizeTasks tasks target)
            (parseCheckedItemsTasks existing) ++ []) := by
        simp
      rw [e]
      refine htb i ?_
      have hlen : (rstrip existing ++ "\n\n".data).length = (rstrip existing).length + 2 := by
        simp
      omega
    · -- the heading is present
      obtain ⟨hmat, hmin⟩ := findHead_spec hfe
      obtain ⟨hLS, hchars, -⟩ := headEndAt_spec hmat
      have hstlt : st₀ < existing.length := by
        by_contra hge
        rw [List.drop_eq_nil_of_le (by omega)] at hchars
        exact absurd hchars (by decide)
      have hb : st₀ = 0 ∨ existing[st₀ - 1]? = some '\n' := by
        unfold isLineStart at hLS
        rw [Bool.or_eq_true] at hLS
        rcases hLS with h0 | h1
        · left
          simpa using h0
        · right
          simpa using h1
      have hA : existing.take st₀ = [] ∨ (existing.take st₀).getLast? = some '\n' := by
        rcases Nat.eq_zero_or_pos st₀ with rfl | hpos
        · left
          rfl
        · rcases hb with h0 | h1
          · omega
          · right
            rw [getLast?_take hpos (le_of_lt hstlt)]
            exact h1
      have hAlen : (existing.take st₀).length = st₀ := by
        rw [List.length_take]
        omega
      have henle : en₀ ≤ existing.length := (headEndAt_le hmat).2
      obtain ⟨hqor, hjge, hjle⟩ := findHHOrEnd_spec henle
      by_cases hjlt : findHHOrEnd existing en₀ < existing.length
      · -- a later `## ` heading is retained
        have hhj : hhAt existing (findHHOrEnd existing en₀) = true := by
          rcases hqor with h | h
          · omega
          · exact h
        obtain ⟨r, hr⟩ := hhAt_drop_shape hhj
        have hmerge : mergeContent existing (buildTasksSection (categorizeTasks tasks target)
            (parseCheckedItemsTasks existing)) (fmtYmd target.date)
            = existing.take st₀ ++ (buildTasksSection (categorizeTasks tasks target)
              (parseCheckedItemsTasks existing)
              ++ ('\n' :: existing.drop (findHHOrEnd existing en₀))) := by
          simp only [mergeContent]
          rw [if_neg hne]
          simp only [hfe]
          rw [if_pos hjlt, hr, lstrip_cons_not_ws _ (by decide), ← hr]
          simp
        rw [hmerge]
        have hTtake : (existing.drop (findHHOrEnd existing en₀)).take 3
            = ['#', '#', ' '] := by
          rw [hr]
          rfl
        refine exportTasks_fix hs hA ?_ (Or.inr ⟨_, rfl, hTtake⟩)
        intro i hi
        rw [hAlen] at hi
        exact no_match_prefix_take (by decide) (le_of_lt hstlt) hb hmin _ i hi
      · -- the owned section runs to the end of the file
        have hmerge : mergeContent existing (buildTasksSection (categorizeTasks tasks target)
            (parseCheckedItemsTasks existing)) (fmtYmd target.date)
            = existing.take st₀ ++ (buildTasksSection (categorizeTasks tasks target)
              (parseCheckedItemsTasks existing) ++ []) := by
          simp only [mergeContent]
          rw [if_neg hne]
          simp only [hfe]
          rw [if_neg hjlt]
          simp
        rw [hmerge]
        refine exportTasks_fix hs hA ?_ (Or.inl rfl)
        intro i hi
        rw [hAlen] at hi
        exact no_match_prefix_take (by decide) (le_of_lt hstlt) hb hmin _ i hi

/-- C3, counterexample: on a fresh (absent) file the calendar export is not
idempotent.  The first run writes the template without a trailing newline;
the second run takes the replace path, whose no-further-heading branch
appends `"\n"`, so the second run's bytes differ from the first run's. -/
theorem exportIdempotent_cex :
    exportEventsContent [] "2025-11-20".data
        (exportEventsContent [] "2025-11-20".data [])
      ≠ exportEventsContent [] "2025-11-20".data [] := by
  decide

/-- C3 (amended): with items whose rendered texts are nonempty, single-line
and already stripped, the task export is idempotent from any prior file
state (including a fresh file), and the calendar export is idempotent from
any nonempty prior file state; only the calendar export on a fresh file
gains one trailing newline on the second run. -/
theorem exportIdempotent_amended (events : List Event) (dstr : Str)
    (tasks : List Task) (target : Dt) (existingC existingT : Str)
    (hsE : ∀ e ∈ events, SaneText (fmtEventChecklist e))
    (hsT : ∀ t ∈ tasks, SaneText (fmtTaskChecklist t))
    (hC : existingC ≠ []) :
    exportEventsContent events dstr (exportEventsContent events dstr existingC)
      = exportEventsContent events dstr existingC
    ∧ exportTasksContent tasks target (exportTasksContent tasks target existingT)
      = exportTasksContent tasks target existingT :=
  ⟨exportEvents_idem dstr hsE hC, exportTasks_idem hsT existingT⟩

/-- Closed instance of `exportIdempotent_amended`: one all-day event over a
one-line prior note, and one due task over a fresh file. -/
theorem exportIdempotent_witness :
    exportEventsContent [⟨some "Standup".data, true, [], [], none⟩] "2025-11-20".data
        (exportEventsContent [⟨some "Standup".data, true, [], [], none⟩]
          "2025-11-20".data "# T\n".data)
      = exportEventsContent [⟨some "Standup".data, true, [], [], none⟩]
          "2025-11-20".data "# T\n".data
    ∧ exportTasksContent [⟨some "Write".data, none, some ⟨2025, 11, 20⟩⟩]
        ⟨⟨2025, 11, 20⟩, 0⟩
        (exportTasksContent [⟨some "Write".data, none, some ⟨2025, 11, 20⟩⟩]
          ⟨⟨2025, 11, 20⟩, 0⟩ [])
      = exportTasksContent [⟨some "Write".data, none, some ⟨2025, 11, 20⟩⟩]
          ⟨⟨2025, 11, 20⟩, 0⟩ [] :=
  exportIdempotent_amended [⟨some "Standup".data, true, [], [], none⟩] "2025-11-20".data
    [⟨some "Write".data, none, some ⟨2025, 11, 20⟩⟩] ⟨⟨2025, 11, 20⟩, 0⟩
    "# T\n".data []
    (by
      intro e he
      simp only [List.mem_singleton] at he
      subst he
      unfold SaneText
      exact ⟨by decide, by decide, by decide⟩)
    (by
      intro t ht
      simp only [List.mem_singleton] at ht
      subst ht
      unfold SaneText
      exact ⟨by decide, by decide, by decide⟩)
    (by decide)

/-! ## Counting heading matches -/

/-- The number of positions of `s` where `^{h}\s*$` matches (one per heading
line). -/
def headingMatchCount (h s : Str) : Nat :=
  ((List.range (s.length + 1)).filter (fun i => (headEndAt h s i).isSome)).length

theorem length_filter_range {st : Nat} {p : Nat → Bool} :
    ∀ {m : Nat}, st < m → p st = true → (∀ i, i ≠ st → p i = false) →
    ((List.range m).filter p).length = 1 := by
  intro m
  induction m with
  | zero => intro h; omega
  | succ m ih =>
    intro hlt hp hq
    rw [List.range_succ, List.filter_append]
    rcases Nat.lt_or_ge st m with hlt2 | hge
    · have h2 : List.filter p [m] = [] := by
        simp [hq m (by omega)]
      rw [List.length_append, ih hlt2 hp hq, h2]
      rfl
    · have hst : st = m := by omega
      subst hst
      have h1 : List.filter p (List.range st) = [] := by
        rw [List.filter_eq_nil_iff]
        intro a ha
        rw [List.mem_range] at ha
        simp [hq a (by omega)]
      have h2 : List.filter p [st] = [st] := by simp [hp]
      rw [h1, h2]
      rfl

theorem headingMatchCount_eq_one {h s : Str} {st : Nat} (hst : st < s.length + 1)
    (hp : (headEndAt h s st).isSome = true)
    (hq : ∀ i, i ≠ st → (headEndAt h s i).isSome = false) :
    headingMatchCount h s = 1 :=
  length_filter_range hst hp hq

theorem isSome_le_length {h s : Str} {i : Nat} (hi : (headEndAt h s i).isSome = true) :
    i ≤ s.length := by
  rw [Option.isSome_iff_exists] at hi
  obtain ⟨e, he⟩ := hi
  exact (headEndAt_le he).1.trans (headEndAt_le he).2

theorem le_one_count_unique {h s : Str} (hle : headingMatchCount h s ≤ 1)
    {i j : Nat} (hi : (headEndAt h s i).isSome = true)
    (hj : (headEndAt h s j).isSome = true) : i = j := by
  by_contra hij
  have hmi : i ∈ (List.range (s.length + 1)).filter (fun i => (headEndAt h s i).isSome) := by
    rw [List.mem_filter, List.mem_range]
    exact ⟨by have := isSome_le_length hi; omega, hi⟩
  have hmj : j ∈ (List.range (s.length + 1)).filter (fun i => (headEndAt h s i).isSome) := by
    rw [List.mem_filter, List.mem_range]
    exact ⟨by have := isSome_le_length hj; omega, hj⟩
  unfold headingMatchCount at hle
  rcases hl : (List.range (s.length + 1)).filter (fun i => (headEndAt h s i).isSome)
    with _ | ⟨a, l2⟩
  · rw [hl] at hmi
    simp at hmi
  · rcases l2 with _ | ⟨b, l3⟩
    · rw [hl] at hmi hmj
      simp only [List.mem_singleton] at hmi hmj
      exact hij (hmi.trans hmj.symm)
    · rw [hl] at hle
      simp at hle

/-- For a heading starting `"## "`, any `^{h}\s*$` match position is also a
`^## ` match position. -/
theorem hhAt_of_headEndAt {h s : Str} {i : Nat} (h3 : h.take 3 = ['#', '#', ' '])
    (hlen : 3 ≤ h.length) (hm : headEndAt h s i ≠ none) : hhAt s i = true := by
  obtain ⟨hLS, hchars, -⟩ := headEndAt_ne_none_iff.1 hm
  unfold hhAt
  rw [Bool.and_eq_true]
  refine ⟨hLS, ?_⟩
  rw [decide_eq_true_eq]
  have e : (s.drop i).take 3 = ((s.drop i).take h.length).take 3 := by
    rw [List.take_take]
    congr 1
    omega
  rw [e, hchars, h3]

/-- No `^## ` match strictly inside the heading's own characters. -/
theorem hhAt_false_in_heading {s y : Str} {st j : Nat} (hdrop : s.drop st = y)
    (hj : 1 ≤ j) (hynl : y[j - 1]? ≠ some '\n') :
    hhAt s (st + j) = false := by
  unfold hhAt isLineStart
  have e : s[st + j - 1]? = y[j - 1]? := by
    rw [show st + j - 1 = st + (j - 1) from by omega]
    exact getElem?_at_drop hdrop (j - 1)
  rw [Bool.and_eq_false_iff]
  left
  rw [Bool.or_eq_false_iff]
  constructor
  · simp
    omega
  · rw [e]
    simpa using hynl

/-- Exactly one heading match in a document spliced from a matchless prefix,
the fresh calendar section, and a glue tail with no match beyond it. -/
theorem calSplice_count {events : List Event} {m : List (Str × Bool)}
    (hs : ∀ e ∈ events, '\n' ∉ fmtEventChecklist e)
    {A T : Str} (hA : A = [] ∨ A.getLast? = some '\n')
    (hnomatch : ∀ i < A.length,
      headEndAt hCal (A ++ (buildCalendarSection events m ++ T)) i = none)
    (hT : (T = [] ∨ T = ['\n'])
      ∨ (∃ B, T = '\n' :: '\n' :: B
          ∧ ∀ i, A.length + ((buildCalendarSection events m).length + 2) ≤ i →
            headEndAt hCal (A ++ (buildCalendarSection events m ++ T)) i = none)) :
    headingMatchCount hCal (A ++ (buildCalendarSection events m ++ T)) = 1 := by
  obtain ⟨tail, hsecshape, hJ⟩ := buildCalendarSection_shape events m
  have hitems_ne : calItems events m ≠ [] := calItems_ne_nil events m
  have hen : headEndAt hCal (A ++ (buildCalendarSection events m ++ T)) A.length
      = some (A.length + hCal.length) := headEndAt_calendar events m hA T
  have hdropA : (A ++ (buildCalendarSection events m ++ T)).drop A.length
      = buildCalendarSection events m ++ T := drop_boundary A _
  have hdrop : (A ++ (buildCalendarSection events m ++ T)).drop (A.length + hCal.length)
      = '\n' :: (joinLines (calItems events m) ++ T) := by
    have e : A ++ (buildCalendarSection events m ++ T)
        = A ++ (hCal ++ ('\n' :: (joinLines (calItems events m) ++ T))) := by
      rw [hsecshape, hJ]
      simp
    rw [e]
    exact drop_boundary2 A hCal _
  have hU : joinLines (([] :: calItems events m) ++ [[]])
      = '\n' :: (joinLines (calItems events m) ++ ['\n']) := by
    rw [joinLines_append_singleton (by simp), joinLines_nil_cons hitems_ne]
    rfl
  have hclean : ∀ l ∈ ([] :: calItems events m) ++ [[]],
      '\n' ∉ l ∧ l.take 3 ≠ ['#', '#', ' '] := by
    intro l hl
    simp only [List.mem_append, List.mem_cons, List.mem_singleton,
      List.not_mem_nil, or_false] at hl
    rcases hl with (rfl | hl) | rfl
    · exact ⟨by simp, by decide⟩
    · exact cleanLines_cal hs l hl
    · exact ⟨by simp, by decide⟩
  have hseclen : (buildCalendarSection events m).length
      = hCal.length + ((joinLines (calItems events m)).length + 1) := by
    rw [hsecshape, hJ]
    simp only [List.length_append, List.length_cons]
  refine @headingMatchCount_eq_one hCal (A ++ (buildCalendarSection events m ++ T))
    A.length ?_ ?_ ?_
  · rw [List.length_append]
    omega
  · rw [hen]
    rfl
  · intro i hne_i
    suffices hnone : headEndAt hCal (A ++ (buildCalendarSection events m ++ T)) i = none by
      rw [hnone]
      rfl
    rcases Nat.lt_or_ge i A.length with hlt | hge1
    · exact hnomatch i hlt
    have hgt : A.length < i := by omega
    rcases Nat.lt_or_ge ((A ++ (buildCalendarSection events m ++ T)).length) i
      with hbig | hle
    · exact headEndAt_none_of_ge (by decide) (by omega)
    by_contra hcon
    have hhh : hhAt (A ++ (buildCalendarSection events m ++ T)) i = true :=
      hhAt_of_headEndAt (by decide) (by decide) hcon
    rcases Nat.lt_or_ge i (A.length + hCal.length) with hin | hge2
    · -- inside the heading's own characters
      have hnl11 : ∀ k < 11, hCal[k]? ≠ some '\n' := by decide
      have hhf := hhAt_false_in_heading hdropA (j := i - A.length) (by omega) (by
        rw [getElem?_append_lt T (by omega), hsecshape,
          getElem?_append_lt _ (by
            have : hCal.length = 11 := by decide
            omega)]
        exact hnl11 _ (by
          have : hCal.length = 11 := by decide
          omega))
      rw [show A.length + (i - A.length) = i from by omega] at hhf
      rw [hhf] at hhh
      cases hhh
    · -- at or beyond the newline after the heading line
      rcases hT with hT01 | ⟨B, rfl, hafter⟩
      · have hfalse : hhAt ((A ++ (buildCalendarSection events m ++ T)).drop
            (A.length + hCal.length)) (i - (A.length + hCal.length)) = false := by
          rcases hT01 with rfl | rfl
          · rw [hdrop]
            have e : '\n' :: (joinLines (calItems events m) ++ ([] : Str))
                = joinLines ([] :: calItems events m) := by
              rw [joinLines_nil_cons hitems_ne]
              simp
            rw [e]
            exact hhAt_joinLines_false (fun l hl => by
              rcases List.mem_cons.1 hl with rfl | hl
              · exact ⟨by simp, by decide⟩
              · exact cleanLines_cal hs l hl) _
          · rw [hdrop, show '\n' :: (joinLines (calItems events m) ++ ['\n'])
              = joinLines (([] :: calItems events m) ++ [[]]) from hU.symm]
            exact hhAt_joinLines_false hclean _
        rw [hhAt_false_of_slice hge2 hfalse] at hhh
        cases hhh
      · rcases Nat.lt_or_ge i (A.length + ((buildCalendarSection events m).length + 2))
          with hmid | hend
        · have e : '\n' :: (joinLines (calItems events m) ++ ('\n' :: '\n' :: B))
              = joinLines (([] :: calItems events m) ++ [[]]) ++ '\n' :: B := by
            rw [hU]
            simp
          have hfalse : hhAt ((A ++ (buildCalendarSection events m
              ++ ('\n' :: '\n' :: B))).drop (A.length + hCal.length))
              (i - (A.length + hCal.length)) = false := by
            rw [hdrop, e]
            refine hhAt_joinTail_false hclean _ ?_
            have hUlen : (joinLines (([] :: calItems events m) ++ [[]])).length
                = (joinLines (calItems events m)).length + 2 := by
              rw [hU]
              simp
            rw [hUlen]
            omega
          rw [hhAt_false_of_slice hge2 hfalse] at hhh
          cases hhh
        · exact absurd (hafter i hend) hcon

/-- Exactly one heading match in a document spliced from a matchless prefix,
the fresh tasks section, and a glue tail with no match beyond it. -/
theorem tasksSplice_count {cat : Categorized} {m : List (Str × Bool)}
    (hs : ∀ t ∈ catAll cat, '\n' ∉ fmtTaskChecklist t)
    {A T : Str} (hA : A = [] ∨ A.getLast? = some '\n')
    (hnomatch : ∀ i < A.length,
      headEndAt hTasks (A ++ (buildTasksSection cat m ++ T)) i = none)
    (hT : T = []
      ∨ (∃ B, T = '\n' :: B ∧ B.take 3 = ['#', '#', ' ']
          ∧ ∀ i, A.length + ((buildTasksSection cat m).length + 1) ≤ i →
            headEndAt hTasks (A ++ (buildTasksSection cat m ++ T)) i = none)) :
    headingMatchCount hTasks (A ++ (buildTasksSection cat m ++ T)) = 1 := by
  have hsecshape := buildTasksSection_shape cat m
  have hcleanV : ∀ l ∈ [] :: tasksBL cat m, '\n' ∉ l ∧ l.take 3 ≠ ['#', '#', ' '] :=
    cleanLines_tasks hs
  have hT2 : T = [] ∨ ∃ r, T = '\n' :: '#' :: r := by
    rcases hT with rfl | ⟨B, rfl, h3, -⟩
    · exact Or.inl rfl
    · obtain ⟨r, rfl⟩ := take3_shape h3
      exact Or.inr ⟨'#' :: ' ' :: r, rfl⟩
  have hen : headEndAt hTasks (A ++ (buildTasksSection cat m ++ T)) A.length
      = some (A.length + hTasks.length + 1) := headEndAt_tasks cat m hA hT2
  have hdropA : (A ++ (buildTasksSection cat m ++ T)).drop A.length
      = buildTasksSection cat m ++ T := drop_boundary A _
  have hdrop : (A ++ (buildTasksSection cat m ++ T)).drop (A.length + hTasks.length + 1)
      = joinLines ([] :: tasksBL cat m) ++ T := by
    have e : A ++ (buildTasksSection cat m ++ T)
        = (A ++ (hTasks ++ ['\n'])) ++ (joinLines ([] :: tasksBL cat m) ++ T) := by
      rw [hsecshape]
      simp
    have e2 : A.length + hTasks.length + 1 = (A ++ (hTasks ++ ['\n'])).length := by
      simp only [List.length_append, List.length_singleton]
      omega
    rw [e, e2]
    exact List.drop_left _ _
  have hseclen : (buildTasksSection cat m).length
      = hTasks.length + ((joinLines ([] :: tasksBL cat m)).length + 1) := by
    rw [hsecshape]
    simp only [List.length_append, List.length_cons]
  refine @headingMatchCount_eq_one hTasks (A ++ (buildTasksSection cat m ++ T))
    A.length ?_ ?_ ?_
  · rw [List.length_append]
    omega
  · rw [hen]
    rfl
  · intro i hne_i
    suffices hnone : headEndAt hTasks (A ++ (buildTasksSection cat m ++ T)) i = none by
      rw [hnone]
      rfl
    rcases Nat.lt_or_ge i A.length with hlt | hge1
    · exact hnomatch i hlt
    have hgt : A.length < i := by omega
    rcases Nat.lt_or_ge ((A ++ (buildTasksSection cat m ++ T)).length) i with hbig | hle
    · exact headEndAt_none_of_ge (by decide) (by omega)
    by_contra hcon
    have hhh : hhAt (A ++ (buildTasksSection cat m ++ T)) i = true :=
      hhAt_of_headEndAt (by decide) (by decide) hcon
    rcases Nat.lt_or_ge i (A.length + hTasks.length + 1) with hin | hge2
    · -- inside the heading's own characters
      have hnl8 : ∀ k < 8, hTasks[k]? ≠ some '\n' := by decide
      have hhf := hhAt_false_in_heading hdropA (j := i - A.length) (by omega) (by
        rw [getElem?_append_lt T (by
            rw [hseclen]
            have : hTasks.length = 8 := by decide
            omega), hsecshape,
          getElem?_append_lt _ (by
            have : hTasks.length = 8 := by decide
            omega)]
        exact hnl8 _ (by
          have : hTasks.length = 8 := by decide
          omega))
      rw [show A.length + (i - A.length) = i from by omega] at hhf
      rw [hhf] at hhh
      cases hhh
    · -- at or beyond the section body
      rcases hT with rfl | ⟨B, rfl, h3, hafter⟩
      · have hfalse : hhAt ((A ++ (buildTasksSection cat m ++ [])).drop
            (A.length + hTasks.length + 1)) (i - (A.length + hTasks.length + 1))
            = false := by
          rw [hdrop, List.append_nil]
          exact hhAt_joinLines_false hcleanV _
        rw [hhAt_false_of_slice hge2 hfalse] at hhh
        cases hhh
      · rcases Nat.lt_or_ge i (A.length + ((buildTasksSection cat m).length + 1))
          with hmid | hend
        · have hfalse : hhAt ((A ++ (buildTasksSection cat m ++ ('\n' :: B))).drop
              (A.length + hTasks.length + 1)) (i - (A.length + hTasks.length + 1))
              = false := by
            rw [hdrop]
            refine hhAt_joinTail_false hcleanV _ ?_
            rw [hseclen] at hmid
            omega
          rw [hhAt_false_of_slice hge2 hfalse] at hhh
          cases hhh
        · exact absurd (hafter i hend) hcon

/-! ## The retained tail starts on a fresh line of the prior document -/

theorem headEndAt_atEOL {h s : Str} {st en : Nat} (hm : headEndAt h s st = some en) :
    en = s.length ∨ s[en]? = some '\n' := by
  obtain ⟨-, -, k, rfl, hEol, -⟩ := headEndAt_spec hm
  unfold atEOL at hEol
  rw [Bool.or_eq_true] at hEol
  rcases hEol with h1 | h1
  · left
    simpa using h1
  · right
    simpa using h1

theorem headEndAt_ge {h s : Str} {st en : Nat} (hm : headEndAt h s st = some en) :
    st + h.length ≤ en := by
  obtain ⟨-, -, k, rfl, -, -⟩ := headEndAt_spec hm
  omega

theorem hhAt_slice_pred_nl {s : Str} {en ns : Nat} (hh : hhAt (s.drop en) ns = true)
    (hEol : en = s.length ∨ s[en]? = some '\n') :
    1 ≤ ns ∧ s[en + ns - 1]? = some '\n' := by
  obtain ⟨c1, -, -⟩ := hhAt_chars hh
  rw [List.getElem?_drop] at c1
  have hns : 1 ≤ ns := by
    by_contra h0
    have hz : ns = 0 := by omega
    subst hz
    rw [Nat.add_zero] at c1
    rcases hEol with h | h
    · rw [List.getElem?_eq_none (by omega)] at c1
      cases c1
    · rw [h] at c1
      simp at c1
  refine ⟨hns, ?_⟩
  unfold hhAt isLineStart at hh
  rw [Bool.and_eq_true, Bool.or_eq_true] at hh
  obtain ⟨hLS, -⟩ := hh
  rcases hLS with h0 | h1
  · simp only [decide_eq_true_eq] at h0
    omega
  · simp only [decide_eq_true_eq] at h1
    rw [List.getElem?_drop] at h1
    rw [show en + ns - 1 = en + (ns - 1) from by omega]
    exact h1

/-- The calendar export writes exactly one owned-heading line whenever the
prior content carried at most one. -/
theorem exportEvents_count {events : List Event} (d : Ymd)
    (hs : ∀ e ∈ events, '\n' ∉ fmtEventChecklist e)
    {existing : Str} (hprior : headingMatchCount hCal existing ≤ 1) :
    headingMatchCount hCal (exportEventsContent events (fmtYmd d) existing) = 1 := by
  by_cases hex : existing = []
  · subst hex
    have hrun : exportEventsContent events (fmtYmd d) []
        = (frontmatter (fmtYmd d) ++ "\n\n# ".data ++ fmtYmd d ++ "\n\n".data)
          ++ (buildCalendarSection events
            (parseCheckedItemsCal (extractCalendarSection [])) ++ []) := by
      simp only [exportEventsContent]
      rw [if_pos (show ([] : Str).isEmpty = true from rfl), List.append_nil]
    rw [hrun]
    refine calSplice_count hs (Or.inr (getLast?_append_some (by decide))) ?_
      (Or.inl (Or.inl rfl))
    intro i hi
    exact no_match_prefix_noHH (by decide) (by decide) _ (noHashPair_calA d)
      (getLast?_append_some (by decide)) i hi
  · have hne : existing.isEmpty ≠ true := by
      intro hc
      rw [List.isEmpty_eq_true] at hc
      exact hex hc
    have hrun : exportEventsContent events (fmtYmd d) existing
        = replaceCalendarSection existing (buildCalendarSection events
          (parseCheckedItemsCal (extractCalendarSection existing))) := by
      simp only [exportEventsContent]
      rw [if_neg hne]
    rw [hrun]
    rcases hfe : findHead hCal existing with _ | ⟨st₀, en₀⟩
    · have hrepl : replaceCalendarSection existing (buildCalendarSection events
          (parseCheckedItemsCal (extractCalendarSection existing)))
          = (rstrip existing ++ "\n\n".data)
            ++ (buildCalendarSection events
              (parseCheckedItemsCal (extractCalendarSection existing)) ++ ['\n']) := by
        unfold replaceCalendarSection
        simp only [hfe]
        simp
      rw [hrepl]
      refine calSplice_count hs (Or.inr (by simp)) ?_ (Or.inl (Or.inr rfl))
      have hnone := findHead_none_all (by decide) hfe
      have htb := no_match_append_ws (by decide) (by decide) hnone
        (buildCalendarSection events
          (parseCheckedItemsCal (extractCalendarSection existing)) ++ ['\n'])
      intro i hi
      have e : (rstrip existing ++ "\n\n".data)
          ++ (buildCalendarSection events
            (parseCheckedItemsCal (extractCalendarSection existing)) ++ ['\n'])
          = rstrip existing ++ '\n' :: '\n' :: (buildCalendarSection events
            (parseCheckedItemsCal (extractCalendarSection existing)) ++ ['\n']) := by
        simp
      rw [e]
      refine htb i ?_
      have hlen : (rstrip existing ++ "\n\n".data).length = (rstrip existing).length + 2 := by
        simp
      omega
    · obtain ⟨hmat, hmin⟩ := findHead_spec hfe
      obtain ⟨hLS, hchars, -⟩ := headEndAt_spec hmat
      have hstlt : st₀ < existing.length := by
        by_contra hge
        rw [List.drop_eq_nil_of_le (by omega)] at hchars
        exact absurd hchars (by decide)
      have hb : st₀ = 0 ∨ existing[st₀ - 1]? = some '\n' := by
        unfold isLineStart at hLS
        rw [Bool.or_eq_true] at hLS
        rcases hLS with h0 | h1
        · left
          simpa using h0
        · right
          simpa using h1
      have hA : existing.take st₀ = [] ∨ (existing.take st₀).getLast? = some '\n' := by
        rcases Nat.eq_zero_or_pos st₀ with rfl | hpos
        · left
          rfl
        · rcases hb with h0 | h1
          · omega
          · right
            rw [getLast?_take hpos (le_of_lt hstlt)]
            exact h1
      have hAlen : (existing.take st₀).length = st₀ := by
        rw [List.length_take]
        omega
      rcases hfh : findHH (existing.drop en₀) with _ | ns₀
      · have hrepl : replaceCalendarSection existing (buildCalendarSection events
            (parseCheckedItemsCal (extractCalendarSection existing)))
            = existing.take st₀ ++ (buildCalendarSection events
              (parseCheckedItemsCal (extractCalendarSection existing)) ++ ['\n']) := by
          unfold replaceCalendarSection
          simp only [hfe, hfh]
          simp
        rw [hrepl]
        refine calSplice_count hs hA ?_ (Or.inl (Or.inr rfl))
        intro i hi
        rw [hAlen] at hi
        exact no_match_prefix_take (by decide) (le_of_lt hstlt) hb hmin _ i hi
      · have hh := findHHAux_some hfh
        obtain ⟨r, hr⟩ := hhAt_drop_shape hh
        have hB : existing.drop (en₀ + ns₀) = '#' :: '#' :: ' ' :: r := by
          rw [show existing.drop (en₀ + ns₀) = (existing.drop en₀).drop ns₀ from by
            rw [List.drop_drop, Nat.add_comm]]
          exact hr
        have hrepl : replaceCalendarSection existing (buildCalendarSection events
            (parseCheckedItemsCal (extractCalendarSection existing)))
            = existing.take st₀ ++ (buildCalendarSection events
              (parseCheckedItemsCal (extractCalendarSection existing))
              ++ ('\n' :: '\n' :: existing.drop (en₀ + ns₀))) := by
          unfold replaceCalendarSection
          simp only [hfe, hfh]
          simp
        rw [hrepl]
        refine calSplice_count hs hA ?_ (Or.inr ⟨existing.drop (en₀ + ns₀), rfl, ?_⟩)
        · intro i hi
          rw [hAlen] at hi
          exact no_match_prefix_take (by decide) (le_of_lt hstlt) hb hmin _ i hi
        · -- nothing beyond the glue matches, because the prior had one heading
          intro i hi
          by_contra hcon
          have hEol := headEndAt_atEOL hmat
          obtain ⟨hns1, hprednl⟩ := hhAt_slice_pred_nl hh hEol
          have henle : en₀ ≤ existing.length := (headEndAt_le hmat).2
          have hnslt : ns₀ < existing.length - en₀ := by
            have hlt := hhAt_lt_length hh
            rw [List.length_drop] at hlt
            omega
          have hU1last : (existing.take (en₀ + ns₀)).getLast? = some '\n' := by
            rw [getLast?_take (by omega) (by omega)]
            exact hprednl
          have hU2last : (existing.take st₀ ++ (buildCalendarSection events
              (parseCheckedItemsCal (extractCalendarSection existing))
              ++ ['\n', '\n'])).getLast? = some '\n' :=
            getLast?_append_some (getLast?_append_some (by decide))
          have hU2len : (existing.take st₀ ++ (buildCalendarSection events
              (parseCheckedItemsCal (extractCalendarSection existing))
              ++ ['\n', '\n'])).length
              = (existing.take st₀).length + ((buildCalendarSection events
                (parseCheckedItemsCal (extractCalendarSection existing))).length + 2) := by
            simp only [List.length_append, List.length_cons, List.length_nil]
          have hPd : existing.take st₀ ++ (buildCalendarSection events
              (parseCheckedItemsCal (extractCalendarSection existing))
              ++ ('\n' :: '\n' :: existing.drop (en₀ + ns₀)))
              = (existing.take st₀ ++ (buildCalendarSection events
                (parseCheckedItemsCal (extractCalendarSection existing)) ++ ['\n', '\n']))
                ++ existing.drop (en₀ + ns₀) := by
            simp
          rw [hPd, show i = (existing.take st₀ ++ (buildCalendarSection events
            (parseCheckedItemsCal (extractCalendarSection existing))
            ++ ['\n', '\n'])).length + (i - (existing.take st₀
              ++ (buildCalendarSection events
                (parseCheckedItemsCal (extractCalendarSection existing))
                ++ ['\n', '\n'])).length) from by rw [hU2len]; omega] at hcon
          have hm2 := match_suffix_mp hU2last hU1last hcon
          rw [List.take_append_drop] at hm2
          have hps := Option.isSome_iff_ne_none.mpr hm2
          have hp0 : (headEndAt hCal existing st₀).isSome = true := by
            rw [hmat]
            rfl
          have heq := le_one_count_unique hprior hp0 hps
          have hU1len : (existing.take (en₀ + ns₀)).length = en₀ + ns₀ := by
            rw [List.length_take]
            omega
          rw [hU1len] at heq
          have hen_ge := headEndAt_ge hmat
          omega

/-- The task export writes exactly one owned-heading line whenever the prior
content carried at most one. -/
theorem exportTasks_count {tasks : List Task} {target : Dt}
    (hsT : ∀ t ∈ tasks, '\n' ∉ fmtTaskChecklist t)
    {existing : Str} (hprior : headingMatchCount hTasks existing ≤ 1) :
    headingMatchCount hTasks (exportTasksContent tasks target existing) = 1 := by
  have hs : ∀ t ∈ catAll (categorizeTasks tasks target), '\n' ∉ fmtTaskChecklist t :=
    fun t ht => hsT t (mem_catAll_categorize ht)
  have hrun1 : exportTasksContent tasks target existing
      = mergeContent existing (buildTasksSection (categorizeTasks tasks target)
        (parseCheckedItemsTasks existing)) (fmtYmd target.date) := rfl
  rw [hrun1]
  by_cases hex : existing = []
  · subst hex
    have hmerge : mergeContent [] (buildTasksSection (categorizeTasks tasks target)
        (parseCheckedItemsTasks [])) (fmtYmd target.date)
        = ("---\ndate: ".data ++ fmtYmd target.date
            ++ "\ntype: daily\ntags:\n  - daily\n---\n\n# ".data ++ fmtYmd target.date
            ++ "\n\n".data)
          ++ (buildTasksSection (categorizeTasks tasks target)
            (parseCheckedItemsTasks []) ++ []) := by
      simp only [mergeContent]
      rw [if_pos (show ([] : Str).isEmpty = true from rfl), List.append_nil]
      rfl
    rw [hmerge]
    refine tasksSplice_count hs (Or.inr (getLast?_append_some (by decide))) ?_
      (Or.inl rfl)
    intro i hi
    exact no_match_prefix_noHH (by decide) (by decide) _ (noHashPair_tmplA target.date)
      (getLast?_append_some (by decide)) i hi
  · have hne : existing.isEmpty ≠ true := by
      intro hc
      rw [List.isEmpty_eq_true] at hc
      exact hex hc
    rcases hfe : findHead hTasks existing with _ | ⟨st₀, en₀⟩
    · have hmerge : mergeContent existing (buildTasksSection (categorizeTasks tasks target)
          (parseCheckedItemsTasks existing)) (fmtYmd target.date)
          = (rstrip existing ++ "\n\n".data)
            ++ (buildTasksSection (categorizeTasks tasks target)
              (parseCheckedItemsTasks existing) ++ []) := by
        simp only [mergeContent]
        rw [if_neg hne]
        simp only [hfe]
        simp
      rw [hmerge]
      refine tasksSplice_count hs (Or.inr (by simp)) ?_ (Or.inl rfl)
      have hnone := findHead_none_all (by decide) hfe
      have htb := no_match_append_ws (by decide) (by decide) hnone
        (buildTasksSection (categorizeTasks tasks target)
          (parseCheckedItemsTasks existing) ++ [])
      intro i hi
      have e : (rstrip existing ++ "\n\n".data)
          ++ (buildTasksSection (categorizeTasks tasks target)
            (parseCheckedItemsTasks existing) ++ [])
          = rstrip existing ++ '\n' :: '\n' :: (buildTasksSection (categorizeTasks tasks target)
            (parseCheckedItemsTasks existing) ++ []) := by
        simp
      rw [e]
      refine htb i ?_
      have hlen : (rstrip existing ++ "\n\n".data).length = (rstrip existing).length + 2 := by
        simp
      omega
    · obtain ⟨hmat, hmin⟩ := findHead_spec hfe
      obtain ⟨hLS, hchars, -⟩ := headEndAt_spec hmat
      have hstlt : st₀ < existing.length := by
        by_contra hge
        rw [List.drop_eq_nil_of_le (by omega)] at hchars
        exact absurd hchars (by decide)
      have hb : st₀ = 0 ∨ existing[st₀ - 1]? = some '\n' := by
        unfold isLineStart at hLS
        rw [Bool.or_eq_true] at hLS
        rcases hLS with h0 | h1
        · left
          simpa using h0
        · right
          simpa using h1
      have hA : existing.take st₀ = [] ∨ (existing.take st₀).getLast? = some '\n' := by
        rcases Nat.eq_zero_or_pos st₀ with rfl | hpos
        · left
          rfl
        · rcases hb with h0 | h1
          · omega
          · right
            rw [getLast?_take hpos (le_of_lt hstlt)]
            exact h1
      have hAlen : (existing.take st₀).length = st₀ := by
        rw [List.length_take]
        omega
      have henle : en₀ ≤ existing.length := (headEndAt_le hmat).2
      obtain ⟨hqor, hjge, hjle⟩ := findHHOrEnd_spec henle
      have hen_ge := headEndAt_ge hmat
      by_cases hjlt : findHHOrEnd existing en₀ < existing.length
      · have hhj : hhAt existing (findHHOrEnd existing en₀) = true := by
          rcases hqor with h | h
          · omega
          · exact h
        obtain ⟨r, hr⟩ := hhAt_drop_shape hhj
        have hmerge : mergeContent existing (buildTasksSection (categorizeTasks tasks target)
            (parseCheckedItemsTasks existing)) (fmtYmd target.date)
            = existing.take st₀ ++ (buildTasksSection (categorizeTasks tasks target)
              (parseCheckedItemsTasks existing)
              ++ ('\n' :: existing.drop (findHHOrEnd existing en₀))) := by
          simp only [mergeContent]
          rw [if_neg hne]
          simp only [hfe]
          rw [if_pos hjlt, hr, lstrip_cons_not_ws _ (by decide), ← hr]
          simp
        rw [hmerge]
        have hTtake : (existing.drop (findHHOrEnd existing en₀)).take 3
            = ['#', '#', ' '] := by
          rw [hr]
          rfl
        refine tasksSplice_count hs hA ?_
          (Or.inr ⟨existing.drop (findHHOrEnd existing en₀), rfl, hTtake, ?_⟩)
        · intro i hi
          rw [hAlen] at hi
          exact no_match_prefix_take (by decide) (le_of_lt hstlt) hb hmin _ i hi
        · intro i hi
          by_contra hcon
          have h8 : hTasks.length = 8 := by decide
          have hj0pos : 1 ≤ findHHOrEnd existing en₀ := by omega
          have hprednl : existing[findHHOrEnd existing en₀ - 1]? = some '\n' := by
            unfold hhAt isLineStart at hhj
            rw [Bool.and_eq_true, Bool.or_eq_true] at hhj
            obtain ⟨hLS2, -⟩ := hhj
            rcases hLS2 with h0 | h1
            · simp only [decide_eq_true_eq] at h0
              omega
            · simpa using h1
          have hU1last : (existing.take (findHHOrEnd existing en₀)).getLast?
              = some '\n' := by
            rw [getLast?_take hj0pos hjle]
            exact hprednl
          have hU2last : (existing.take st₀ ++ (buildTasksSection (categorizeTasks tasks target)
              (parseCheckedItemsTasks existing) ++ ['\n'])).getLast? = some '\n' :=
            getLast?_append_some (getLast?_append_some (by decide))
          have hU2len : (existing.take st₀ ++ (buildTasksSection (categorizeTasks tasks target)
              (parseCheckedItemsTasks existing) ++ ['\n'])).length
              = (existing.take st₀).length + ((buildTasksSection (categorizeTasks tasks target)
                (parseCheckedItemsTasks existing)).length + 1) := by
            simp only [List.length_append, List.length_cons, List.length_nil]
          have hPd : existing.take st₀ ++ (buildTasksSection (categorizeTasks tasks target)
              (parseCheckedItemsTasks existing)
              ++ ('\n' :: existing.drop (findHHOrEnd existing en₀)))
              = (existing.take st₀ ++ (buildTasksSection (categorizeTasks tasks target)
                (parseCheckedItemsTasks existing) ++ ['\n']))
                ++ existing.drop (findHHOrEnd existing en₀) := by
            simp
          rw [hPd, show i = (existing.take st₀ ++ (buildTasksSection
            (categorizeTasks tasks target) (parseCheckedItemsTasks existing)
            ++ ['\n'])).length + (i - (existing.take st₀ ++ (buildTasksSection
              (categorizeTasks tasks target) (parseCheckedItemsTasks existing)
              ++ ['\n'])).length) from by rw [hU2len]; omega] at hcon
          have hm2 := match_suffix_mp hU2last hU1last hcon
          rw [List.take_append_drop] at hm2
          have hps := Option.isSome_iff_ne_none.mpr hm2
          have hp0 : (headEndAt hTasks existing st₀).isSome = true := by
            rw [hmat]
            rfl
          have heq := le_one_count_unique hprior hp0 hps
          have hU1len : (existing.take (findHHOrEnd existing en₀)).length
              = findHHOrEnd existing en₀ := by
            rw [List.length_take]
            omega
          rw [hU1len] at heq
          omega
      · have hmerge : mergeContent existing (buildTasksSection (categorizeTasks tasks target)
            (parseCheckedItemsTasks existing)) (fmtYmd target.date)
            = existing.take st₀ ++ (buildTasksSection (categorizeTasks tasks target)
              (parseCheckedItemsTasks existing) ++ []) := by
          simp only [mergeContent]
          rw [if_neg hne]
          simp only [hfe]
          rw [if_neg hjlt]
          simp
        rw [hmerge]
        refine tasksSplice_count hs hA ?_ (Or.inl rfl)
        intro i hi
        rw [hAlen] at hi
        exact no_match_prefix_take (by decide) (le_of_lt hstlt) hb hmin _ i hi

/-- C9: Single owned-heading invariant, amended.  For items rendered on a
single line and a prior file carrying at most one line matching its owned
heading pattern, each export produces content with exactly one such line
('## Calendar' for the calendar exporter, '## Tasks' for the task
exporter); and on a fresh (absent) file both exporters begin the note with
the fixed YAML frontmatter (date, type: daily, tags: daily).  The
unconditional form of the claim is false: a prior note that already lists
the owned heading twice keeps the duplicate (see the counterexample). -/
theorem singleOwnedHeading_amended (events : List Event) (d : Ymd)
    (tasks : List Task) (target : Dt) (existingC existingT : Str)
    (hsE : ∀ e ∈ events, '\n' ∉ fmtEventChecklist e)
    (hsT : ∀ t ∈ tasks, '\n' ∉ fmtTaskChecklist t)
    (hpC : headingMatchCount hCal existingC ≤ 1)
    (hpT : headingMatchCount hTasks existingT ≤ 1) :
    headingMatchCount hCal (exportEventsContent events (fmtYmd d) existingC) = 1
    ∧ headingMatchCount hTasks (exportTasksContent tasks target existingT) = 1
    ∧ (∃ rest, exportEventsContent events (fmtYmd d) []
        = frontmatter (fmtYmd d) ++ rest)
    ∧ (∃ rest, exportTasksContent tasks target []
        = frontmatter (fmtYmd target.date) ++ rest) := by
  refine ⟨exportEvents_count d hsE hpC, exportTasks_count hsT hpT, ?_, ?_⟩
  · refine ⟨"\n\n# ".data ++ fmtYmd d ++ "\n\n".data
      ++ buildCalendarSection events (parseCheckedItemsCal (extractCalendarSection [])),
      ?_⟩
    simp only [exportEventsContent]
    rw [if_pos (show ([] : Str).isEmpty = true from rfl)]
    simp [List.append_assoc]
  · refine ⟨"\n\n# ".data ++ fmtYmd target.date ++ "\n\n".data
      ++ buildTasksSection (categorizeTasks tasks target) (parseCheckedItemsTasks []),
      ?_⟩
    have hrun : exportTasksContent tasks target []
        = noteTemplate (fmtYmd target.date)
          (buildTasksSection (categorizeTasks tasks target)
            (parseCheckedItemsTasks [])) := by
      simp only [exportTasksContent, mergeContent]
      rw [if_pos (show ([] : Str).isEmpty = true from rfl)]
    rw [hrun, frontmatter_decomp]
    simp only [noteTemplate]
    simp [List.append_assoc]

/-- A prior note that already lists '## Calendar' twice keeps the second
occurrence in the retained tail, so the exported content carries two
owned-heading lines: the unconditional single-heading claim fails. -/
theorem singleOwnedHeading_cex :
    headingMatchCount hCal (exportEventsContent [] "2025-11-20".data
      "## Calendar\n\n## Calendar\n".data) ≠ 1 := by decide

/-- Closed instance of `singleOwnedHeading_amended`: one all-day event over
a one-line prior note, and one due task over a fresh file. -/
theorem singleOwnedHeading_witness :
    headingMatchCount hCal (exportEventsContent [⟨some "Standup".data, true, [], [], none⟩]
        (fmtYmd ⟨2025, 11, 20⟩) "# T\n".data) = 1
    ∧ headingMatchCount hTasks (exportTasksContent
        [⟨some "Write".data, none, some ⟨2025, 11, 20⟩⟩] ⟨⟨2025, 11, 20⟩, 0⟩ []) = 1
    ∧ (∃ rest, exportEventsContent [⟨some "Standup".data, true, [], [], none⟩]
        (fmtYmd ⟨2025, 11, 20⟩) [] = frontmatter (fmtYmd ⟨2025, 11, 20⟩) ++ rest)
    ∧ (∃ rest, exportTasksContent [⟨some "Write".data, none, some ⟨2025, 11, 20⟩⟩]
        ⟨⟨2025, 11, 20⟩, 0⟩ []
        = frontmatter (fmtYmd (⟨⟨2025, 11, 20⟩, 0⟩ : Dt).date) ++ rest) :=
  singleOwnedHeading_amended [⟨some "Standup".data, true, [], [], none⟩] ⟨2025, 11, 20⟩
    [⟨some "Write".data, none, some ⟨2025, 11, 20⟩⟩] ⟨⟨2025, 11, 20⟩, 0⟩
    "# T\n".data [] (by decide) (by decide) (by decide) (by decide)

end GGT
